import Mathlib

/-!
# C-projects: a verification development

Shallow embedding of the C programs of the repository and proofs about them.

* `LyricsDeduplicator/verse_filter.c`: anagram-insensitive de-duplication of a
  linked list of verses (`lexSort`, `removeCopies`).
* `WorkdayCounter/working_days.c`: counting days and working days between two
  dates (`IsLeapYear`, `IsWorkDay`, `CountDays`).
* `NumberDecomposer/partition_counter.c`: cutting a string of digits into parts
  under a rule on neighbouring parts (`isNumeric`, `findPartitions`, `main`).

Conventions of the embedding.

* A C `char` is its character code, a natural number; a C string is the list
  of its characters (the terminating NUL is not part of the list).
* A linked list of `Verse_t` nodes is the list of the strings held by the nodes;
  in `VerseFilter.Memory` the nodes are blocks of a memory and a list is the
  address of its first node.
* A C `int` is an `Int`; the result of every arithmetic operation is reduced
  to the 32-bit two's complement range by `wrapInt`.
* A C `long` has 64 bits; `atol` is the `strtol` of the GNU C library in base
  10, which gives `LONG_MAX` or `LONG_MIN` for a value out of range.
* What `printf` writes is the list of the partitions printed, in order.
* The standard input is the list of its characters; `fgets` takes from it at
  most as many as its buffer holds, and a string in a buffer ends at the first
  NUL.
-/

namespace VerseFilter

/-! ## Characters and strings -/

/-- The macro `MAX_VERSE_LENGTH`: size of the buffer `verse` of a node. -/
def MAX_VERSE_LENGTH : Nat := 100

/-- The function `isupper` of `<ctype.h>` in the C locale: codes of `A` to `Z`. -/
def isupper (c : Nat) : Bool := decide (65 ≤ c) && decide (c ≤ 90)

/-- The function `islower` of `<ctype.h>` in the C locale: codes of `a` to `z`. -/
def islower (c : Nat) : Bool := decide (97 ≤ c) && decide (c ≤ 122)

/-- The function `isalpha` of `<ctype.h>` in the C locale. -/
def isalpha (c : Nat) : Bool := isupper c || islower c

/-- The function `tolower` of `<ctype.h>` in the C locale. -/
def tolower (c : Nat) : Nat := if isupper c then c + 32 else c

/-- The character codes of a Lean string literal, used to write test inputs. -/
def str (s : String) : List Nat := s.toList.map Char.toNat

/-! ## The comparator and the sort -/

/-- The comparator `sortChars`: a non-letter on the left compares greater than
anything, a non-letter on the right compares greater than a letter, and two
letters compare by code. -/
def sortChars (c1 c2 : Nat) : Int :=
  if !isalpha c1 then 1
  else if !isalpha c2 then -1
  else (if c1 > c2 then 1 else 0) - (if c1 < c2 then 1 else 0)

/-- The merge loop of the library sort: while both runs are non-empty, the head
of the left run is taken when `cmp left right ≤ 0` and the head of the right
run otherwise; what is left of a run is appended. The first argument bounds the
number of iterations. -/
def mergeRuns (cmp : Nat → Nat → Int) : Nat → List Nat → List Nat → List Nat
  | 0, b1, b2 => b1 ++ b2
  | _ + 1, [], b2 => b2
  | _ + 1, b1, [] => b1
  | n + 1, x :: b1, y :: b2 =>
    if cmp x y ≤ 0 then x :: mergeRuns cmp n b1 (y :: b2)
    else y :: mergeRuns cmp n (x :: b1) b2

/-- The recursive merge sort behind `qsort` in the GNU C library
(`msort_with_tmp`): an array of at most one element is left alone, otherwise
the first `n / 2` elements and the remaining ones are sorted and merged. The
first argument bounds the recursion depth. -/
def msortWithTmp (cmp : Nat → Nat → Int) : Nat → List Nat → List Nat
  | 0, b => b
  | depth + 1, b =>
    if b.length ≤ 1 then b
    else
      let b1 := msortWithTmp cmp depth (b.take (b.length / 2))
      let b2 := msortWithTmp cmp depth (b.drop (b.length / 2))
      mergeRuns cmp (b1.length + b2.length) b1 b2

/-- The library function `qsort` on an array of `char`, as the merge sort of
the GNU C library driven by the comparator `cmp`. -/
def qsort (cmp : Nat → Nat → Int) (b : List Nat) : List Nat :=
  msortWithTmp cmp b.length b

/-- The function `lexSort`: the copy of `line` is lower-cased character by
character, sorted by `qsort` with `sortChars`, and compacted to its letters. -/
def lexSort (line : List Nat) : List Nat :=
  let copy := line.map (fun c => if isupper c then tolower c else c)
  let sorted := qsort sortChars copy
  sorted.filter isalpha

/-- The order in which `sortChars` leaves two array positions: when the later
element is a letter, the earlier one is a letter of at most the same code. -/
def LettersFirst (x y : Nat) : Prop := isalpha y = true → isalpha x = true ∧ x ≤ y

/-! ## The linked list -/

/-- The function `createVerse`: a new node holding the first
`MAX_VERSE_LENGTH - 1` characters of `verse`, in front of `next`. -/
def createVerse (next : List (List Nat)) (verse : List Nat) : List (List Nat) :=
  verse.take (MAX_VERSE_LENGTH - 1) :: next

/-- The loop of `copyList`: one new node per remaining node `cur`, appended at
the tail. -/
def copyListLoop : List (List Nat) → List (List Nat)
  | [] => []
  | cur :: rest => createVerse (copyListLoop rest) cur

/-- The function `copyList`: `NULL` for the empty list, otherwise a fresh node
for the head followed by fresh nodes for the rest. -/
def copyList : List (List Nat) → List (List Nat)
  | [] => []
  | cur :: rest => createVerse (copyListLoop rest) cur

/-- The inner loop of `removeCopies`: every node `cur` after the base whose
sorted letters equal `sortedBase` is unlinked by `deleteNode`, the others are
kept. -/
def removeCopiesScan (sortedBase : List Nat) : List (List Nat) → List (List Nat)
  | [] => []
  | cur :: rest =>
    if lexSort cur = sortedBase then removeCopiesScan sortedBase rest
    else cur :: removeCopiesScan sortedBase rest

/-- The outer loop of `removeCopies`, from the node `base` on: the nodes after
`base` are scanned with the key of `base`, then `base` moves to its successor
in the list that is left. The first argument bounds the number of iterations. -/
def removeCopiesLoop : Nat → List (List Nat) → List (List Nat)
  | 0, l => l
  | _ + 1, [] => []
  | n + 1, base :: rest =>
    base :: removeCopiesLoop n (removeCopiesScan (lexSort base) rest)

/-- The function `removeCopies`: the input is copied and the copy is filtered;
the loop runs at most once per node of the copy. -/
def removeCopies (list : List (List Nat)) : List (List Nat) :=
  let copy := copyList list
  removeCopiesLoop copy.length copy

/-- A list of verses as the C type allows it: every node holds a string of
fewer than `MAX_VERSE_LENGTH` characters. -/
def WellFormed (list : List (List Nat)) : Prop :=
  ∀ v ∈ list, v.length < MAX_VERSE_LENGTH

instance (list : List (List Nat)) : Decidable (WellFormed list) := by
  unfold WellFormed; infer_instance

/-- The single-pass formulation of the specification, with the set `seen` of
the keys met so far: a line is appended to the output only on first sight of
its key, and its key is then added to `seen`. -/
def dedupeSeen : List (List Nat) → List (List Nat) → List (List Nat)
  | _, [] => []
  | seen, line :: rest =>
    if lexSort line ∈ seen then dedupeSeen seen rest
    else line :: dedupeSeen (lexSort line :: seen) rest

/-- The single-pass reference of the specification: iterate the input once,
starting with no key seen. -/
def dedupeSinglePass (lines : List (List Nat)) : List (List Nat) :=
  dedupeSeen [] lines

/-- Whether no line at an index below `i` has the key of line `i`. -/
def firstOfKey (list : List (List Nat)) (i : Nat) : Bool :=
  decide (∀ j, j < i → lexSort (list.getD j []) ≠ lexSort (list.getD i []))

/-! ## The lists built by `main` -/

/-- The list `lvl2_raw` of `main`. -/
def lvl2Raw : List (List Nat) :=
  createVerse (createVerse [] (str "seMASjak*666*AhoJ")) (str "Ahoj, jak se mas")

/-- The list `lvl3_raw` of `main`. -/
def lvl3Raw : List (List Nat) :=
  createVerse (createVerse (createVerse [] (str "cbacba")) (str "bbb")) (str "abcabc")

/-- The list `lvl4_raw` of `main`. -/
def lvl4Raw : List (List Nat) :=
  createVerse (createVerse (createVerse (createVerse (createVerse (createVerse (createVerse []
    (str " AA  bbcc")) (str "bcab  CA")) (str "abca  BC")) (str "b aaa")) (str "aa  ab"))
    (str "  *")) (str "    ")

/-- The list `lvl5_raw` of `main`. -/
def lvl5Raw : List (List Nat) :=
  createVerse (createVerse (createVerse (createVerse [] (str "prejtojeee"))
    (str "eR88*@8t*@(*(^%#*)o        EP7Je@!e      1J")) (str "PJEEErToej")) (str "Prej To JEEE")

end VerseFilter
namespace WorkingDays

/-! ## Machine integers -/

/-- The largest value of a C `int`. -/
def INT_MAX : Int := 2147483647

/-- The smallest value of a C `int`. -/
def INT_MIN : Int := -2147483648

/-- Reduction of an integer to the 32-bit two's complement range. -/
def wrapInt (x : Int) : Int := (x + 2147483648) % 4294967296 - 2147483648

/-- Addition of two C `int`s. -/
def addInt (a b : Int) : Int := wrapInt (a + b)

/-- Subtraction of two C `int`s. -/
def subInt (a b : Int) : Int := wrapInt (a - b)

/-- The read `a[i]` of an array of `int`; the program only reads inside the
array, a read outside of it gives 0 here. -/
def arrayGet (a : List Int) (i : Int) : Int :=
  if 0 ≤ i then a.getD i.toNat 0 else 0

/-! ## The program -/

/-- The structure `Result`. -/
structure Result where
  totalDays : Int
  workDays : Int
  deriving DecidableEq

/-- The function `IsLeapYear`; `%` of C truncates towards zero. -/
def IsLeapYear (y : Int) : Bool :=
  y.tmod 4 == 0 && (y.tmod 100 != 0 || y.tmod 400 == 0)

/-- The array `daysInMonth` with its entry 1 set to `feb`. -/
def daysInMonth (feb : Int) : List Int :=
  [31, feb, 31, 30, 31, 30, 31, 31, 30, 31, 30, 31]

/-- The array `offset` of `IsWorkDay`. -/
def offset : List Int := [0, 3, 2, 5, 0, 3, 5, 1, 4, 6, 2, 4]

/-- The function `IsWorkDay`: the date is validated against the month lengths
of its own year, the fixed holidays are excluded, and the day of the week is
computed from the year, the month offset and the day. -/
def IsWorkDay (y m d : Int) : Bool :=
  let dim := daysInMonth (if IsLeapYear y then 29 else 28)
  if y < 2000 ∨ m < 1 ∨ m > 12 ∨ d < 1 ∨ d > arrayGet dim (subInt m 1) then false
  else if (m = 1 ∧ d = 1) ∨
      (m = 5 ∧ (d = 1 ∨ d = 8)) ∨
      (m = 7 ∧ (d = 5 ∨ d = 6)) ∨
      (m = 9 ∧ d = 28) ∨
      (m = 10 ∧ d = 28) ∨
      (m = 11 ∧ d = 17) ∨
      (m = 12 ∧ (d = 24 ∨ d = 25 ∨ d = 26)) then false
  else
    let y := if m < 3 then subInt y 1 else y
    let weekday :=
      (addInt (addInt (addInt (subInt (addInt y (y.tdiv 4)) (y.tdiv 100)) (y.tdiv 400))
        (arrayGet offset (subInt m 1))) d).tmod 7
    decide (weekday ≥ 1 ∧ weekday ≤ 5)

/-- The variables that the loop of `CountDays` changes. -/
structure LoopState where
  y1 : Int
  m1 : Int
  d1 : Int
  result : Result
  deriving DecidableEq

/-- The condition of the `while` loop of `CountDays`. -/
def loopCond (y2 m2 d2 : Int) (s : LoopState) : Bool :=
  decide (s.y1 < y2 ∨ (s.y1 = y2 ∧ s.m1 < m2) ∨ (s.y1 = y2 ∧ s.m1 = m2 ∧ s.d1 ≤ d2))

/-- The body of the `while` loop of `CountDays`: the counters are incremented,
the day is advanced, entry 1 of `daysInMonth` is set from the current year, and
the day and the month roll over. -/
def loopBody (s : LoopState) : LoopState :=
  let workDays := if IsWorkDay s.y1 s.m1 s.d1 then addInt s.result.workDays 1
    else s.result.workDays
  let totalDays := addInt s.result.totalDays 1
  let d1 := addInt s.d1 1
  let dim := daysInMonth (if IsLeapYear s.y1 then 29 else 28)
  let dayOver : Bool := decide (d1 > arrayGet dim (subInt s.m1 1))
  let d1 := if dayOver then 1 else d1
  let m1 := if dayOver then addInt s.m1 1 else s.m1
  let monthOver : Bool := decide (m1 > 12)
  let y1 := if monthOver then addInt s.y1 1 else s.y1
  let m1 := if monthOver then 1 else m1
  { y1 := y1, m1 := m1, d1 := d1, result := { totalDays := totalDays, workDays := workDays } }

/-- The `while` loop of `CountDays`, run for at most `fuel` tests of its
condition; `none` when the loop has not ended by then. -/
def CountDaysLoop (y2 m2 d2 : Int) : Nat → LoopState → Option Result
  | 0, _ => none
  | fuel + 1, s =>
    if loopCond y2 m2 d2 s then CountDaysLoop y2 m2 d2 fuel (loopBody s)
    else some s.result

/-- The condition of the `if` statement of `CountDays` that validates the input
range; entry 1 of `daysInMonth` is 29 when either year is a leap year. -/
def invalidRange (y1 m1 d1 y2 m2 d2 : Int) : Bool :=
  let dim := daysInMonth (if IsLeapYear y1 || IsLeapYear y2 then 29 else 28)
  decide (y1 > y2 ∨
    (y1 = y2 ∧ m1 > m2) ∨
    (y1 = y2 ∧ m1 = m2 ∧ d1 > d2) ∨
    y1 < 2000 ∨ y2 < 2000 ∨
    m1 < 1 ∨ m1 > 12 ∨ m2 < 1 ∨ m2 > 12 ∨
    d1 < 1 ∨ d1 > arrayGet dim (subInt m1 1) ∨
    d2 < 1 ∨ d2 > arrayGet dim (subInt m2 1))

/-- The function `CountDays`, its loop run for at most `fuel` tests of the
condition: an input that fails the range check gives the result (-1, -1), and
any other input goes through the loop with both counters at 0. -/
def CountDays (fuel : Nat) (y1 m1 d1 y2 m2 d2 : Int) : Option Result :=
  if invalidRange y1 m1 d1 y2 m2 d2 then
    some { totalDays := -1, workDays := -1 }
  else
    CountDaysLoop y2 m2 d2 fuel
      { y1 := y1, m1 := m1, d1 := d1, result := { totalDays := 0, workDays := 0 } }

/-! ## The calendar of the specification -/

/-- A leap year of the Gregorian calendar: divisible by 4 and not by 100, or
divisible by 400. -/
def GregorianLeap (y : Int) : Prop := y % 4 = 0 ∧ (y % 100 ≠ 0 ∨ y % 400 = 0)

instance (y : Int) : Decidable (GregorianLeap y) := by
  unfold GregorianLeap; infer_instance

/-- The length of month `m` in year `y` of the Gregorian calendar. -/
def monthLength (y m : Int) : Int :=
  if m = 2 then (if GregorianLeap y then 29 else 28)
  else if m = 4 ∨ m = 6 ∨ m = 9 ∨ m = 11 then 30
  else 31

/-- A valid calendar date: a month from 1 to 12 and a day from 1 to the length
of that month in that year. -/
def ValidDate (y m d : Int) : Prop := 1 ≤ m ∧ m ≤ 12 ∧ 1 ≤ d ∧ d ≤ monthLength y m

instance (y m d : Int) : Decidable (ValidDate y m d) := by
  unfold ValidDate; infer_instance

/-- The date `(y1, m1, d1)` is not later than `(y2, m2, d2)`. -/
def DateLe (y1 m1 d1 y2 m2 d2 : Int) : Prop :=
  y1 < y2 ∨ (y1 = y2 ∧ m1 < m2) ∨ (y1 = y2 ∧ m1 = m2 ∧ d1 ≤ d2)

instance (y1 m1 d1 y2 m2 d2 : Int) : Decidable (DateLe y1 m1 d1 y2 m2 d2) := by
  unfold DateLe; infer_instance

/-- The number of days of year `y` before its month `m`: the sum of the lengths
of the months 1 to `m - 1`. -/
def daysBeforeMonth (y m : Int) : Int :=
  ((List.range (m - 1).toNat).map (fun (k : Nat) => monthLength y ((k : Int) + 1))).sum

/-- The day number of a date of the Gregorian calendar, counted from
1 January of year 1 as day 1: 365 days per earlier year, one more per earlier
leap year, the days of the earlier months of the year, and the day. -/
def dayNumber (y m d : Int) : Int :=
  365 * (y - 1) + ((y - 1) / 4 - (y - 1) / 100 + (y - 1) / 400) + daysBeforeMonth y m + d

/-- The calendar dates from `(y1, m1, d1)` to `(y2, m2, d2)`, both included. -/
def datesBetween (y1 m1 d1 y2 m2 d2 : Int) : Finset (Int × Int × Int) :=
  (Finset.Icc y1 y2 ×ˢ Finset.Icc (1 : Int) 12 ×ˢ Finset.Icc (1 : Int) 31).filter
    (fun x => ValidDate x.1 x.2.1 x.2.2 ∧ DateLe y1 m1 d1 x.1 x.2.1 x.2.2 ∧
      DateLe x.1 x.2.1 x.2.2 y2 m2 d2)

/-- The fixed holidays: 1 January, 1 and 8 May, 5 and 6 July, 28 September,
28 October, 17 November, 24 to 26 December. -/
def Holiday (m d : Int) : Prop :=
  (m = 1 ∧ d = 1) ∨ (m = 5 ∧ d = 1) ∨ (m = 5 ∧ d = 8) ∨ (m = 7 ∧ d = 5) ∨ (m = 7 ∧ d = 6) ∨
  (m = 9 ∧ d = 28) ∨ (m = 10 ∧ d = 28) ∨ (m = 11 ∧ d = 17) ∨
  (m = 12 ∧ d = 24) ∨ (m = 12 ∧ d = 25) ∨ (m = 12 ∧ d = 26)

instance (m d : Int) : Decidable (Holiday m d) := by
  unfold Holiday; infer_instance

/-- The day of the week of a date, 0 for Sunday to 6 for Saturday:
1 January 2000 is a Saturday and every following day advances it by one. -/
def dayOfWeek (y m d : Int) : Int := (dayNumber y m d - dayNumber 2000 1 1 + 6) % 7

/-- A working day of the specification: a date that falls on Monday to Friday
and is not a fixed holiday. -/
def WorkingDate (y m d : Int) : Prop :=
  1 ≤ dayOfWeek y m d ∧ dayOfWeek y m d ≤ 5 ∧ ¬ Holiday m d

instance (y m d : Int) : Decidable (WorkingDate y m d) := by
  unfold WorkingDate; infer_instance

/-- The number of working days from `(y1, m1, d1)` to `(y2, m2, d2)`, both
included. -/
def workingDaysBetween (y1 m1 d1 y2 m2 d2 : Int) : Nat :=
  ((datesBetween y1 m1 d1 y2 m2 d2).filter (fun x => WorkingDate x.1 x.2.1 x.2.2)).card

/-- The last year whose day of the week `IsWorkDay` computes without leaving
the range of `int`: the largest `y` with `y + y / 4 ≤ INT_MAX`. -/
def LAST_YEAR : Int := 1717986918

/-- The calendar date that follows the date `(y, m, d)`. -/
def nextDate (y m d : Int) : Int × Int × Int :=
  if d < monthLength y m then (y, m, d + 1)
  else if m < 12 then (y, m + 1, 1)
  else (y + 1, 1, 1)

/-- The date `(y1, m1, d1)` is earlier than `(y2, m2, d2)`. -/
def DateLt (y1 m1 d1 y2 m2 d2 : Int) : Prop :=
  y1 < y2 ∨ (y1 = y2 ∧ m1 < m2) ∨ (y1 = y2 ∧ m1 = m2 ∧ d1 < d2)

end WorkingDays


namespace VerseFilter.Memory

/-! ## The nodes in memory

The list operations once more, this time on the memory that holds the nodes, so
that what a call leaves of the list it was given can be stated. The strings
that `lexSort` allocates and `removeCopies` frees are blocks of their own and
hold no node; `lexSort` stays the function of its argument defined above. -/

/-- The type `Verse_t`: the string held by the buffer `verse`, and the address
`next` of the following node; the address 0 is `NULL`. -/
structure Verse_t where
  verse : List Nat
  next : Nat
  deriving DecidableEq

/-- The memory of nodes: entry `a` is the block at address `a + 1`, which
holds a node or has been freed. -/
abbrev Heap := List (Option Verse_t)

/-- The node read through the pointer `a`; nothing is read through `NULL`, a
freed block or an address never handed out. -/
def lookup (h : Heap) : Nat → Option Verse_t
  | 0 => none
  | a + 1 => h[a]?.join

/-- The memory after the block at address `a` is overwritten. -/
def store (h : Heap) : Nat → Option Verse_t → Heap
  | 0, _ => h
  | a + 1, node => h.set a node

/-- The function `createVerse`: `malloc` hands out the next unused address, and
the block receives the first `MAX_VERSE_LENGTH - 1` characters of `verse` and
the pointer `next`. -/
def createVerse (h : Heap) (next : Nat) (verse : List Nat) : Nat × Heap :=
  (h.length + 1, h ++ [some { verse := verse.take (MAX_VERSE_LENGTH - 1), next := next }])

/-- The loop of `copyList`: while `cur` is not `NULL`, a new node with the
string of `cur` is linked behind `tail`, and `tail` and `cur` move on. The
first argument bounds the number of iterations; `none` stands for a read
through an invalid pointer or for a loop that has not ended. -/
def copyListLoop : Nat → Heap → Nat → Nat → Option Heap
  | 0, _, _, _ => none
  | fuel + 1, h, cur, tail =>
    if cur = 0 then some h
    else
      match lookup h cur with
      | none => none
      | some c =>
        let created := createVerse h 0 c.verse
        match lookup created.2 tail with
        | none => none
        | some t =>
          let h2 := store created.2 tail (some { t with next := created.1 })
          match lookup h2 tail, lookup h2 cur with
          | some t2, some c2 => copyListLoop fuel h2 c2.next t2.next
          | _, _ => none

/-- The function `copyList`: `NULL` for `NULL`, otherwise a new node for the
head and the loop for the nodes after it; the result is the head of the copy
and the memory left. -/
def copyList (fuel : Nat) (h : Heap) (list : Nat) : Option (Nat × Heap) :=
  if list = 0 then some (0, h)
  else
    match lookup h list with
    | none => none
    | some c =>
      let created := createVerse h 0 c.verse
      match lookup created.2 list with
      | none => none
      | some c1 =>
        match copyListLoop fuel created.2 c1.next created.1 with
        | none => none
        | some h2 => some (created.1, h2)

/-- The function `deleteNode`: the successor of `current` is read, `current`
is freed, and `previous` is linked to the successor, which is returned. -/
def deleteNode (h : Heap) (current previous : Nat) : Option (Nat × Heap) :=
  match lookup h current with
  | none => none
  | some c =>
    let h1 := store h current none
    match lookup h1 previous with
    | none => none
    | some p => some (c.next, store h1 previous (some { p with next := c.next }))

/-- The inner loop of `removeCopies`: while `cur` is not `NULL`, the node is
deleted when its sorted letters equal `sortedBase`, otherwise `prev` and `cur`
move on. -/
def removeCopiesScan : Nat → Heap → List Nat → Nat → Nat → Option Heap
  | 0, _, _, _, _ => none
  | fuel + 1, h, sortedBase, cur, prev =>
    if cur = 0 then some h
    else
      match lookup h cur with
      | none => none
      | some c =>
        if lexSort c.verse = sortedBase then
          match deleteNode h cur prev with
          | none => none
          | some (next, h1) => removeCopiesScan fuel h1 sortedBase next prev
        else removeCopiesScan fuel h sortedBase c.next cur

/-- The outer loop of `removeCopies`: while `base` is not `NULL`, the nodes
after `base` are scanned with its sorted letters, and `base` moves to its
successor. -/
def removeCopiesLoop : Nat → Heap → Nat → Option Heap
  | 0, _, _ => none
  | fuel + 1, h, base =>
    if base = 0 then some h
    else
      match lookup h base with
      | none => none
      | some b =>
        match removeCopiesScan fuel h (lexSort b.verse) b.next base with
        | none => none
        | some h1 =>
          match lookup h1 base with
          | none => none
          | some b1 => removeCopiesLoop fuel h1 b1.next

/-- The function `removeCopies`: the list is copied and the copy is filtered;
the result is the head of the copy and the memory left. -/
def removeCopies (fuel : Nat) (h : Heap) (list : Nat) : Option (Nat × Heap) :=
  match copyList fuel h list with
  | none => none
  | some (copy, h1) =>
    match removeCopiesLoop fuel h1 copy with
    | none => none
    | some h2 => some (copy, h2)

/-- The pointer `p` is the head of a list that holds exactly the lines `l`, in
this order, and ends with `NULL`. -/
def ListRep (h : Heap) : Nat → List (List Nat) → Prop
  | p, [] => p = 0
  | p, v :: rest => ∃ c, lookup h p = some c ∧ c.verse = v ∧ ListRep h c.next rest

/-- Whether a pointer is the head of a list holding given lines can be
checked node by node. -/
def ListRep.decidable (h : Heap) : (p : Nat) → (l : List (List Nat)) → Decidable (ListRep h p l)
  | p, [] => Nat.decEq p 0
  | p, v :: rest =>
    match hc : lookup h p with
    | none => isFalse (fun ⟨_, h1, _⟩ => Option.noConfusion (hc.symm.trans h1))
    | some c =>
      if hv : c.verse = v then
        match ListRep.decidable h c.next rest with
        | isTrue hr => isTrue ⟨c, hc, hv, hr⟩
        | isFalse hr =>
          isFalse (fun ⟨_, h1, _, h3⟩ => hr (Option.some.inj (hc.symm.trans h1) ▸ h3))
      else isFalse (fun ⟨_, h1, h2, _⟩ => hv (Option.some.inj (hc.symm.trans h1) ▸ h2))

instance (h : Heap) (p : Nat) (l : List (List Nat)) : Decidable (ListRep h p l) :=
  ListRep.decidable h p l

/-- The pointer `p` is the head of a list made of the given nodes, each with
its address and its line, that ends with `NULL`. -/
def Linked (h : Heap) : Nat → List (Nat × List Nat) → Prop
  | p, [] => p = 0
  | p, node :: rest =>
    p = node.1 ∧ ∃ next, lookup h p = some { verse := node.2, next := next } ∧ Linked h next rest

/-- The list `lvl3_raw` of `main`, built in an empty memory by three calls of
`createVerse`. -/
def lvl3Raw : Nat × Heap :=
  let n1 := createVerse [] 0 (str "cbacba")
  let n2 := createVerse n1.2 n1.1 (str "bbb")
  createVerse n2.2 n2.1 (str "abcabc")

end VerseFilter.Memory
namespace PartitionCounter

open WorkingDays (wrapInt addInt INT_MAX INT_MIN)

/-! ## Library functions -/

/-- The macro `SIZE`: size of the line buffer and of the array of parts. -/
def SIZE : Nat := 1000

/-- The largest value of a C `long` (64 bits). -/
def LONG_MAX : Int := 9223372036854775807

/-- The smallest value of a C `long` (64 bits). -/
def LONG_MIN : Int := -9223372036854775808

/-- The function `isdigit` of `<ctype.h>`: codes of `0` to `9`. -/
def isdigit (c : Nat) : Bool := decide (48 ≤ c) && decide (c ≤ 57)

/-- The function `isspace` of `<ctype.h>` in the C locale: space, tab, line
feed, vertical tab, form feed, carriage return. -/
def isspace (c : Nat) : Bool := decide (c = 32) || (decide (9 ≤ c) && decide (c ≤ 13))

/-- The value of the leading decimal digits of a string, continuing from the
value `acc` of the digits already read. -/
def digitsValue : Int → List Nat → Int
  | acc, [] => acc
  | acc, c :: rest => if isdigit c then digitsValue (acc * 10 + ((c : Int) - 48)) rest else acc

/-- The library function `atol`, as `strtol` in base 10 of the GNU C library:
leading white space is skipped, a sign is read, the decimal digits that follow
give the value, and a value outside the range of `long` gives `LONG_MAX` or
`LONG_MIN`. -/
def atol (s : List Nat) : Int :=
  match s.dropWhile isspace with
  | 45 :: rest => max (- digitsValue 0 rest) LONG_MIN
  | 43 :: rest => min (digitsValue 0 rest) LONG_MAX
  | rest => min (digitsValue 0 rest) LONG_MAX

/-- The character codes of a Lean string literal, used to write test inputs. -/
def str (s : String) : List Nat := s.toList.map Char.toNat

/-! ## The program -/

/-- The function `isNumeric`: 0 at the first character that is not a digit,
1 when the end of the string is reached. -/
def isNumeric : List Nat → Bool
  | [] => true
  | c :: rest => if !isdigit c then false else isNumeric rest

/-- The text written by `printPartition`: `* `, the parts separated by
commas, and a line feed. -/
def printPartition (parts : List (List Nat)) : List Nat :=
  [42, 32] ++ [44].intercalate parts ++ [10]

/-- The counter `*count` and what has been printed: the array of parts of each
call of `printPartition`, in order. -/
structure Run where
  count : Int
  output : List (List (List Nat))
  deriving DecidableEq

/-- The variable `valid` of `findPartitions` for the part `part`: at depth 0
every part is valid; otherwise the part is invalid when the previous part
`current[depth - 1]` is even and greater than it, both read by `atol`. -/
def partValid (current : List (List Nat)) (part : List Nat) : Bool :=
  match current.getLast? with
  | none => true
  | some last =>
    let prev := atol last
    let curr := atol part
    !(decide (prev.tmod 2 = 0) && decide (curr < prev))

/-- The function `findPartitions`, with the array `current` given by its first
`depth` entries: on the empty sequence the partition is printed (unless
`skipPrint`) and counted; otherwise every prefix `part` of length `i` from 1 to
`len` that is valid is stored at `current[depth]` and the rest of the sequence
is partitioned. The first argument bounds the depth of the recursion. -/
def findPartitions : Nat → List Nat → List (List Nat) → Bool → Run → Run
  | 0, _, _, _, run => run
  | fuel + 1, sequence, current, skipPrint, run =>
    if sequence.length = 0 then
      { count := addInt run.count 1,
        output := if skipPrint then run.output else run.output ++ [current] }
    else
      (List.range' 1 sequence.length).foldl
        (fun run i =>
          if partValid current (sequence.take i) then
            findPartitions fuel (sequence.drop i) (current ++ [sequence.take i]) skipPrint run
          else run)
        run

/-- The call of `findPartitions` in `main`: at depth 0, with the counter at 0
and nothing printed yet. -/
def partitionRun (sequence : List Nat) (skipPrint : Bool) : Run :=
  findPartitions (sequence.length + 1) sequence [] skipPrint { count := 0, output := [] }

/-- The characters that `fgets` stores when at most `n` more fit: characters
are taken from the input until `n` have been taken, a line feed has been taken,
or the input ends; the second component is the input left. -/
def fgetsRead : Nat → List Nat → List Nat × List Nat
  | 0, stdin => ([], stdin)
  | _ + 1, [] => ([], [])
  | n + 1, c :: rest =>
    if c = 10 then ([c], rest)
    else (c :: (fgetsRead n rest).1, (fgetsRead n rest).2)

/-- The library function `fgets` on a buffer of `size` bytes: `NULL` (here
`none`) when the input has ended, otherwise at most `size - 1` characters are
stored, followed by a NUL. -/
def fgets (size : Nat) (stdin : List Nat) : Option (List Nat × List Nat) :=
  if stdin = [] then none else some (fgetsRead (size - 1) stdin)

/-- The string that the functions of `<string.h>` and `<ctype.h>` see in a
buffer: the characters before the first NUL. -/
def cString (buffer : List Nat) : List Nat := buffer.takeWhile (fun c => decide (c ≠ 0))

/-- The body of the loop of `main`, for the characters that `fgets` stored in
`line`: the string is cut at its first line feed; the result is `none` when
`Invalid input.` is printed and `main` returns 1; otherwise it is the counter
and the output of `findPartitions`, called on the digits that follow the first
character and the white space after it, printing when the first character is
`?` and not when it is `#`. -/
def mainLine (buffer : List Nat) : Option Run :=
  let line := (cString buffer).takeWhile (fun c => decide (c ≠ 10))
  if line.head? ≠ some 63 ∧ line.head? ≠ some 35 then none
  else
    let iter := (line.drop 1).dropWhile isspace
    if iter = [] then none
    else if !isNumeric iter then none
    else some (partitionRun iter (decide (line.head? = some 35)))

/-- The loop of `main` on the standard input `stdin`, after the runs `done`:
while `fgets` reads a buffer of `SIZE` bytes, the body is run; the result is
the runs completed and the value returned by `main`, 1 after `Invalid input.`
and 0 at the end of the input. The first argument bounds the number of
iterations. -/
def mainLoop : Nat → List Nat → List Run → Option (List Run × Int)
  | 0, _, _ => none
  | fuel + 1, stdin, done =>
    match fgets SIZE stdin with
    | none => some (done, 0)
    | some (buffer, rest) =>
      match mainLine buffer with
      | none => some (done, 1)
      | some run => mainLoop fuel rest (done ++ [run])

/-- The function `main`: every call of `fgets` takes at least one character,
so the loop runs at most once per character of the input and once more. -/
def main (stdin : List Nat) : Option (List Run × Int) :=
  mainLoop (stdin.length + 1) stdin []

/-- What `findPartitions` prints, as a function of the sequence and of the
parts chosen so far. -/
def emitted : Nat → List Nat → List (List Nat) → List (List (List Nat))
  | 0, _, _ => []
  | fuel + 1, sequence, current =>
    if sequence.length = 0 then [current]
    else
      (List.range' 1 sequence.length).flatMap
        (fun i =>
          if partValid current (sequence.take i) then
            emitted fuel (sequence.drop i) (current ++ [sequence.take i])
          else [])

/-- The state of a run after the partitions of the list `found` have been
counted, and printed unless `skipPrint`. -/
def Run.after (run : Run) (skipPrint : Bool) (found : List (List (List Nat))) : Run :=
  { count := wrapInt (run.count + found.length),
    output := if skipPrint then run.output else run.output ++ found }

/-- The rule that `findPartitions` applies to the parts `parts` chosen after
the parts `current`: each part is valid next to the part before it. -/
def codeValid : List (List Nat) → List (List Nat) → Bool
  | _, [] => true
  | current, p :: parts => partValid current p && codeValid (current ++ [p]) parts

/-! ## The partitions of the specification -/

/-- The numeric value of a string of decimal digits. -/
def numericValue (s : List Nat) : Nat := s.foldl (fun acc c => acc * 10 + (c - 48)) 0

/-- A cut of the string `s` into consecutive non-empty parts. -/
def IsCut (s : List Nat) (parts : List (List Nat)) : Prop :=
  parts.flatten = s ∧ ∀ p, p ∈ parts → p ≠ []

/-- The cuts of a string that has one more character `c` in front: `c` is a
part of its own or is added to the first part. -/
def cutsCons (c : Nat) : List (List Nat) → List (List (List Nat))
  | [] => [[[c]]]
  | p :: parts => [[c] :: p :: parts, (c :: p) :: parts]

/-- All the ways to cut a string into consecutive non-empty parts. -/
def cuts : List Nat → List (List (List Nat))
  | [] => [[]]
  | c :: s => (cuts s).flatMap (cutsCons c)

/-- The condition between a part `a` and a later part `b`: when the value of
`a` is even, the value of `b` is at least the value of `a`. -/
def EvenLe (a b : List Nat) : Prop :=
  numericValue a % 2 = 0 → numericValue a ≤ numericValue b

instance (a b : List Nat) : Decidable (EvenLe a b) := by
  unfold EvenLe; infer_instance

/-- The rule of the specification: every even part is at most every part
after it. -/
def ValidAll (parts : List (List Nat)) : Prop := parts.Pairwise EvenLe

instance (parts : List (List Nat)) : Decidable (ValidAll parts) := by
  unfold ValidAll; infer_instance

/-- The rule on neighbours: every even part is at most the part that follows
it. -/
def ValidNext : List (List Nat) → Prop
  | a :: b :: rest => EvenLe a b ∧ ValidNext (b :: rest)
  | _ => True

/-- The rule on neighbours can be checked part by part. -/
def ValidNext.decidable : (parts : List (List Nat)) → Decidable (ValidNext parts)
  | [] => isTrue trivial
  | [_] => isTrue trivial
  | a :: b :: rest =>
    @instDecidableAnd (EvenLe a b) (ValidNext (b :: rest)) inferInstance
      (ValidNext.decidable (b :: rest))

instance (parts : List (List Nat)) : Decidable (ValidNext parts) := ValidNext.decidable parts

/-- The string of `n` characters `0`. -/
def zeros (n : Nat) : List Nat := List.replicate n 48

end PartitionCounter

/-! # Theorems about the verse filter -/

namespace VerseFilter

/-! ## The sort -/

theorem sortChars_le_iff (x y : Nat) :
    sortChars x y ≤ 0 ↔ isalpha x = true ∧ (isalpha y = true → x ≤ y) := by
  unfold sortChars
  cases hx : isalpha x <;> cases hy : isalpha y <;> simp
  by_cases h1 : y < x <;> by_cases h2 : x < y <;> simp [h1, h2] <;> omega

theorem mergeRuns_perm (cmp : Nat → Nat → Int) (n : Nat) (b1 b2 : List Nat) :
    (mergeRuns cmp n b1 b2).Perm (b1 ++ b2) := by
  induction n generalizing b1 b2 with
  | zero => simp [mergeRuns]
  | succ n ih =>
    cases b1 with
    | nil => simp [mergeRuns]
    | cons x b1 =>
      cases b2 with
      | nil => simp [mergeRuns]
      | cons y b2 =>
        simp only [mergeRuns]
        split
        · exact (ih b1 (y :: b2)).cons x
        · refine ((ih (x :: b1) b2).cons y).trans ?_
          exact (@List.perm_middle _ y (x :: b1) b2).symm

theorem msortWithTmp_perm (cmp : Nat → Nat → Int) (depth : Nat) (b : List Nat) :
    (msortWithTmp cmp depth b).Perm b := by
  induction depth generalizing b with
  | zero => simp [msortWithTmp]
  | succ d ih =>
    simp only [msortWithTmp]
    split
    · exact List.Perm.refl _
    · refine (mergeRuns_perm cmp _ _ _).trans ?_
      refine ((ih _).append (ih _)).trans ?_
      rw [List.take_append_drop]

theorem qsort_perm (cmp : Nat → Nat → Int) (b : List Nat) : (qsort cmp b).Perm b :=
  msortWithTmp_perm cmp b.length b

theorem mergeRuns_lettersFirst (n : Nat) (b1 b2 : List Nat)
    (hn : b1.length + b2.length ≤ n)
    (h1 : b1.Pairwise LettersFirst) (h2 : b2.Pairwise LettersFirst) :
    (mergeRuns sortChars n b1 b2).Pairwise LettersFirst := by
  induction n generalizing b1 b2 with
  | zero =>
    have e1 : b1 = [] := List.length_eq_zero.mp (by omega)
    have e2 : b2 = [] := List.length_eq_zero.mp (by omega)
    subst e1 e2
    simp [mergeRuns]
  | succ n ih =>
    cases b1 with
    | nil => simpa [mergeRuns] using h2
    | cons x b1 =>
      cases b2 with
      | nil => simpa [mergeRuns] using h1
      | cons y b2 =>
        simp only [mergeRuns]
        rw [List.pairwise_cons] at h1 h2
        simp only [List.length_cons] at hn
        split
        · rename_i hc
          rw [sortChars_le_iff] at hc
          rw [List.pairwise_cons]
          refine ⟨?_, ih b1 (y :: b2) (by simp only [List.length_cons]; omega) h1.2
            (List.pairwise_cons.mpr h2)⟩
          intro z hz
          have hz2 := (mergeRuns_perm sortChars n b1 (y :: b2)).mem_iff.mp hz
          rcases List.mem_append.mp hz2 with hz3 | hz3
          · exact h1.1 z hz3
          · rcases List.mem_cons.mp hz3 with hz4 | hz4
            · subst hz4
              intro ha
              exact ⟨hc.1, hc.2 ha⟩
            · intro ha
              have := h2.1 z hz4 ha
              exact ⟨hc.1, le_trans (hc.2 this.1) this.2⟩
        · rename_i hc
          rw [sortChars_le_iff] at hc
          rw [List.pairwise_cons]
          refine ⟨?_, ih (x :: b1) b2 (by simp only [List.length_cons]; omega)
            (List.pairwise_cons.mpr h1) h2.2⟩
          intro z hz
          have hz2 := (mergeRuns_perm sortChars n (x :: b1) b2).mem_iff.mp hz
          have key : isalpha x = true → isalpha y = true ∧ y ≤ x := by
            intro hx
            by_cases hy : isalpha y = true
            · refine ⟨hy, ?_⟩
              by_contra hlt
              exact hc ⟨hx, fun _ => by omega⟩
            · exact absurd ⟨hx, fun h => absurd h hy⟩ hc
          rcases List.mem_append.mp hz2 with hz3 | hz3
          · rcases List.mem_cons.mp hz3 with hz4 | hz4
            · subst hz4
              exact key
            · intro ha
              have hxz := h1.1 z hz4 ha
              have hyx := key hxz.1
              exact ⟨hyx.1, le_trans hyx.2 hxz.2⟩
          · exact h2.1 z hz3

theorem msortWithTmp_lettersFirst (depth : Nat) (b : List Nat) (hd : b.length ≤ depth) :
    (msortWithTmp sortChars depth b).Pairwise LettersFirst := by
  induction depth generalizing b with
  | zero =>
    have e : b = [] := List.length_eq_zero.mp (by omega)
    subst e
    simp [msortWithTmp]
  | succ d ih =>
    simp only [msortWithTmp]
    split
    · rename_i hlen
      match b, hlen with
      | [], _ => exact List.Pairwise.nil
      | [x], _ => exact List.pairwise_singleton _ _
      | _ :: _ :: _, h => simp at h
    · rename_i hlen
      refine mergeRuns_lettersFirst _ _ _ le_rfl (ih _ ?_) (ih _ ?_)
      · rw [List.length_take]; omega
      · rw [List.length_drop]; omega

theorem qsort_lettersFirst (b : List Nat) : (qsort sortChars b).Pairwise LettersFirst :=
  msortWithTmp_lettersFirst b.length b le_rfl

/-! ## The canonical key -/

theorem isalpha_lower (c : Nat) :
    isalpha (if isupper c then tolower c else c) = isalpha c := by
  unfold tolower isalpha isupper islower
  by_cases h1 : 65 ≤ c <;> by_cases h2 : c ≤ 90 <;> simp [h1, h2]

theorem lower_eq_tolower (c : Nat) : (if isupper c then tolower c else c) = tolower c := by
  unfold tolower
  split <;> rfl

theorem islower_tolower (c : Nat) (h : isalpha c = true) : islower (tolower c) = true := by
  unfold tolower isalpha isupper islower at *
  by_cases h1 : 65 ≤ c <;> by_cases h2 : c ≤ 90 <;> simp [h1, h2] at h ⊢ <;> omega

theorem lexSort_perm (line : List Nat) :
    (lexSort line).Perm ((line.filter isalpha).map tolower) := by
  unfold lexSort
  refine ((qsort_perm sortChars _).filter isalpha).trans ?_
  rw [List.filter_map]
  have h1 : (isalpha ∘ fun c => if isupper c then tolower c else c) = isalpha := by
    funext c
    exact isalpha_lower c
  have h2 : (fun c => if isupper c then tolower c else c) = tolower := by
    funext c
    exact lower_eq_tolower c
  rw [h1, h2]

theorem lexSort_sorted (line : List Nat) : (lexSort line).Sorted (· ≤ ·) := by
  unfold lexSort
  have h := (qsort_lettersFirst (line.map fun c => if isupper c then tolower c else c)).filter
    isalpha
  refine List.Pairwise.imp_of_mem ?_ h
  intro x y _ hy hxy
  exact (hxy (List.mem_filter.mp hy).2).2

theorem lexSort_eq_of_perm (a b : List Nat)
    (h : ((a.filter isalpha).map tolower).Perm ((b.filter isalpha).map tolower)) :
    lexSort a = lexSort b :=
  List.eq_of_perm_of_sorted (((lexSort_perm a).trans h).trans (lexSort_perm b).symm)
    (lexSort_sorted a) (lexSort_sorted b)

/-- C4. The key `lexSort line` holds exactly the letters of `line`, each mapped
to lower case (same multiset), in non-decreasing order of character code; every
character of the key is one of `a` to `z`, wherever the non-letters stand in
`line`; a line without letters has the empty key; and all this although
`sortChars` ranks each of two non-letters above the other. -/
theorem lexSort_correct (line : List Nat) :
    (lexSort line).Perm ((line.filter isalpha).map tolower) ∧
    (lexSort line).Sorted (· ≤ ·) ∧
    (∀ c, c ∈ lexSort line → islower c = true) ∧
    ((∀ c, c ∈ line → isalpha c = false) → lexSort line = []) ∧
    (∀ x y, isalpha x = false → isalpha y = false →
      sortChars x y = 1 ∧ sortChars y x = 1) := by
  refine ⟨lexSort_perm line, lexSort_sorted line, ?_, ?_, ?_⟩
  rotate_left 2
  · intro x y hx hy
    unfold sortChars
    simp [hx, hy]
  · intro c hc
    have hc2 := (lexSort_perm line).mem_iff.mp hc
    obtain ⟨d, hd, rfl⟩ := List.mem_map.mp hc2
    exact islower_tolower d (List.mem_filter.mp hd).2
  · intro hno
    have hnil : line.filter isalpha = [] := by
      rw [List.filter_eq_nil_iff]
      intro c hc
      simp [hno c hc]
    have hp := lexSort_perm line
    rw [hnil] at hp
    exact List.Perm.eq_nil hp

/-- C5. Two strings have the same key exactly when they hold the same multiset
of letters once case is ignored and every non-letter is dropped. -/
theorem lexSort_eq_iff (a b : List Nat) :
    lexSort a = lexSort b ↔
      ((a.filter isalpha).map tolower).Perm ((b.filter isalpha).map tolower) := by
  constructor
  · intro h
    have ha := lexSort_perm a
    rw [h] at ha
    exact ha.symm.trans (lexSort_perm b)
  · exact lexSort_eq_of_perm a b

/-! ## The list operations -/

theorem copyListLoop_eq (list : List (List Nat)) (h : WellFormed list) :
    copyListLoop list = list := by
  induction list with
  | nil => rfl
  | cons v rest ih =>
    have hv : v.length < MAX_VERSE_LENGTH := h v (List.mem_cons_self _ _)
    have hrest : WellFormed rest := fun w hw => h w (List.mem_cons_of_mem _ hw)
    simp only [copyListLoop, createVerse, ih hrest]
    rw [List.take_of_length_le]
    unfold MAX_VERSE_LENGTH at *
    omega

theorem copyList_eq_loop (list : List (List Nat)) : copyList list = copyListLoop list := by
  cases list <;> rfl

theorem copyList_eq (list : List (List Nat)) (h : WellFormed list) : copyList list = list := by
  rw [copyList_eq_loop, copyListLoop_eq list h]

theorem copyList_map (list : List (List Nat)) :
    copyList list = list.map (fun v => v.take (MAX_VERSE_LENGTH - 1)) := by
  rw [copyList_eq_loop]
  induction list with
  | nil => rfl
  | cons v rest ih => simp only [copyListLoop, createVerse, ih, List.map_cons]

theorem copyList_wellFormed (list : List (List Nat)) : WellFormed (copyList list) := by
  rw [copyList_map]
  intro v hv
  obtain ⟨w, _, rfl⟩ := List.mem_map.mp hv
  rw [List.length_take]
  unfold MAX_VERSE_LENGTH
  omega

theorem removeCopiesScan_eq_filter (k : List Nat) (l : List (List Nat)) :
    removeCopiesScan k l = l.filter (fun v => !decide (lexSort v = k)) := by
  induction l with
  | nil => rfl
  | cons v rest ih =>
    simp only [removeCopiesScan, List.filter_cons]
    by_cases h : lexSort v = k <;> simp [h, ih]

/-- The quadratic scan, started on the lines whose key is not in `seen`, is the
single pass started with `seen`. -/
theorem removeCopiesLoop_filter (l : List (List Nat)) :
    ∀ (n : Nat) (seen : List (List Nat)),
      (l.filter (fun v => !decide (lexSort v ∈ seen))).length ≤ n →
      removeCopiesLoop n (l.filter (fun v => !decide (lexSort v ∈ seen))) = dedupeSeen seen l := by
  induction l with
  | nil =>
    intro n seen _
    cases n <;> rfl
  | cons v rest ih =>
    intro n seen hn
    by_cases hv : lexSort v ∈ seen
    · have e : (v :: rest).filter (fun v => !decide (lexSort v ∈ seen))
          = rest.filter (fun v => !decide (lexSort v ∈ seen)) := by
        simp [List.filter_cons, hv]
      rw [e] at hn ⊢
      simp only [dedupeSeen, hv, if_true]
      exact ih n seen hn
    · have e : (v :: rest).filter (fun v => !decide (lexSort v ∈ seen))
          = v :: rest.filter (fun v => !decide (lexSort v ∈ seen)) := by
        simp [List.filter_cons, hv]
      rw [e] at hn ⊢
      simp only [dedupeSeen, hv, if_false]
      cases n with
      | zero => simp at hn
      | succ m =>
        simp only [removeCopiesLoop, removeCopiesScan_eq_filter, List.filter_filter]
        have e2 : (fun a => (!decide (lexSort a = lexSort v)) && !decide (lexSort a ∈ seen))
            = (fun a => !decide (lexSort a ∈ lexSort v :: seen)) := by
          funext a
          simp [List.mem_cons]
        rw [e2]
        congr 1
        apply ih
        simp only [List.length_cons] at hn
        have hle : (rest.filter (fun a => !decide (lexSort a ∈ lexSort v :: seen))).length
            ≤ (rest.filter (fun a => !decide (lexSort a ∈ seen))).length := by
          rw [← e2, ← List.filter_filter]
          exact List.length_filter_le _ _
        omega

theorem removeCopiesLoop_eq (l : List (List Nat)) (n : Nat) (hn : l.length ≤ n) :
    removeCopiesLoop n l = dedupeSinglePass l := by
  have h := removeCopiesLoop_filter l n []
  simp only [List.not_mem_nil, decide_False, Bool.not_false, List.filter_true] at h
  exact h hn

theorem removeCopies_eq (list : List (List Nat)) :
    removeCopies list = dedupeSinglePass (copyList list) :=
  removeCopiesLoop_eq _ _ le_rfl

/-! ## The single pass -/

theorem dedupeSeen_sublist (l : List (List Nat)) :
    ∀ seen : List (List Nat), (dedupeSeen seen l).Sublist l := by
  induction l with
  | nil => intro seen; exact List.Sublist.refl _
  | cons v rest ih =>
    intro seen
    simp only [dedupeSeen]
    split
    · exact (ih seen).cons v
    · exact (ih _).cons₂ v

theorem dedupeSeen_not_seen (l : List (List Nat)) :
    ∀ (seen : List (List Nat)) (w : List Nat), w ∈ dedupeSeen seen l → lexSort w ∉ seen := by
  induction l with
  | nil => intro seen w hw; simp [dedupeSeen] at hw
  | cons v rest ih =>
    intro seen w hw
    simp only [dedupeSeen] at hw
    split at hw
    · exact ih seen w hw
    · rename_i hv
      rcases List.mem_cons.mp hw with h | h
      · rw [h]; exact hv
      · exact fun hmem => ih _ w h (List.mem_cons_of_mem _ hmem)

theorem dedupeSeen_pairwise (l : List (List Nat)) :
    ∀ seen : List (List Nat),
      (dedupeSeen seen l).Pairwise (fun a b => lexSort a ≠ lexSort b) := by
  induction l with
  | nil => intro seen; exact List.Pairwise.nil
  | cons v rest ih =>
    intro seen
    simp only [dedupeSeen]
    split
    · exact ih seen
    · rw [List.pairwise_cons]
      refine ⟨?_, ih _⟩
      intro w hw heq
      exact dedupeSeen_not_seen rest _ w hw (by rw [← heq]; exact List.mem_cons_self _ _)

theorem dedupeSeen_fixed (l : List (List Nat)) :
    ∀ seen : List (List Nat),
      l.Pairwise (fun a b => lexSort a ≠ lexSort b) →
      (∀ w, w ∈ l → lexSort w ∉ seen) → dedupeSeen seen l = l := by
  induction l with
  | nil => intro seen _ _; rfl
  | cons v rest ih =>
    intro seen hp hs
    rw [List.pairwise_cons] at hp
    simp only [dedupeSeen, hs v (List.mem_cons_self _ _), if_false]
    congr 1
    apply ih _ hp.2
    intro w hw hmem
    rcases List.mem_cons.mp hmem with h | h
    · exact hp.1 w hw h.symm
    · exact hs w (List.mem_cons_of_mem _ hw) h

theorem firstOfKey_append_zero (p s : List (List Nat)) (x : List Nat) :
    firstOfKey (p ++ x :: s) (p.length + 0) = true ↔ ∀ w, w ∈ p → lexSort w ≠ lexSort x := by
  unfold firstOfKey
  simp only [decide_eq_true_eq, Nat.add_zero]
  have hx : (p ++ x :: s).getD p.length [] = x := by
    rw [List.getD_append_right _ _ _ _ le_rfl]
    simp
  rw [hx]
  constructor
  · intro h w hw
    obtain ⟨j, hj, rfl⟩ := List.mem_iff_getElem.mp hw
    have := h j hj
    rwa [List.getD_append _ _ _ _ hj, List.getD_eq_getElem _ _ hj] at this
  · intro h j hj
    rw [List.getD_append _ _ _ _ hj, List.getD_eq_getElem _ _ hj]
    exact h _ (List.getElem_mem _)

/-- The single pass started with the keys of the lines `p` already read keeps,
of the remaining lines `s`, those that are first of their key in `p ++ s`. -/
theorem dedupeSeen_eq_firsts (s : List (List Nat)) :
    ∀ (p seen : List (List Nat)),
      (∀ k, k ∈ seen ↔ ∃ w, w ∈ p ∧ lexSort w = k) →
      dedupeSeen seen s =
        ((List.range s.length).filter (fun i => firstOfKey (p ++ s) (p.length + i))).map
          (fun i => (p ++ s).getD (p.length + i) []) := by
  induction s with
  | nil => intro p seen _; rfl
  | cons x xs ih =>
    intro p seen hseen
    have hshift : ((List.range xs.length).filter
          (fun i => firstOfKey ((p ++ [x]) ++ xs) ((p ++ [x]).length + i))).map
          (fun i => ((p ++ [x]) ++ xs).getD ((p ++ [x]).length + i) [])
        = (((List.range xs.length).map Nat.succ).filter
          (fun i => firstOfKey (p ++ x :: xs) (p.length + i))).map
          (fun i => (p ++ x :: xs).getD (p.length + i) []) := by
      rw [List.filter_map, List.map_map]
      have e1 : (p ++ [x]) ++ xs = p ++ x :: xs := by simp
      have e2 : ∀ i, (p ++ [x]).length + i = p.length + Nat.succ i := by
        intro i; simp only [List.length_append, List.length_singleton]; omega
      have e3 : (fun i => firstOfKey ((p ++ [x]) ++ xs) ((p ++ [x]).length + i))
          = ((fun i => firstOfKey (p ++ x :: xs) (p.length + i)) ∘ Nat.succ) := by
        funext i
        simp only [Function.comp, e1, e2]
      have e4 : (fun i => ((p ++ [x]) ++ xs).getD ((p ++ [x]).length + i) [])
          = ((fun i => (p ++ x :: xs).getD (p.length + i) []) ∘ Nat.succ) := by
        funext i
        simp only [Function.comp, e1, e2]
      rw [e3, e4]
    have hx : (p ++ x :: xs).getD (p.length + 0) [] = x := by
      rw [Nat.add_zero, List.getD_append_right _ _ _ _ le_rfl]
      simp
    rw [List.length_cons, List.range_succ_eq_map, List.filter_cons]
    simp only [dedupeSeen]
    by_cases hv : lexSort x ∈ seen
    · have hf : firstOfKey (p ++ x :: xs) (p.length + 0) = false := by
        rw [← Bool.not_eq_true, firstOfKey_append_zero]
        obtain ⟨w, hw, hk⟩ := (hseen _).mp hv
        exact fun h => h w hw hk
      rw [if_pos hv, hf]
      simp only [Bool.false_eq_true, if_false]
      rw [← hshift]
      apply ih (p ++ [x]) seen
      intro k
      rw [hseen k]
      constructor
      · rintro ⟨w, hw, hk⟩
        exact ⟨w, List.mem_append_left _ hw, hk⟩
      · rintro ⟨w, hw, hk⟩
        rcases List.mem_append.mp hw with h | h
        · exact ⟨w, h, hk⟩
        · rw [List.mem_singleton] at h
          subst h
          rw [← hk]
          exact (hseen _).mp hv
    · have hf : firstOfKey (p ++ x :: xs) (p.length + 0) = true := by
        rw [firstOfKey_append_zero]
        intro w hw hk
        exact hv ((hseen _).mpr ⟨w, hw, hk⟩)
      rw [if_neg hv, hf]
      simp only [if_true, List.map_cons, hx]
      congr 1
      rw [← hshift]
      apply ih (p ++ [x]) (lexSort x :: seen)
      intro k
      rw [List.mem_cons, hseen k]
      constructor
      · rintro (h | ⟨w, hw, hk⟩)
        · exact ⟨x, List.mem_append_right _ (List.mem_singleton_self _), h.symm⟩
        · exact ⟨w, List.mem_append_left _ hw, hk⟩
      · rintro ⟨w, hw, hk⟩
        rcases List.mem_append.mp hw with h | h
        · exact Or.inr ⟨w, h, hk⟩
        · rw [List.mem_singleton] at h
          subst h
          exact Or.inl hk.symm

theorem dedupeSinglePass_eq_firsts (l : List (List Nat)) :
    dedupeSinglePass l =
      ((List.range l.length).filter (firstOfKey l)).map (fun i => l.getD i []) := by
  have h := dedupeSeen_eq_firsts l [] [] (by simp)
  simpa using h

theorem dedupeSeen_all_seen (l : List (List Nat)) (seen : List (List Nat))
    (h : ∀ w, w ∈ l → lexSort w ∈ seen) : dedupeSeen seen l = [] := by
  induction l with
  | nil => rfl
  | cons v rest ih =>
    simp only [dedupeSeen, h v (List.mem_cons_self _ _), if_true]
    exact ih fun w hw => h w (List.mem_cons_of_mem _ hw)

/-! ## The assertions of `main` -/

theorem main_lvl2 : removeCopies lvl2Raw = [str "Ahoj, jak se mas"] := by decide

theorem main_lvl3 : removeCopies lvl3Raw = [str "abcabc", str "bbb"] := by decide

theorem main_lvl4 : removeCopies lvl4Raw = [str "    ", str "aa  ab", str "abca  BC"] := by
  decide

theorem main_lvl5 : removeCopies lvl5Raw = [str "Prej To JEEE"] := by decide

/-! ## The contract of `removeCopies` -/

/-- C1. First-survivor rule: on a list whose lines fit their buffers, the output
of `removeCopies` is made of the input lines at the indices `i` such that no
line at an index below `i` has the key of line `i`, in input order; and for
every index `i` the least index `m` of a line with the key of line `i` gives a
line of the output, the only line of the output with that key. -/
theorem removeCopies_first_survivor (list : List (List Nat)) (hwf : WellFormed list) :
    removeCopies list =
        ((List.range list.length).filter (firstOfKey list)).map (fun i => list.getD i []) ∧
    ∀ i, i < list.length → ∃ m, m ≤ i ∧
      lexSort (list.getD m []) = lexSort (list.getD i []) ∧
      (∀ j, j < m → lexSort (list.getD j []) ≠ lexSort (list.getD i [])) ∧
      list.getD m [] ∈ removeCopies list ∧
      ∀ v, v ∈ removeCopies list → lexSort v = lexSort (list.getD i []) → v = list.getD m [] := by
  have hpos : removeCopies list =
      ((List.range list.length).filter (firstOfKey list)).map (fun i => list.getD i []) := by
    rw [removeCopies_eq, copyList_eq list hwf, dedupeSinglePass_eq_firsts]
  refine ⟨hpos, ?_⟩
  intro i hi
  have hex : ∃ j, lexSort (list.getD j []) = lexSort (list.getD i []) := ⟨i, rfl⟩
  have hm : Nat.find hex ≤ i := Nat.find_min' hex rfl
  have hmem : list.getD (Nat.find hex) [] ∈ removeCopies list := by
    rw [hpos]
    refine List.mem_map.mpr ⟨Nat.find hex, List.mem_filter.mpr ⟨List.mem_range.mpr ?_, ?_⟩, rfl⟩
    · omega
    · unfold firstOfKey
      rw [decide_eq_true_eq]
      intro j hj
      rw [Nat.find_spec hex]
      exact Nat.find_min hex hj
  refine ⟨Nat.find hex, hm, Nat.find_spec hex, fun j hj => Nat.find_min hex hj, hmem, ?_⟩
  intro v hv hkey
  have hpw : (removeCopies list).Pairwise (fun a b => lexSort a ≠ lexSort b) := by
    rw [removeCopies_eq]
    exact dedupeSeen_pairwise _ _
  by_contra hne
  have hk2 : lexSort v = lexSort (list.getD (Nat.find hex) []) := by
    rw [hkey, Nat.find_spec hex]
  have hsym : Symmetric (fun a b : List Nat => lexSort a ≠ lexSort b) := fun a b h => h.symm
  exact List.Pairwise.forall hsym hpw hv hmem hne hk2

theorem removeCopies_first_survivor_witness :
    WellFormed lvl4Raw ∧
    (removeCopies lvl4Raw =
        ((List.range lvl4Raw.length).filter (firstOfKey lvl4Raw)).map
          (fun i => lvl4Raw.getD i []) ∧
    ∀ i, i < lvl4Raw.length → ∃ m, m ≤ i ∧
      lexSort (lvl4Raw.getD m []) = lexSort (lvl4Raw.getD i []) ∧
      (∀ j, j < m → lexSort (lvl4Raw.getD j []) ≠ lexSort (lvl4Raw.getD i [])) ∧
      lvl4Raw.getD m [] ∈ removeCopies lvl4Raw ∧
      ∀ v, v ∈ removeCopies lvl4Raw → lexSort v = lexSort (lvl4Raw.getD i []) →
        v = lvl4Raw.getD m []) :=
  ⟨by decide, removeCopies_first_survivor lvl4Raw (by decide)⟩

/-- C2. Key uniqueness: two lines at distinct positions of the output of
`removeCopies` never have the same key; and when every line of a non-empty
input has the key of the first line, the output is that first line alone. -/
theorem removeCopies_key_unique (list : List (List Nat)) :
    (removeCopies list).Pairwise (fun a b => lexSort a ≠ lexSort b) ∧
    ∀ v rest, list = v :: rest → WellFormed list →
      (∀ w, w ∈ rest → lexSort w = lexSort v) → removeCopies list = [v] := by
  constructor
  · rw [removeCopies_eq]
    exact dedupeSeen_pairwise _ _
  · intro v rest hl hwf hall
    rw [removeCopies_eq, copyList_eq list hwf, hl]
    simp only [dedupeSinglePass, dedupeSeen, List.not_mem_nil, if_false]
    rw [dedupeSeen_all_seen]
    intro w hw
    rw [hall w hw]
    exact List.mem_singleton_self _

/-- C3. Order preservation: on a list whose lines fit their buffers, the output
of `removeCopies` is a sublist of the input, so that every output line is an
input line and the survivors keep their relative order. -/
theorem removeCopies_sublist (list : List (List Nat)) (hwf : WellFormed list) :
    (removeCopies list).Sublist list ∧ ∀ v, v ∈ removeCopies list → v ∈ list := by
  have h : (removeCopies list).Sublist list := by
    rw [removeCopies_eq, copyList_eq list hwf]
    exact dedupeSeen_sublist _ _
  exact ⟨h, fun v hv => h.subset hv⟩

theorem removeCopies_sublist_witness :
    WellFormed lvl3Raw ∧
    ((removeCopies lvl3Raw).Sublist lvl3Raw ∧ ∀ v, v ∈ removeCopies lvl3Raw → v ∈ lvl3Raw) :=
  ⟨by decide, removeCopies_sublist lvl3Raw (by decide)⟩

theorem removeCopies_wellFormed (list : List (List Nat)) : WellFormed (removeCopies list) := by
  intro v hv
  rw [removeCopies_eq] at hv
  exact copyList_wellFormed list v ((dedupeSeen_sublist _ _).subset hv)

/-- C6. Idempotence: filtering the output of `removeCopies` once more gives the
same list, line for line. -/
theorem removeCopies_idempotent (list : List (List Nat)) :
    removeCopies (removeCopies list) = removeCopies list := by
  have hp : (removeCopies list).Pairwise (fun a b => lexSort a ≠ lexSort b) := by
    rw [removeCopies_eq]
    exact dedupeSeen_pairwise _ _
  rw [removeCopies_eq (removeCopies list), copyList_eq _ (removeCopies_wellFormed list)]
  exact dedupeSeen_fixed _ [] hp (fun w _ => List.not_mem_nil _)

/-- C7. Equivalence of the two formulations: on a list whose lines fit their
buffers, the quadratic scan of `removeCopies` returns the list of the single
pass that keeps the set of the keys seen so far. -/
theorem removeCopies_eq_singlePass (list : List (List Nat)) (hwf : WellFormed list) :
    removeCopies list = dedupeSinglePass list := by
  rw [removeCopies_eq, copyList_eq list hwf]

theorem removeCopies_eq_singlePass_witness :
    WellFormed lvl5Raw ∧ removeCopies lvl5Raw = dedupeSinglePass lvl5Raw :=
  ⟨by decide, removeCopies_eq_singlePass lvl5Raw (by decide)⟩

end VerseFilter
/-! # Theorems about the working-day counter -/

namespace WorkingDays

/-! ## Machine integers -/

theorem wrapInt_of_range (x : Int) (h1 : INT_MIN ≤ x) (h2 : x ≤ INT_MAX) : wrapInt x = x := by
  unfold wrapInt
  unfold INT_MIN at h1
  unfold INT_MAX at h2
  omega

theorem wrapInt_range (x : Int) : INT_MIN ≤ wrapInt x ∧ wrapInt x ≤ INT_MAX := by
  unfold wrapInt INT_MIN INT_MAX
  omega

theorem wrapInt_add_left (a b : Int) : wrapInt (wrapInt a + b) = wrapInt (a + b) := by
  unfold wrapInt
  omega

theorem addInt_of_range (a b : Int) (h1 : INT_MIN ≤ a + b) (h2 : a + b ≤ INT_MAX) :
    addInt a b = a + b :=
  wrapInt_of_range _ h1 h2

theorem subInt_of_range (a b : Int) (h1 : INT_MIN ≤ a - b) (h2 : a - b ≤ INT_MAX) :
    subInt a b = a - b :=
  wrapInt_of_range _ h1 h2

/-! ## Leap years and month lengths -/

theorem IsLeapYear_iff (y : Int) (hy : 0 ≤ y) : IsLeapYear y = true ↔ GregorianLeap y := by
  unfold IsLeapYear GregorianLeap
  rw [Int.tmod_eq_emod hy (by decide), Int.tmod_eq_emod hy (by decide),
    Int.tmod_eq_emod hy (by decide)]
  simp

theorem monthLength_bounds (y m : Int) : 28 ≤ monthLength y m ∧ monthLength y m ≤ 31 := by
  unfold monthLength
  split_ifs <;> omega

theorem arrayGet_daysInMonth (y m : Int) (hy : 0 ≤ y) (h1 : 1 ≤ m) (h2 : m ≤ 12) :
    arrayGet (daysInMonth (if IsLeapYear y then 29 else 28)) (subInt m 1) = monthLength y m := by
  rw [subInt_of_range m 1 (by unfold INT_MIN; omega) (by unfold INT_MAX; omega)]
  have hl : (if IsLeapYear y = true then (29 : Int) else 28)
      = if GregorianLeap y then 29 else 28 := by
    by_cases h : GregorianLeap y
    · rw [if_pos h, if_pos ((IsLeapYear_iff y hy).mpr h)]
    · rw [if_neg h, if_neg (fun h2 => h ((IsLeapYear_iff y hy).mp h2))]
  rw [hl]
  unfold monthLength arrayGet daysInMonth
  interval_cases m <;> simp

theorem daysBeforeMonth_one (y : Int) : daysBeforeMonth y 1 = 0 := by
  simp [daysBeforeMonth]

theorem daysBeforeMonth_succ (y m : Int) (h1 : 1 ≤ m) :
    daysBeforeMonth y (m + 1) = daysBeforeMonth y m + monthLength y m := by
  unfold daysBeforeMonth
  have e : (m + 1 - 1).toNat = (m - 1).toNat + 1 := by omega
  rw [e, List.range_succ, List.map_append, List.sum_append]
  have e2 : (((m - 1).toNat : Nat) : Int) + 1 = m := by omega
  simp only [List.map_cons, List.map_nil, List.sum_cons, List.sum_nil, e2, add_zero]

theorem daysBeforeMonth_mono (y a b : Int) (h1 : 1 ≤ a) (hab : a ≤ b) :
    daysBeforeMonth y a ≤ daysBeforeMonth y b := by
  refine Int.le_induction (P := fun b => daysBeforeMonth y a ≤ daysBeforeMonth y b)
    le_rfl ?_ b hab
  intro k hk ih
  simp only at ih ⊢
  rw [daysBeforeMonth_succ y k (by omega)]
  have := monthLength_bounds y k
  omega

theorem daysBeforeMonth_thirteen (y : Int) :
    daysBeforeMonth y 13 = 365 + if GregorianLeap y then 1 else 0 := by
  unfold daysBeforeMonth
  by_cases h : GregorianLeap y <;> simp [List.range_succ, monthLength, h]

/-! ## Day numbers -/

/-- The number of days before 1 January of year `y`, counted from year 1. -/
theorem yearStart_succ (y : Int) :
    365 * (y + 1 - 1) + ((y + 1 - 1) / 4 - (y + 1 - 1) / 100 + (y + 1 - 1) / 400)
      = 365 * (y - 1) + ((y - 1) / 4 - (y - 1) / 100 + (y - 1) / 400)
        + (365 + if GregorianLeap y then 1 else 0) := by
  unfold GregorianLeap
  split_ifs with h <;> omega

theorem yearStart_mono (y1 y2 : Int) (h : y1 ≤ y2) :
    365 * (y1 - 1) + ((y1 - 1) / 4 - (y1 - 1) / 100 + (y1 - 1) / 400)
      ≤ 365 * (y2 - 1) + ((y2 - 1) / 4 - (y2 - 1) / 100 + (y2 - 1) / 400) := by
  omega

theorem dayOfYear_bounds (y m d : Int) (hv : ValidDate y m d) :
    1 ≤ daysBeforeMonth y m + d ∧
      daysBeforeMonth y m + d ≤ 365 + if GregorianLeap y then 1 else 0 := by
  obtain ⟨h1, h2, h3, h4⟩ := hv
  have ha := daysBeforeMonth_mono y 1 m le_rfl h1
  rw [daysBeforeMonth_one] at ha
  have hb := daysBeforeMonth_mono y (m + 1) 13 (by omega) (by omega)
  rw [daysBeforeMonth_succ y m h1, daysBeforeMonth_thirteen] at hb
  constructor <;> omega

theorem dayNumber_lt (y1 m1 d1 y2 m2 d2 : Int)
    (hv1 : ValidDate y1 m1 d1) (hv2 : ValidDate y2 m2 d2)
    (hlt : DateLt y1 m1 d1 y2 m2 d2) : dayNumber y1 m1 d1 < dayNumber y2 m2 d2 := by
  unfold dayNumber
  rcases hlt with h | ⟨rfl, h⟩ | ⟨rfl, rfl, h⟩
  · have hb1 := (dayOfYear_bounds y1 m1 d1 hv1).2
    have hb2 := (dayOfYear_bounds y2 m2 d2 hv2).1
    have hs := yearStart_succ y1
    have hm := yearStart_mono (y1 + 1) y2 (by omega)
    omega
  · obtain ⟨h1, h2, h3, h4⟩ := hv1
    obtain ⟨_, _, h7, _⟩ := hv2
    have hb := daysBeforeMonth_mono y1 (m1 + 1) m2 (by omega) (by omega)
    rw [daysBeforeMonth_succ y1 m1 h1] at hb
    omega
  · omega

theorem dateLe_iff (y1 m1 d1 y2 m2 d2 : Int) :
    DateLe y1 m1 d1 y2 m2 d2 ↔ ¬ DateLt y2 m2 d2 y1 m1 d1 := by
  unfold DateLe DateLt
  omega

theorem dateLe_iff_lt_or_eq (y1 m1 d1 y2 m2 d2 : Int) :
    DateLe y1 m1 d1 y2 m2 d2 ↔
      DateLt y1 m1 d1 y2 m2 d2 ∨ (y1 = y2 ∧ m1 = m2 ∧ d1 = d2) := by
  unfold DateLe DateLt
  omega

theorem dayNumber_le_iff (y1 m1 d1 y2 m2 d2 : Int)
    (hv1 : ValidDate y1 m1 d1) (hv2 : ValidDate y2 m2 d2) :
    dayNumber y1 m1 d1 ≤ dayNumber y2 m2 d2 ↔ DateLe y1 m1 d1 y2 m2 d2 := by
  rw [dateLe_iff]
  constructor
  · intro h hlt
    have := dayNumber_lt _ _ _ _ _ _ hv2 hv1 hlt
    omega
  · intro h
    by_contra hn
    have hle : DateLe y2 m2 d2 y1 m1 d1 := by
      unfold DateLe; unfold DateLt at h
      by_contra hc
      have e : y1 = y2 ∧ m1 = m2 ∧ d1 = d2 ∨ DateLt y1 m1 d1 y2 m2 d2 := by
        unfold DateLt; omega
      rcases e with ⟨rfl, rfl, rfl⟩ | e
      · exact hn le_rfl
      · have := dayNumber_lt _ _ _ _ _ _ hv1 hv2 e
        omega
    rcases (dateLe_iff_lt_or_eq _ _ _ _ _ _).mp hle with h2 | ⟨rfl, rfl, rfl⟩
    · exact h h2
    · exact hn le_rfl

/-! ## The next date -/

theorem nextDate_valid (y m d : Int) (hv : ValidDate y m d) :
    ValidDate (nextDate y m d).1 (nextDate y m d).2.1 (nextDate y m d).2.2 := by
  obtain ⟨h1, h2, h3, h4⟩ := hv
  unfold nextDate
  split_ifs with ha hb
  · show ValidDate y m (d + 1)
    exact ⟨h1, h2, by omega, by omega⟩
  · show ValidDate y (m + 1) 1
    have := monthLength_bounds y (m + 1)
    exact ⟨by omega, by omega, le_rfl, by omega⟩
  · show ValidDate (y + 1) 1 1
    have := monthLength_bounds (y + 1) 1
    exact ⟨le_rfl, by omega, le_rfl, by omega⟩

theorem dayNumber_nextDate (y m d : Int) (hv : ValidDate y m d) :
    dayNumber (nextDate y m d).1 (nextDate y m d).2.1 (nextDate y m d).2.2
      = dayNumber y m d + 1 := by
  obtain ⟨h1, h2, h3, h4⟩ := hv
  unfold nextDate
  split_ifs with ha hb
  · unfold dayNumber; simp only; omega
  · unfold dayNumber; simp only
    rw [daysBeforeMonth_succ y m h1]
    omega
  · have hm : m = 12 := by omega
    subst hm
    have h13 := daysBeforeMonth_thirteen y
    rw [show (13 : Int) = 12 + 1 by rfl, daysBeforeMonth_succ y 12 (by omega)] at h13
    unfold dayNumber; simp only
    rw [yearStart_succ y, daysBeforeMonth_one]
    omega

theorem dateLt_nextDate (y m d : Int) :
    DateLt y m d (nextDate y m d).1 (nextDate y m d).2.1 (nextDate y m d).2.2 := by
  unfold nextDate DateLt
  split_ifs <;> simp

theorem nextDate_le_iff (y m d y2 m2 d2 : Int) (hv : ValidDate y m d)
    (hv2 : ValidDate y2 m2 d2) :
    DateLe (nextDate y m d).1 (nextDate y m d).2.1 (nextDate y m d).2.2 y2 m2 d2 ↔
      DateLt y m d y2 m2 d2 := by
  rw [← dayNumber_le_iff _ _ _ _ _ _ (nextDate_valid y m d hv) hv2, dayNumber_nextDate y m d hv]
  constructor
  · intro h
    by_contra hn
    have hle := (dateLe_iff y2 m2 d2 y m d).mpr hn
    have := (dayNumber_le_iff _ _ _ _ _ _ hv2 hv).mpr hle
    omega
  · intro h
    have := dayNumber_lt _ _ _ _ _ _ hv hv2 h
    omega

/-! ## The dates of a range -/

theorem dateLe_trans (y1 m1 d1 y2 m2 d2 y3 m3 d3 : Int)
    (h1 : DateLe y1 m1 d1 y2 m2 d2) (h2 : DateLe y2 m2 d2 y3 m3 d3) :
    DateLe y1 m1 d1 y3 m3 d3 := by
  unfold DateLe at *
  omega

theorem mem_datesBetween (y1 m1 d1 y2 m2 d2 : Int) (x : Int × Int × Int) :
    x ∈ datesBetween y1 m1 d1 y2 m2 d2 ↔
      ValidDate x.1 x.2.1 x.2.2 ∧ DateLe y1 m1 d1 x.1 x.2.1 x.2.2 ∧
        DateLe x.1 x.2.1 x.2.2 y2 m2 d2 := by
  unfold datesBetween
  rw [Finset.mem_filter]
  constructor
  · exact fun h => h.2
  · intro h
    refine ⟨?_, h⟩
    obtain ⟨⟨h1, h2, h3, h4⟩, h5, h6⟩ := h
    have := monthLength_bounds x.1 x.2.1
    simp only [Finset.mem_product, Finset.mem_Icc]
    unfold DateLe at h5 h6
    refine ⟨⟨?_, ?_⟩, ⟨h1, h2⟩, ⟨h3, ?_⟩⟩ <;> omega

theorem datesBetween_step (y m d y2 m2 d2 : Int) (hv : ValidDate y m d)
    (hle : DateLe y m d y2 m2 d2) :
    datesBetween y m d y2 m2 d2 =
        insert (y, m, d)
          (datesBetween (nextDate y m d).1 (nextDate y m d).2.1 (nextDate y m d).2.2 y2 m2 d2) ∧
      (y, m, d) ∉
        datesBetween (nextDate y m d).1 (nextDate y m d).2.1 (nextDate y m d).2.2 y2 m2 d2 := by
  constructor
  · ext x
    rw [Finset.mem_insert, mem_datesBetween, mem_datesBetween]
    constructor
    · rintro ⟨hx, h1, h2⟩
      rcases (dateLe_iff_lt_or_eq _ _ _ _ _ _).mp h1 with h | ⟨e1, e2, e3⟩
      · exact Or.inr ⟨hx, (nextDate_le_iff y m d _ _ _ hv hx).mpr h, h2⟩
      · exact Or.inl (by
          apply Prod.ext; exact e1.symm
          apply Prod.ext; exact e2.symm
          exact e3.symm)
    · rintro (rfl | ⟨hx, h1, h2⟩)
      · exact ⟨hv, (dateLe_iff_lt_or_eq _ _ _ _ _ _).mpr (Or.inr ⟨rfl, rfl, rfl⟩), hle⟩
      · have hlt := (nextDate_le_iff y m d _ _ _ hv hx).mp h1
        exact ⟨hx, (dateLe_iff_lt_or_eq _ _ _ _ _ _).mpr (Or.inl hlt), h2⟩
  · rw [mem_datesBetween]
    rintro ⟨_, h1, _⟩
    have hlt := (nextDate_le_iff y m d y m d hv hv).mp h1
    unfold DateLt at hlt
    omega

theorem datesBetween_empty (y1 m1 d1 y2 m2 d2 : Int) (h : ¬ DateLe y1 m1 d1 y2 m2 d2) :
    datesBetween y1 m1 d1 y2 m2 d2 = ∅ := by
  ext x
  rw [mem_datesBetween]
  simp only [Finset.not_mem_empty, iff_false]
  rintro ⟨_, h1, h2⟩
  exact h (dateLe_trans _ _ _ _ _ _ _ _ _ h1 h2)

theorem card_datesBetween (n : Nat) :
    ∀ (y m d y2 m2 d2 : Int), ValidDate y m d → ValidDate y2 m2 d2 →
      dayNumber y2 m2 d2 - dayNumber y m d = n →
      ((datesBetween y m d y2 m2 d2).card : Int) = dayNumber y2 m2 d2 - dayNumber y m d + 1 := by
  induction n with
  | zero =>
    intro y m d y2 m2 d2 hv hv2 hn
    have hle := (dayNumber_le_iff _ _ _ _ _ _ hv hv2).mp (by omega)
    obtain ⟨hs, hnot⟩ := datesBetween_step y m d y2 m2 d2 hv hle
    have hnext : ¬ DateLe (nextDate y m d).1 (nextDate y m d).2.1 (nextDate y m d).2.2
        y2 m2 d2 := by
      rw [← dayNumber_le_iff _ _ _ _ _ _ (nextDate_valid y m d hv) hv2,
        dayNumber_nextDate y m d hv]
      omega
    rw [hs, datesBetween_empty _ _ _ _ _ _ hnext]
    simp
    omega
  | succ k ih =>
    intro y m d y2 m2 d2 hv hv2 hn
    have hle := (dayNumber_le_iff _ _ _ _ _ _ hv hv2).mp (by omega)
    obtain ⟨hs, hnot⟩ := datesBetween_step y m d y2 m2 d2 hv hle
    have hnx := dayNumber_nextDate y m d hv
    have := ih _ _ _ y2 m2 d2 (nextDate_valid y m d hv) hv2 (by rw [hnx]; push_cast at hn; omega)
    rw [hs, Finset.card_insert_of_not_mem hnot]
    push_cast
    rw [this, hnx]
    omega

theorem card_datesBetween_eq (y m d y2 m2 d2 : Int) (hv : ValidDate y m d)
    (hv2 : ValidDate y2 m2 d2) (hle : DateLe y m d y2 m2 d2) :
    ((datesBetween y m d y2 m2 d2).card : Int) = dayNumber y2 m2 d2 - dayNumber y m d + 1 := by
  have h := (dayNumber_le_iff _ _ _ _ _ _ hv hv2).mpr hle
  apply card_datesBetween (dayNumber y2 m2 d2 - dayNumber y m d).toNat _ _ _ _ _ _ hv hv2
  omega

/-! ## The day of the week -/

theorem weekdaySum_eq (y off d : Int) (hy : 1999 ≤ y) (hy2 : y ≤ LAST_YEAR)
    (ho : 0 ≤ off) (ho2 : off ≤ 6) (hd : 1 ≤ d) (hd2 : d ≤ 31) :
    addInt (addInt (addInt (subInt (addInt y (y.tdiv 4)) (y.tdiv 100)) (y.tdiv 400)) off) d
      = y + y / 4 - y / 100 + y / 400 + off + d := by
  unfold LAST_YEAR at hy2
  rw [Int.tdiv_eq_ediv (by omega) (by decide), Int.tdiv_eq_ediv (by omega) (by decide),
    Int.tdiv_eq_ediv (by omega) (by decide)]
  unfold addInt subInt
  rw [wrapInt_of_range (y + y / 4) (by unfold INT_MIN; omega) (by unfold INT_MAX; omega)]
  rw [wrapInt_of_range (y + y / 4 - y / 100) (by unfold INT_MIN; omega)
    (by unfold INT_MAX; omega)]
  rw [wrapInt_of_range (y + y / 4 - y / 100 + y / 400) (by unfold INT_MIN; omega)
    (by unfold INT_MAX; omega)]
  rw [wrapInt_of_range (y + y / 4 - y / 100 + y / 400 + off) (by unfold INT_MIN; omega)
    (by unfold INT_MAX; omega)]
  rw [wrapInt_of_range (y + y / 4 - y / 100 + y / 400 + off + d) (by unfold INT_MIN; omega)
    (by unfold INT_MAX; omega)]

theorem leapCount_succ (y : Int) :
    y / 4 - y / 100 + y / 400
      = (y - 1) / 4 - (y - 1) / 100 + (y - 1) / 400 + if GregorianLeap y then 1 else 0 := by
  unfold GregorianLeap
  split_ifs with h <;> omega

theorem dayNumber_epoch : dayNumber 2000 1 1 = 730120 := by
  unfold dayNumber
  rw [daysBeforeMonth_one]
  decide

theorem offset_bounds (m : Int) (h1 : 1 ≤ m) (h2 : m ≤ 12) :
    0 ≤ arrayGet offset (m - 1) ∧ arrayGet offset (m - 1) ≤ 6 := by
  unfold arrayGet offset
  interval_cases m <;> simp

/-- The entries of `offset` are the days before each month modulo 7, shifted
by one from March on, where the code uses the year itself. -/
theorem offset_mod (y m : Int) (h1 : 1 ≤ m) (h2 : m ≤ 12) :
    (m < 3 → (daysBeforeMonth y m - arrayGet offset (m - 1)) % 7 = 0) ∧
    (3 ≤ m → (daysBeforeMonth y m - (if GregorianLeap y then 1 else 0)
      - arrayGet offset (m - 1) - 1) % 7 = 0) := by
  unfold arrayGet offset daysBeforeMonth
  by_cases hl : GregorianLeap y
  · interval_cases m <;> simp [List.range_succ, monthLength, hl]
  · interval_cases m <;> simp [List.range_succ, monthLength, hl]

/-- The day of the week that `IsWorkDay` computes is the day of the week of
the calendar, as long as the year is at most `LAST_YEAR`. -/
theorem weekday_eq (y m d : Int) (hy : 2000 ≤ y) (hy2 : y ≤ LAST_YEAR)
    (h1 : 1 ≤ m) (h2 : m ≤ 12) (h3 : 1 ≤ d) (h4 : d ≤ 31) :
    (addInt (addInt (addInt (subInt (addInt (if m < 3 then subInt y 1 else y)
        ((if m < 3 then subInt y 1 else y).tdiv 4))
        ((if m < 3 then subInt y 1 else y).tdiv 100))
        ((if m < 3 then subInt y 1 else y).tdiv 400))
        (arrayGet offset (subInt m 1))) d).tmod 7 = dayOfWeek y m d := by
  have hs : subInt y 1 = y - 1 :=
    subInt_of_range y 1 (by unfold INT_MIN; omega) (by unfold INT_MAX LAST_YEAR at *; omega)
  have hm : subInt m 1 = m - 1 :=
    subInt_of_range m 1 (by unfold INT_MIN; omega) (by unfold INT_MAX; omega)
  have hoff := offset_bounds m h1 h2
  have hmod := offset_mod y m h1 h2
  have hy3 : 1999 ≤ (if m < 3 then subInt y 1 else y) ∧
      (if m < 3 then subInt y 1 else y) ≤ LAST_YEAR := by
    rw [hs]
    split_ifs <;> constructor <;> omega
  rw [hm, weekdaySum_eq _ _ d hy3.1 hy3.2 hoff.1 hoff.2 h3 h4]
  rw [Int.tmod_eq_emod (by have := hy3.1; omega) (by decide)]
  unfold dayOfWeek
  rw [dayNumber_epoch]
  unfold dayNumber
  rw [hs]
  have key := leapCount_succ y
  generalize daysBeforeMonth y m = T at hmod ⊢
  generalize arrayGet offset (m - 1) = off at hmod hoff ⊢
  generalize (if GregorianLeap y then (1 : Int) else 0) = L at hmod key
  by_cases hlt : m < 3
  · rw [if_pos hlt]
    have h0 := hmod.1 hlt
    have e : y - 1 + (y - 1) / 4 - (y - 1) / 100 + (y - 1) / 400
        = y - 1 + ((y - 1) / 4 - (y - 1) / 100 + (y - 1) / 400) := by ring
    rw [e]
    generalize (y - 1) / 4 - (y - 1) / 100 + (y - 1) / 400 = A
    omega
  · rw [if_neg hlt]
    have h0 := hmod.2 (by omega)
    have e : y + y / 4 - y / 100 + y / 400 = y + (y / 4 - y / 100 + y / 400) := by ring
    rw [e, key]
    generalize (y - 1) / 4 - (y - 1) / 100 + (y - 1) / 400 = A
    omega

/-! ## `IsWorkDay` on valid dates -/

theorem holiday_iff (m d : Int) :
    ((m = 1 ∧ d = 1) ∨ (m = 5 ∧ (d = 1 ∨ d = 8)) ∨ (m = 7 ∧ (d = 5 ∨ d = 6)) ∨
      (m = 9 ∧ d = 28) ∨ (m = 10 ∧ d = 28) ∨ (m = 11 ∧ d = 17) ∨
      (m = 12 ∧ (d = 24 ∨ d = 25 ∨ d = 26))) ↔ Holiday m d := by
  unfold Holiday
  constructor
  · rintro (⟨rfl, rfl⟩ | ⟨rfl, rfl | rfl⟩ | ⟨rfl, rfl | rfl⟩ | ⟨rfl, rfl⟩ | ⟨rfl, rfl⟩ |
      ⟨rfl, rfl⟩ | ⟨rfl, rfl | rfl | rfl⟩) <;> decide
  · intro h
    rcases h with h | h | h | h | h | h | h | h | h | h | h <;>
      (obtain ⟨hm, hd⟩ := h; subst hm hd; decide)

/-- On a valid date of a year from 2000 to `LAST_YEAR`, `IsWorkDay` tells
whether the date is a working day of the specification. -/
theorem IsWorkDay_eq (y m d : Int) (hy : 2000 ≤ y) (hy2 : y ≤ LAST_YEAR)
    (hv : ValidDate y m d) : IsWorkDay y m d = decide (WorkingDate y m d) := by
  obtain ⟨h1, h2, h3, h4⟩ := hv
  have hb := monthLength_bounds y m
  unfold IsWorkDay
  simp only
  rw [arrayGet_daysInMonth y m (by omega) h1 h2]
  rw [if_neg (by omega), weekday_eq y m d hy hy2 h1 h2 h3 (by omega)]
  unfold WorkingDate
  by_cases hh : Holiday m d
  · rw [if_pos ((holiday_iff m d).mpr hh)]
    simp [hh]
  · rw [if_neg (fun h => hh ((holiday_iff m d).mp h))]
    simp [hh]

/-! ## The loop of `CountDays` -/

theorem loopCond_iff (y2 m2 d2 : Int) (s : LoopState) :
    loopCond y2 m2 d2 s = true ↔ DateLe s.y1 s.m1 s.d1 y2 m2 d2 := by
  unfold loopCond DateLe
  rw [decide_eq_true_eq]

/-- On a valid date the body of the loop moves to the next calendar date, as
long as the year is not incremented beyond `INT_MAX`. -/
theorem loopBody_eq (y m d : Int) (r : Result) (hv : ValidDate y m d) (hy : 0 ≤ y)
    (hlast : y < INT_MAX ∨ ¬ (m = 12 ∧ d = 31)) :
    loopBody { y1 := y, m1 := m, d1 := d, result := r } =
      { y1 := (nextDate y m d).1, m1 := (nextDate y m d).2.1, d1 := (nextDate y m d).2.2,
        result := { totalDays := addInt r.totalDays 1,
                    workDays := if IsWorkDay y m d then addInt r.workDays 1 else r.workDays } } := by
  obtain ⟨h1, h2, h3, h4⟩ := hv
  have hb := monthLength_bounds y m
  have hd : addInt d 1 = d + 1 :=
    addInt_of_range d 1 (by unfold INT_MIN; omega) (by unfold INT_MAX; omega)
  have hm : addInt m 1 = m + 1 :=
    addInt_of_range m 1 (by unfold INT_MIN; omega) (by unfold INT_MAX; omega)
  unfold loopBody nextDate
  simp only
  rw [arrayGet_daysInMonth y m hy h1 h2, hd, hm]
  by_cases hlt : d < monthLength y m
  · have e1 : decide (d + 1 > monthLength y m) = false := by
      rw [decide_eq_false_iff_not]; omega
    have e2 : decide (m > 12) = false := by
      rw [decide_eq_false_iff_not]; omega
    simp [e1, e2, hlt]
  · have e1 : decide (d + 1 > monthLength y m) = true := by
      rw [decide_eq_true_eq]; omega
    by_cases hm12 : m < 12
    · have e2 : decide (m + 1 > 12) = false := by
        rw [decide_eq_false_iff_not]; omega
      simp [e1, e2, hlt, hm12]
    · have e2 : decide (m + 1 > 12) = true := by
        rw [decide_eq_true_eq]; omega
      have hm' : m = 12 := by omega
      subst hm'
      have hd31 : d = 31 := by
        have : monthLength y 12 = 31 := by unfold monthLength; simp
        omega
      have hylt : y < INT_MAX := by
        rcases hlast with h | h
        · exact h
        · exact absurd ⟨rfl, hd31⟩ h
      have hyy : addInt y 1 = y + 1 :=
        addInt_of_range y 1 (by unfold INT_MIN; omega) (by omega)
      simp [e1, e2, hlt, hyy]

theorem CountDaysLoop_mono (y2 m2 d2 : Int) (fuel : Nat) :
    ∀ (s : LoopState) (r : Result) (k : Nat), CountDaysLoop y2 m2 d2 fuel s = some r →
      CountDaysLoop y2 m2 d2 (fuel + k) s = some r := by
  induction fuel with
  | zero => intro s r k h; simp [CountDaysLoop] at h
  | succ n ih =>
    intro s r k h
    rw [show n + 1 + k = (n + k) + 1 by omega]
    simp only [CountDaysLoop] at h ⊢
    split
    · rename_i hc
      rw [if_pos hc] at h
      exact ih _ r k h
    · rename_i hc
      rw [if_neg hc] at h
      exact h

theorem filter_step (P : Int × Int × Int → Prop) [DecidablePred P] (y m d y2 m2 d2 : Int)
    (hv : ValidDate y m d) (hle : DateLe y m d y2 m2 d2) :
    ((datesBetween y m d y2 m2 d2).filter P).card =
      (if P (y, m, d) then 1 else 0) +
        ((datesBetween (nextDate y m d).1 (nextDate y m d).2.1 (nextDate y m d).2.2
          y2 m2 d2).filter P).card := by
  obtain ⟨hs, hnot⟩ := datesBetween_step y m d y2 m2 d2 hv hle
  rw [hs, Finset.filter_insert]
  split_ifs with hp
  · rw [Finset.card_insert_of_not_mem (fun h => hnot (Finset.mem_of_mem_filter _ h))]
    omega
  · omega

theorem nextDate_year (y m d : Int) : y ≤ (nextDate y m d).1 := by
  unfold nextDate
  split_ifs <;> simp

/-- The loop of `CountDays`, started on a valid date not later than the valid
end date, ends after one test of its condition per date of the range and one
more; it has then added the number of dates to `totalDays` and the number of
dates accepted by `IsWorkDay` to `workDays`, both within the range of `int`. -/
theorem CountDaysLoop_run (n : Nat) :
    ∀ (y m d y2 m2 d2 t w : Int), ValidDate y m d → ValidDate y2 m2 d2 → 0 ≤ y →
      y2 ≤ INT_MAX → ¬ (y2 = INT_MAX ∧ m2 = 12 ∧ d2 = 31) →
      INT_MIN ≤ w → w ≤ INT_MAX →
      dayNumber y2 m2 d2 - dayNumber y m d = n →
      CountDaysLoop y2 m2 d2 (n + 2)
          { y1 := y, m1 := m, d1 := d, result := { totalDays := t, workDays := w } } =
        some { totalDays := wrapInt (t + (n + 1)),
               workDays := wrapInt (w + (((datesBetween y m d y2 m2 d2).filter
                 (fun x => IsWorkDay x.1 x.2.1 x.2.2 = true)).card : Int)) } := by
  induction n with
  | zero =>
    intro y m d y2 m2 d2 t w hv hv2 hy hy2 hlast hw1 hw2 hn
    have hle := (dayNumber_le_iff _ _ _ _ _ _ hv hv2).mp (by omega)
    have hnext : ¬ DateLe (nextDate y m d).1 (nextDate y m d).2.1 (nextDate y m d).2.2
        y2 m2 d2 := by
      rw [← dayNumber_le_iff _ _ _ _ _ _ (nextDate_valid y m d hv) hv2,
        dayNumber_nextDate y m d hv]
      omega
    have hbody := loopBody_eq y m d { totalDays := t, workDays := w } hv hy (by
      unfold DateLe at hle
      obtain ⟨_, _, _, h4⟩ := hv2
      have := monthLength_bounds y2 m2
      omega)
    have hc1 : loopCond y2 m2 d2
        { y1 := y, m1 := m, d1 := d, result := { totalDays := t, workDays := w } } = true :=
      (loopCond_iff _ _ _ _).mpr hle
    rw [show 0 + 2 = 1 + 1 by rfl, CountDaysLoop, if_pos hc1, hbody, CountDaysLoop]
    have hc2 : ¬ loopCond y2 m2 d2
        { y1 := (nextDate y m d).1, m1 := (nextDate y m d).2.1, d1 := (nextDate y m d).2.2,
          result := { totalDays := addInt t 1,
                      workDays := if IsWorkDay y m d then addInt w 1 else w } } = true :=
      fun h => hnext ((loopCond_iff _ _ _ _).mp h)
    rw [if_neg hc2]
    rw [filter_step _ y m d y2 m2 d2 hv hle, datesBetween_empty _ _ _ _ _ _ hnext]
    simp only [Finset.filter_empty, Finset.card_empty, add_zero]
    congr 2
    by_cases hp : IsWorkDay y m d = true
    · simp [hp, addInt]
    · have hp2 : IsWorkDay y m d = false := by simpa using hp
      simp only [hp2, Bool.false_eq_true, if_false, Nat.cast_zero, add_zero]
      exact (wrapInt_of_range w hw1 hw2).symm
  | succ k ih =>
    intro y m d y2 m2 d2 t w hv hv2 hy hy2 hlast hw1 hw2 hn
    have hle := (dayNumber_le_iff _ _ _ _ _ _ hv hv2).mp (by omega)
    have hnx := dayNumber_nextDate y m d hv
    have hbody := loopBody_eq y m d { totalDays := t, workDays := w } hv hy (by
      unfold DateLe at hle
      obtain ⟨_, _, _, h4⟩ := hv2
      have := monthLength_bounds y2 m2
      omega)
    have hc1 : loopCond y2 m2 d2
        { y1 := y, m1 := m, d1 := d, result := { totalDays := t, workDays := w } } = true :=
      (loopCond_iff _ _ _ _).mpr hle
    have hw' : INT_MIN ≤ (if IsWorkDay y m d then addInt w 1 else w) ∧
        (if IsWorkDay y m d then addInt w 1 else w) ≤ INT_MAX := by
      split_ifs
      · exact wrapInt_range _
      · exact ⟨hw1, hw2⟩
    rw [show k + 1 + 2 = (k + 2) + 1 by rfl, CountDaysLoop, if_pos hc1, hbody]
    rw [ih _ _ _ y2 m2 d2 _ _ (nextDate_valid y m d hv) hv2
      (le_trans hy (nextDate_year y m d)) hy2 hlast hw'.1 hw'.2
      (by rw [hnx]; push_cast at hn; omega)]
    rw [filter_step _ y m d y2 m2 d2 hv hle]
    congr 2
    · unfold addInt
      rw [wrapInt_add_left]
      congr 1
      push_cast
      ring
    · by_cases hp : IsWorkDay y m d = true
      · simp only [hp, if_true]
        unfold addInt
        rw [wrapInt_add_left]
        congr 1
        push_cast
        ring
      · have hp2 : IsWorkDay y m d = false := by simpa using hp
        simp only [hp2, Bool.false_eq_true, if_false]
        congr 1
        push_cast
        ring

/-! ## The range check of `CountDays` -/

theorem arrayGet_daysInMonth_feb (feb m : Int) (h1 : 1 ≤ m) (h2 : m ≤ 12) :
    arrayGet (daysInMonth feb) (subInt m 1) =
      if m = 2 then feb else if m = 4 ∨ m = 6 ∨ m = 9 ∨ m = 11 then 30 else 31 := by
  rw [subInt_of_range m 1 (by unfold INT_MIN; omega) (by unfold INT_MAX; omega)]
  unfold arrayGet daysInMonth
  interval_cases m <;> simp

theorem monthLength_le_arrayGet (y y' m : Int) (hy : 0 ≤ y) (h1 : 1 ≤ m) (h2 : m ≤ 12)
    (b : Bool) (hb : b = (IsLeapYear y || IsLeapYear y') ∨ b = (IsLeapYear y' || IsLeapYear y)) :
    monthLength y m ≤ arrayGet (daysInMonth (if b then 29 else 28)) (subInt m 1) := by
  rw [arrayGet_daysInMonth_feb _ m h1 h2]
  unfold monthLength
  by_cases hm : m = 2
  · rw [if_pos hm, if_pos hm]
    by_cases hl : GregorianLeap y
    · have hl2 := (IsLeapYear_iff y hy).mpr hl
      have hbt : b = true := by
        rcases hb with h | h <;> rw [h, hl2] <;> simp
      rw [if_pos hl, hbt]
      simp
    · rw [if_neg hl]
      split_ifs <;> omega
  · rw [if_neg hm, if_neg hm]

/-- Two valid dates in order, of years from 2000 on, pass the range check of
`CountDays`, which then runs its loop from the start date. -/
theorem CountDays_eq_loop (fuel : Nat) (y1 m1 d1 y2 m2 d2 : Int)
    (hv1 : ValidDate y1 m1 d1) (hv2 : ValidDate y2 m2 d2) (hy1 : 2000 ≤ y1)
    (hle : DateLe y1 m1 d1 y2 m2 d2) :
    CountDays fuel y1 m1 d1 y2 m2 d2 =
      CountDaysLoop y2 m2 d2 fuel
        { y1 := y1, m1 := m1, d1 := d1, result := { totalDays := 0, workDays := 0 } } := by
  have hy2 : 2000 ≤ y2 := by unfold DateLe at hle; omega
  have ha := monthLength_le_arrayGet y1 y2 m1 (by omega) hv1.1 hv1.2.1
    (IsLeapYear y1 || IsLeapYear y2) (Or.inl rfl)
  have hb := monthLength_le_arrayGet y2 y1 m2 (by omega) hv2.1 hv2.2.1
    (IsLeapYear y1 || IsLeapYear y2) (Or.inr rfl)
  obtain ⟨h1, h2, h3, h4⟩ := hv1
  obtain ⟨h5, h6, h7, h8⟩ := hv2
  have hc : invalidRange y1 m1 d1 y2 m2 d2 = false := by
    unfold invalidRange
    simp only
    rw [decide_eq_false_iff_not]
    unfold DateLe at hle
    omega
  unfold CountDays
  rw [hc]
  rfl

theorem CountDays_deterministic (fuel fuel' : Nat) (y1 m1 d1 y2 m2 d2 : Int) (r r' : Result)
    (h : CountDays fuel y1 m1 d1 y2 m2 d2 = some r)
    (h' : CountDays fuel' y1 m1 d1 y2 m2 d2 = some r') : r' = r := by
  unfold CountDays at h h'
  by_cases hc : invalidRange y1 m1 d1 y2 m2 d2 = true
  · rw [if_pos hc] at h h'
    rw [← Option.some_inj, ← h, ← h']
  · rw [if_neg hc] at h h'
    have e1 := CountDaysLoop_mono _ _ _ _ _ _ fuel' h
    have e2 := CountDaysLoop_mono _ _ _ _ _ _ fuel h'
    rw [Nat.add_comm] at e2
    rw [e1] at e2
    exact (Option.some_inj.mp e2).symm

/-- The result of `CountDays` on two valid dates in order, when the year need
not be incremented beyond `INT_MAX`: both counters reduced to the range of
`int`. -/
theorem CountDays_run (y1 m1 d1 y2 m2 d2 : Int)
    (hv1 : ValidDate y1 m1 d1) (hv2 : ValidDate y2 m2 d2) (hy1 : 2000 ≤ y1)
    (hy2 : y2 ≤ INT_MAX) (hle : DateLe y1 m1 d1 y2 m2 d2)
    (hlast : ¬ (y2 = INT_MAX ∧ m2 = 12 ∧ d2 = 31)) :
    CountDays ((dayNumber y2 m2 d2 - dayNumber y1 m1 d1).toNat + 2) y1 m1 d1 y2 m2 d2 =
      some { totalDays := wrapInt (dayNumber y2 m2 d2 - dayNumber y1 m1 d1 + 1),
             workDays := wrapInt (((datesBetween y1 m1 d1 y2 m2 d2).filter
               (fun x => IsWorkDay x.1 x.2.1 x.2.2 = true)).card : Int) } := by
  have hdn := (dayNumber_le_iff _ _ _ _ _ _ hv1 hv2).mpr hle
  obtain ⟨n, hn⟩ : ∃ n : Nat, dayNumber y2 m2 d2 - dayNumber y1 m1 d1 = n :=
    ⟨(dayNumber y2 m2 d2 - dayNumber y1 m1 d1).toNat, by omega⟩
  have e : (dayNumber y2 m2 d2 - dayNumber y1 m1 d1).toNat = n := by omega
  rw [e, CountDays_eq_loop _ _ _ _ _ _ _ hv1 hv2 hy1 hle]
  rw [CountDaysLoop_run n y1 m1 d1 y2 m2 d2 0 0 hv1 hv2 (by omega) hy2 hlast
    (by unfold INT_MIN; omega) (by unfold INT_MAX; omega) hn]
  rw [hn, zero_add, zero_add]

/-! ## The assertions of `main` on short ranges -/

theorem main_inverted : CountDays 1 2064 1 5 2064 1 1 = some { totalDays := -1, workDays := -1 } := by
  decide

theorem main_november : CountDays 18 2023 11 1 2023 11 17 = some { totalDays := 17, workDays := 12 } := by
  decide

theorem main_one_day : CountDays 2 2023 11 1 2023 11 1 = some { totalDays := 1, workDays := 1 } := by
  decide

theorem main_holiday : CountDays 2 2023 11 17 2023 11 17 = some { totalDays := 1, workDays := 0 } := by
  decide

theorem main_invalid_date :
    CountDays 1 2023 1 1 2023 2 29 = some { totalDays := -1, workDays := -1 } := by
  decide

/-! ## The contract of `CountDays` -/

set_option maxRecDepth 100000 in
theorem CountDays_feb29_end :
    CountDays 61 2024 12 31 2025 2 29 = some { totalDays := 60, workDays := 43 } := by
  decide

/-- C8. The range check of `CountDays` measures February against a table in
which it has 29 days as soon as either year is a leap year: 29 February 2025,
not a calendar date, is accepted as an end date next to a start in 2024, and
`CountDays` returns the counts (60, 43) instead of (-1, -1); 29 February 2023
is accepted as a start date next to an end in 2024. -/
theorem CountDays_accepts_invalid_date :
    ¬ ValidDate 2025 2 29 ∧
    CountDays 61 2024 12 31 2025 2 29 = some { totalDays := 60, workDays := 43 } ∧
    ¬ ValidDate 2023 2 29 ∧ invalidRange 2023 2 29 2024 1 1 = false := by
  exact ⟨by decide, CountDays_feb29_end, by decide, by decide⟩

theorem dayNumber_fullYear (y : Int) :
    dayNumber y 12 31 - dayNumber y 1 1 + 1 = if GregorianLeap y then 366 else 365 := by
  have h13 := daysBeforeMonth_thirteen y
  rw [show (13 : Int) = 12 + 1 by rfl, daysBeforeMonth_succ y 12 (by omega)] at h13
  have h31 : monthLength y 12 = 31 := by unfold monthLength; simp
  unfold dayNumber
  rw [daysBeforeMonth_one]
  split_ifs at h13 ⊢ <;> omega

/-- C10, amended. For two valid dates in order, of years from 2000 on, such that
the number of days from the first to the last fits an `int` and the end date is
not 31 December of the year `INT_MAX`, `CountDays` returns, and the field
`totalDays` of what it returns is the number of calendar dates from start to
end, both included, that is the difference of the day numbers plus one: 1 for
a single day, 365 or 366 for a full year. -/
theorem CountDays_totalDays (y1 m1 d1 y2 m2 d2 : Int)
    (hv1 : ValidDate y1 m1 d1) (hv2 : ValidDate y2 m2 d2) (hy1 : 2000 ≤ y1)
    (hy2 : y2 ≤ INT_MAX) (hle : DateLe y1 m1 d1 y2 m2 d2)
    (hlast : ¬ (y2 = INT_MAX ∧ m2 = 12 ∧ d2 = 31))
    (hfit : dayNumber y2 m2 d2 - dayNumber y1 m1 d1 + 1 ≤ INT_MAX) :
    ∃ fuel r, CountDays fuel y1 m1 d1 y2 m2 d2 = some r ∧
      (∀ fuel' r', CountDays fuel' y1 m1 d1 y2 m2 d2 = some r' → r' = r) ∧
      r.totalDays = ((datesBetween y1 m1 d1 y2 m2 d2).card : Int) ∧
      r.totalDays = dayNumber y2 m2 d2 - dayNumber y1 m1 d1 + 1 ∧
      (y1 = y2 ∧ m1 = m2 ∧ d1 = d2 → r.totalDays = 1) ∧
      (y1 = y2 ∧ m1 = 1 ∧ d1 = 1 ∧ m2 = 12 ∧ d2 = 31 →
        r.totalDays = if GregorianLeap y1 then 366 else 365) := by
  have hrun := CountDays_run y1 m1 d1 y2 m2 d2 hv1 hv2 hy1 hy2 hle hlast
  have hdn := (dayNumber_le_iff _ _ _ _ _ _ hv1 hv2).mpr hle
  have ht : wrapInt (dayNumber y2 m2 d2 - dayNumber y1 m1 d1 + 1)
      = dayNumber y2 m2 d2 - dayNumber y1 m1 d1 + 1 :=
    wrapInt_of_range _ (by unfold INT_MIN; omega) hfit
  refine ⟨_, _, hrun, ?_, ?_, ht, ?_, ?_⟩
  · intro fuel' r' h'
    exact CountDays_deterministic _ _ _ _ _ _ _ _ _ _ hrun h'
  · show wrapInt _ = _
    rw [ht, card_datesBetween_eq _ _ _ _ _ _ hv1 hv2 hle]
  · rintro ⟨rfl, rfl, rfl⟩
    show wrapInt _ = _
    rw [ht]
    omega
  · rintro ⟨rfl, rfl, rfl, rfl, rfl⟩
    show wrapInt _ = _
    rw [ht]
    exact dayNumber_fullYear y1

theorem CountDays_totalDays_witness :
    ValidDate 2023 11 1 ∧ ValidDate 2023 11 17 ∧ (2000 : Int) ≤ 2023 ∧ (2023 : Int) ≤ INT_MAX ∧
    DateLe 2023 11 1 2023 11 17 ∧ ¬ ((2023 : Int) = INT_MAX ∧ (11 : Int) = 12 ∧ (17 : Int) = 31) ∧
    dayNumber 2023 11 17 - dayNumber 2023 11 1 + 1 ≤ INT_MAX ∧
    ∃ fuel r, CountDays fuel 2023 11 1 2023 11 17 = some r ∧
      (∀ fuel' r', CountDays fuel' 2023 11 1 2023 11 17 = some r' → r' = r) ∧
      r.totalDays = ((datesBetween 2023 11 1 2023 11 17).card : Int) ∧
      r.totalDays = dayNumber 2023 11 17 - dayNumber 2023 11 1 + 1 ∧
      ((2023 : Int) = 2023 ∧ (11 : Int) = 11 ∧ (1 : Int) = 17 → r.totalDays = 1) ∧
      ((2023 : Int) = 2023 ∧ (11 : Int) = 1 ∧ (1 : Int) = 1 ∧ (11 : Int) = 12 ∧ (17 : Int) = 31 →
        r.totalDays = if GregorianLeap 2023 then 366 else 365) :=
  ⟨by decide, by decide, by decide, by decide, by decide, by decide, by decide,
    CountDays_totalDays 2023 11 1 2023 11 17 (by decide) (by decide) (by decide) (by decide)
      (by decide) (by decide) (by decide)⟩

/-- Away from 29 February of a non-leap year, the range check of `CountDays`
rejects exactly the inputs with the dates out of order, a year before 2000 or
a date that is not a calendar date. -/
theorem invalidRange_iff (y1 m1 d1 y2 m2 d2 : Int)
    (hfeb1 : ¬ (m1 = 2 ∧ d1 = 29 ∧ ¬ GregorianLeap y1))
    (hfeb2 : ¬ (m2 = 2 ∧ d2 = 29 ∧ ¬ GregorianLeap y2)) :
    invalidRange y1 m1 d1 y2 m2 d2 = true ↔
      (DateLt y2 m2 d2 y1 m1 d1 ∨ y1 < 2000 ∨ y2 < 2000 ∨
        ¬ ValidDate y1 m1 d1 ∨ ¬ ValidDate y2 m2 d2) := by
  unfold invalidRange
  simp only
  rw [decide_eq_true_eq]
  by_cases hy1 : y1 < 2000
  · simp [hy1]
  by_cases hy2 : y2 < 2000
  · simp [hy2]
  by_cases hm1 : 1 ≤ m1 ∧ m1 ≤ 12
  swap
  · have hv : ¬ ValidDate y1 m1 d1 := fun h => hm1 ⟨h.1, h.2.1⟩
    have : m1 < 1 ∨ m1 > 12 := by omega
    simp only [hv, not_false_eq_true, true_or, or_true, iff_true]
    omega
  by_cases hm2 : 1 ≤ m2 ∧ m2 ≤ 12
  swap
  · have hv : ¬ ValidDate y2 m2 d2 := fun h => hm2 ⟨h.1, h.2.1⟩
    have : m2 < 1 ∨ m2 > 12 := by omega
    simp only [hv, not_false_eq_true, or_true, iff_true]
    omega
  rw [arrayGet_daysInMonth_feb _ m1 hm1.1 hm1.2, arrayGet_daysInMonth_feb _ m2 hm2.1 hm2.2]
  have hl1 := IsLeapYear_iff y1 (by omega)
  have hl2 := IsLeapYear_iff y2 (by omega)
  unfold ValidDate monthLength DateLt
  by_cases g1 : GregorianLeap y1 <;> by_cases g2 : GregorianLeap y2
  · have e1 := hl1.mpr g1
    have e2 := hl2.mpr g2
    simp only [e1, e2, g1, g2, Bool.or_self, if_true]
    split_ifs <;> omega
  · have e1 := hl1.mpr g1
    simp only [e1, g1, g2, Bool.true_or, if_true, if_false]
    simp only [g2, not_false_eq_true, and_true] at hfeb2
    split_ifs <;> omega
  · have e2 := hl2.mpr g2
    simp only [e2, g1, g2, Bool.or_true, if_true, if_false]
    simp only [g1, not_false_eq_true, and_true] at hfeb1
    split_ifs <;> omega
  · have e1 : IsLeapYear y1 = false := by
      rw [← Bool.not_eq_true]; exact fun h => g1 (hl1.mp h)
    have e2 : IsLeapYear y2 = false := by
      rw [← Bool.not_eq_true]; exact fun h => g2 (hl2.mp h)
    simp only [e1, e2, g1, g2, Bool.or_self, Bool.false_eq_true, if_false]
    split_ifs <;> omega

/-- The counts that `CountDays` returns on two valid dates in order, when the
number of days fits an `int` and the year need not be incremented beyond
`INT_MAX`: at least one day, and no more working days than days. -/
theorem CountDays_counts (y1 m1 d1 y2 m2 d2 : Int)
    (hv1 : ValidDate y1 m1 d1) (hv2 : ValidDate y2 m2 d2) (hy1 : 2000 ≤ y1)
    (hy2 : y2 ≤ INT_MAX) (hle : DateLe y1 m1 d1 y2 m2 d2)
    (hlast : ¬ (y2 = INT_MAX ∧ m2 = 12 ∧ d2 = 31))
    (hfit : dayNumber y2 m2 d2 - dayNumber y1 m1 d1 + 1 ≤ INT_MAX) :
    ∃ fuel r, CountDays fuel y1 m1 d1 y2 m2 d2 = some r ∧
      1 ≤ r.totalDays ∧ 0 ≤ r.workDays ∧ r.workDays ≤ r.totalDays := by
  have hrun := CountDays_run y1 m1 d1 y2 m2 d2 hv1 hv2 hy1 hy2 hle hlast
  have hdn := (dayNumber_le_iff _ _ _ _ _ _ hv1 hv2).mpr hle
  have ht : wrapInt (dayNumber y2 m2 d2 - dayNumber y1 m1 d1 + 1)
      = dayNumber y2 m2 d2 - dayNumber y1 m1 d1 + 1 :=
    wrapInt_of_range _ (by unfold INT_MIN; omega) hfit
  have hcard := card_datesBetween_eq _ _ _ _ _ _ hv1 hv2 hle
  have hfl : (((datesBetween y1 m1 d1 y2 m2 d2).filter
      (fun x => IsWorkDay x.1 x.2.1 x.2.2 = true)).card : Int)
      ≤ ((datesBetween y1 m1 d1 y2 m2 d2).card : Int) := by
    exact_mod_cast Finset.card_filter_le _ _
  have hw : wrapInt (((datesBetween y1 m1 d1 y2 m2 d2).filter
      (fun x => IsWorkDay x.1 x.2.1 x.2.2 = true)).card : Int)
      = (((datesBetween y1 m1 d1 y2 m2 d2).filter
      (fun x => IsWorkDay x.1 x.2.1 x.2.2 = true)).card : Int) :=
    wrapInt_of_range _ (by unfold INT_MIN; omega) (by omega)
  refine ⟨_, _, hrun, ?_, ?_, ?_⟩
  · show 1 ≤ wrapInt _
    rw [ht]; omega
  · show 0 ≤ wrapInt _
    rw [hw]; omega
  · show wrapInt _ ≤ wrapInt _
    rw [hw, ht]; omega

/-! ## The end of the range of `int` -/

theorem loopBody_bounds (s : LoopState) (hm1 : 1 ≤ s.m1) (hm2 : s.m1 ≤ 12)
    (hd1 : 1 ≤ s.d1) (hd2 : s.d1 ≤ 31) (hy : s.y1 ≤ INT_MAX) :
    1 ≤ (loopBody s).m1 ∧ (loopBody s).m1 ≤ 12 ∧ 1 ≤ (loopBody s).d1 ∧
      (loopBody s).d1 ≤ 31 ∧ (loopBody s).y1 ≤ INT_MAX := by
  have hd : addInt s.d1 1 = s.d1 + 1 :=
    addInt_of_range s.d1 1 (by unfold INT_MIN; omega) (by unfold INT_MAX; omega)
  have hm : addInt s.m1 1 = s.m1 + 1 :=
    addInt_of_range s.m1 1 (by unfold INT_MIN; omega) (by unfold INT_MAX; omega)
  have hL : arrayGet (daysInMonth (if IsLeapYear s.y1 then 29 else 28)) (subInt s.m1 1) ≤ 31 := by
    rw [arrayGet_daysInMonth_feb _ s.m1 hm1 hm2]
    split_ifs <;> omega
  have hyw := (wrapInt_range (s.y1 + 1)).2
  unfold loopBody
  simp only
  rw [hd, hm]
  generalize arrayGet (daysInMonth (if IsLeapYear s.y1 then 29 else 28)) (subInt s.m1 1) = L
    at hL ⊢
  unfold addInt
  by_cases h1 : s.d1 + 1 > L
  · by_cases h2 : s.m1 + 1 > 12
    · simp only [h1, h2, decide_True, if_true]
      exact ⟨le_rfl, by omega, le_rfl, by omega, hyw⟩
    · simp only [h1, h2, decide_True, decide_False, if_true, Bool.false_eq_true, if_false]
      exact ⟨by omega, by omega, le_rfl, by omega, hy⟩
  · have h2 : ¬ s.m1 > 12 := by omega
    simp only [h1, h2, decide_False, Bool.false_eq_true, if_false]
    exact ⟨hm1, hm2, by omega, by omega, hy⟩

/-- When the end date is 31 December of the year `INT_MAX`, the condition of the
loop holds in every state that the loop reaches, and the loop never ends. -/
theorem CountDaysLoop_never_ends (fuel : Nat) :
    ∀ s : LoopState, 1 ≤ s.m1 → s.m1 ≤ 12 → 1 ≤ s.d1 → s.d1 ≤ 31 → s.y1 ≤ INT_MAX →
      CountDaysLoop INT_MAX 12 31 fuel s = none := by
  induction fuel with
  | zero => intro s _ _ _ _ _; rfl
  | succ n ih =>
    intro s hm1 hm2 hd1 hd2 hy
    have hc : loopCond INT_MAX 12 31 s = true := by
      unfold loopCond
      rw [decide_eq_true_eq]
      omega
    obtain ⟨b1, b2, b3, b4, b5⟩ := loopBody_bounds s hm1 hm2 hd1 hd2 hy
    rw [CountDaysLoop, if_pos hc]
    exact ih _ b1 b2 b3 b4 b5

theorem CountDays_never_returns (fuel : Nat) :
    CountDays fuel 2147483647 12 31 2147483647 12 31 = none := by
  have hc : invalidRange 2147483647 12 31 2147483647 12 31 = false := by decide
  unfold CountDays
  rw [hc]
  exact CountDaysLoop_never_ends fuel _ (by decide) (by decide) (by decide) (by decide)
    (by decide)

/-- C10 as stated fails where the range of `int` ends. From 1 January 2000 to
1 January 5881611 there are 2147483822 days, and `CountDays` returns the
negative `totalDays` -2147483474; and with 31 December of the year 2147483647
as both dates, valid and in order, `CountDays` returns nothing, however many
times the condition of its loop is tested. -/
theorem CountDays_totalDays_overflow :
    (ValidDate 2000 1 1 ∧ ValidDate 5881611 1 1 ∧ DateLe 2000 1 1 5881611 1 1 ∧
      dayNumber 5881611 1 1 - dayNumber 2000 1 1 + 1 = 2147483822 ∧
      ∃ fuel r, CountDays fuel 2000 1 1 5881611 1 1 = some r ∧ r.totalDays = -2147483474) ∧
    (ValidDate 2147483647 12 31 ∧ DateLe 2147483647 12 31 2147483647 12 31 ∧
      ∀ fuel, CountDays fuel 2147483647 12 31 2147483647 12 31 = none) := by
  have hn : dayNumber 5881611 1 1 - dayNumber 2000 1 1 + 1 = 2147483822 := by decide
  refine ⟨⟨by decide, by decide, by decide, hn, ?_⟩, by decide, by decide,
    CountDays_never_returns⟩
  have hrun := CountDays_run 2000 1 1 5881611 1 1 (by decide) (by decide) (by decide)
    (by decide) (by decide) (by decide)
  refine ⟨_, _, hrun, ?_⟩
  show wrapInt _ = _
  rw [hn]
  decide

/-! ## Working days -/

theorem filter_IsWorkDay_eq (y1 m1 d1 y2 m2 d2 : Int) (hy1 : 2000 ≤ y1) (hy2 : y2 ≤ LAST_YEAR) :
    (datesBetween y1 m1 d1 y2 m2 d2).filter (fun x => IsWorkDay x.1 x.2.1 x.2.2 = true) =
      (datesBetween y1 m1 d1 y2 m2 d2).filter (fun x => WorkingDate x.1 x.2.1 x.2.2) := by
  apply Finset.filter_congr
  intro x hx
  obtain ⟨hv, h1, h2⟩ := (mem_datesBetween _ _ _ _ _ _ x).mp hx
  have hx1 : 2000 ≤ x.1 := by unfold DateLe at h1; omega
  have hx2 : x.1 ≤ LAST_YEAR := by unfold DateLe at h2; omega
  rw [IsWorkDay_eq x.1 x.2.1 x.2.2 hx1 hx2 hv, decide_eq_true_eq]

theorem workingDaysBetween_single (y m d : Int) (hv : ValidDate y m d) :
    workingDaysBetween y m d y m d = if WorkingDate y m d then 1 else 0 := by
  have hle : DateLe y m d y m d := (dateLe_iff_lt_or_eq _ _ _ _ _ _).mpr (Or.inr ⟨rfl, rfl, rfl⟩)
  have hnext : ¬ DateLe (nextDate y m d).1 (nextDate y m d).2.1 (nextDate y m d).2.2 y m d := by
    rw [nextDate_le_iff y m d y m d hv hv]
    unfold DateLt
    omega
  unfold workingDaysBetween
  rw [filter_step (fun x => WorkingDate x.1 x.2.1 x.2.2) y m d y m d hv hle,
    datesBetween_empty _ _ _ _ _ _ hnext]
  simp

/-- C9, amended. For two valid dates in order, of years from 2000 to
1717986918, such that the number of working days between them fits an `int`,
`CountDays` returns, and the field `workDays` of what it returns is the number
of calendar dates from start to end, both included, that fall on Monday to
Friday and are not one of the eleven fixed holidays. -/
theorem CountDays_workDays (y1 m1 d1 y2 m2 d2 : Int)
    (hv1 : ValidDate y1 m1 d1) (hv2 : ValidDate y2 m2 d2) (hy1 : 2000 ≤ y1)
    (hy2 : y2 ≤ LAST_YEAR) (hle : DateLe y1 m1 d1 y2 m2 d2)
    (hfit : (workingDaysBetween y1 m1 d1 y2 m2 d2 : Int) ≤ INT_MAX) :
    ∃ fuel r, CountDays fuel y1 m1 d1 y2 m2 d2 = some r ∧
      (∀ fuel' r', CountDays fuel' y1 m1 d1 y2 m2 d2 = some r' → r' = r) ∧
      r.workDays = (workingDaysBetween y1 m1 d1 y2 m2 d2 : Int) := by
  have hrun := CountDays_run y1 m1 d1 y2 m2 d2 hv1 hv2 hy1
    (by unfold LAST_YEAR at hy2; unfold INT_MAX; omega) hle
    (by unfold LAST_YEAR at hy2; unfold INT_MAX; omega)
  refine ⟨_, _, hrun, ?_, ?_⟩
  · intro fuel' r' h'
    exact CountDays_deterministic _ _ _ _ _ _ _ _ _ _ hrun h'
  · show wrapInt _ = _
    rw [filter_IsWorkDay_eq y1 m1 d1 y2 m2 d2 hy1 hy2]
    exact wrapInt_of_range _ (by unfold INT_MIN; omega) hfit

theorem CountDays_workDays_witness :
    ValidDate 2023 11 1 ∧ ValidDate 2023 11 17 ∧ (2000 : Int) ≤ 2023 ∧ (2023 : Int) ≤ LAST_YEAR ∧
    DateLe 2023 11 1 2023 11 17 ∧ (workingDaysBetween 2023 11 1 2023 11 17 : Int) ≤ INT_MAX ∧
    ∃ fuel r, CountDays fuel 2023 11 1 2023 11 17 = some r ∧
      (∀ fuel' r', CountDays fuel' 2023 11 1 2023 11 17 = some r' → r' = r) ∧
      r.workDays = (workingDaysBetween 2023 11 1 2023 11 17 : Int) :=
  ⟨by decide, by decide, by decide, by decide, by decide, by decide,
    CountDays_workDays 2023 11 1 2023 11 17 (by decide) (by decide) (by decide) (by decide)
      (by decide) (by decide)⟩

/-- C9 as stated fails on late years. 1 June of the year 1800000000 is a valid
date that falls on Monday to Friday and is no holiday, so the range from that
day to itself holds one working day; the sum `y + y / 4` of `IsWorkDay` leaves
the range of `int` there, and `CountDays` returns 0 working days. -/
theorem CountDays_workDays_overflow :
    ValidDate 1800000000 6 1 ∧ DateLe 1800000000 6 1 1800000000 6 1 ∧
    workingDaysBetween 1800000000 6 1 1800000000 6 1 = 1 ∧
    CountDays 2 1800000000 6 1 1800000000 6 1 = some { totalDays := 1, workDays := 0 } ∧
    ∀ fuel r, CountDays fuel 1800000000 6 1 1800000000 6 1 = some r → r.workDays = 0 := by
  have hrun : CountDays 2 1800000000 6 1 1800000000 6 1
      = some { totalDays := 1, workDays := 0 } := by decide
  refine ⟨by decide, by decide, ?_, hrun, ?_⟩
  · rw [workingDaysBetween_single _ _ _ (by decide)]
    decide
  · intro fuel r h
    rw [CountDays_deterministic _ _ _ _ _ _ _ _ _ _ hrun h]

end WorkingDays

/-! # The verse filter in memory -/

namespace VerseFilter.Memory

/-! ## Reading and writing blocks -/

theorem lookup_bound (h : Heap) (a : Nat) (c : Verse_t) (hl : lookup h a = some c) :
    0 < a ∧ a ≤ h.length := by
  cases a with
  | zero => simp [lookup] at hl
  | succ a =>
    refine ⟨Nat.succ_pos _, ?_⟩
    by_contra hlt
    have hnone : h[a]? = none := List.getElem?_eq_none (by omega)
    simp [lookup, hnone] at hl

theorem lookup_append (h : Heap) (x : Option Verse_t) (a : Nat) (ha : a ≤ h.length) :
    lookup (h ++ [x]) a = lookup h a := by
  cases a with
  | zero => rfl
  | succ a =>
    show (h ++ [x])[a]?.join = h[a]?.join
    rw [List.getElem?_append_left (by omega)]

theorem lookup_append_new (h : Heap) (x : Option Verse_t) :
    lookup (h ++ [x]) (h.length + 1) = x := by
  show (h ++ [x])[h.length]?.join = x
  rw [List.getElem?_append_right (le_refl _)]
  simp

theorem lookup_store_same (h : Heap) (a : Nat) (v : Option Verse_t) (h0 : 0 < a)
    (ha : a ≤ h.length) : lookup (store h a v) a = v := by
  cases a with
  | zero => omega
  | succ a =>
    show (h.set a v)[a]?.join = v
    rw [List.getElem?_set_self (by omega)]
    rfl

theorem lookup_store_ne (h : Heap) (a b : Nat) (v : Option Verse_t) (hab : a ≠ b) :
    lookup (store h a v) b = lookup h b := by
  cases a with
  | zero => rfl
  | succ a =>
    cases b with
    | zero => rfl
    | succ b =>
      show (h.set a v)[b]?.join = h[b]?.join
      rw [List.getElem?_set_ne (by omega)]

theorem length_store (h : Heap) (a : Nat) (v : Option Verse_t) :
    (store h a v).length = h.length := by
  cases a with
  | zero => rfl
  | succ a => exact List.length_set _ _ _

/-! ## Lists in memory -/

theorem linked_congr (h h' : Heap) (nodes : List (Nat × List Nat)) :
    ∀ p, (∀ a, a ∈ nodes.map Prod.fst → lookup h' a = lookup h a) →
      Linked h p nodes → Linked h' p nodes := by
  induction nodes with
  | nil => intro p _ hl; exact hl
  | cons node rest ih =>
    intro p hagree hl
    obtain ⟨hp, next, hlook, hrest⟩ := hl
    refine ⟨hp, next, ?_, ih next (fun a ha => hagree a ?_) hrest⟩
    · rw [hagree p (by rw [hp, List.map_cons]; exact List.mem_cons_self _ _)]
      exact hlook
    · rw [List.map_cons]
      exact List.mem_cons_of_mem _ ha

theorem linked_lookup (h : Heap) (nodes : List (Nat × List Nat)) :
    ∀ p, Linked h p nodes → ∀ a, a ∈ nodes.map Prod.fst → ∃ c, lookup h a = some c := by
  induction nodes with
  | nil => intro p _ a ha; exact absurd ha (List.not_mem_nil a)
  | cons node rest ih =>
    intro p hl a ha
    obtain ⟨hp, next, hlook, hrest⟩ := hl
    rw [List.map_cons] at ha
    rcases List.mem_cons.mp ha with e | hmem
    · rw [e, ← hp]
      exact ⟨_, hlook⟩
    · exact ih next hrest a hmem

theorem linked_live (h : Heap) (nodes : List (Nat × List Nat)) (p : Nat)
    (hl : Linked h p nodes) (a : Nat) (ha : a ∈ nodes.map Prod.fst) : 0 < a ∧ a ≤ h.length := by
  obtain ⟨c, hc⟩ := linked_lookup h nodes p hl a ha
  exact lookup_bound h a c hc

theorem listRep_iff (h : Heap) (l : List (List Nat)) :
    ∀ p, ListRep h p l ↔ ∃ nodes, Linked h p nodes ∧ nodes.map Prod.snd = l := by
  induction l with
  | nil =>
    intro p
    constructor
    · intro hp
      exact ⟨[], hp, rfl⟩
    · rintro ⟨nodes, hl, hm⟩
      rw [List.map_eq_nil_iff] at hm
      subst hm
      exact hl
  | cons v rest ih =>
    intro p
    constructor
    · rintro ⟨c, hlook, hv, hrest⟩
      obtain ⟨nodes, hl, hm⟩ := (ih c.next).mp hrest
      refine ⟨(p, v) :: nodes, ⟨rfl, c.next, ?_, hl⟩, by rw [List.map_cons, hm]⟩
      rw [hlook, ← hv]
    · rintro ⟨nodes, hl, hm⟩
      cases nodes with
      | nil => exact absurd hm (by simp)
      | cons node nodes =>
        obtain ⟨_, next, hlook, hrest⟩ := hl
        rw [List.map_cons] at hm
        obtain ⟨h1, h2⟩ := List.cons.inj hm
        exact ⟨_, hlook, h1, (ih next).mpr ⟨nodes, hrest, h2⟩⟩

/-- A new node linked behind the last node of a list extends the list by its
line. -/
theorem linked_snoc (h : Heap) (tail : Nat) (t : Verse_t) (v : List Nat)
    (ht : lookup h tail = some t) (done : List (Nat × List Nat)) :
    ∀ head, Linked h head done → (done.map Prod.fst).getLast? = some tail →
      (done.map Prod.fst).Nodup →
      Linked (store (h ++ [some { verse := v, next := 0 }]) tail
          (some { t with next := h.length + 1 }))
        head (done ++ [(h.length + 1, v)]) := by
  induction done with
  | nil => intro head _ hlast _; simp at hlast
  | cons node rest ih =>
    intro head hl hlast hnd
    obtain ⟨hp, nx, hlook, hrest⟩ := hl
    have hb := lookup_bound h head _ hlook
    rw [List.map_cons, List.nodup_cons] at hnd
    cases rest with
    | nil =>
      have htail : tail = head := by
        simp at hlast
        rw [hp, hlast]
      subst htail
      have hnx : nx = 0 := hrest
      rw [hlook] at ht
      have ht2 : t = { verse := node.2, next := nx } := (Option.some.inj ht).symm
      subst ht2
      refine ⟨hp, h.length + 1, ?_, rfl, 0, ?_, rfl⟩
      · rw [lookup_store_same _ _ _ hb.1 (by rw [List.length_append]; omega)]
      · rw [lookup_store_ne _ _ _ _ (by omega), lookup_append_new]
    | cons node2 rest2 =>
      have hlast2 : ((node2 :: rest2).map Prod.fst).getLast? = some tail := by
        rw [List.map_cons, List.map_cons] at hlast
        rw [List.map_cons]
        rw [List.getLast?_cons_cons] at hlast
        exact hlast
      have hne : tail ≠ head := by
        intro e
        apply hnd.1
        rw [← hp, ← e]
        exact List.mem_of_mem_getLast? hlast2
      refine ⟨hp, nx, ?_, ih nx hrest hlast2 hnd.2⟩
      rw [lookup_store_ne _ _ _ _ hne, lookup_append _ _ _ hb.2]
      exact hlook

/-! ## The copy -/

theorem copyListLoop_step (fuel : Nat) (h : Heap) (cur tail nx : Nat) (v : List Nat)
    (t : Verse_t) (hcur : lookup h cur = some { verse := v, next := nx })
    (ht : lookup h tail = some t) (hne : cur ≠ tail) :
    copyListLoop (fuel + 1) h cur tail
      = copyListLoop fuel
          (store (h ++ [some { verse := v.take (MAX_VERSE_LENGTH - 1), next := 0 }]) tail
            (some { t with next := h.length + 1 }))
          nx (h.length + 1) := by
  have hbc := lookup_bound h cur _ hcur
  have hbt := lookup_bound h tail _ ht
  have h1 : lookup (h ++ [some { verse := v.take (MAX_VERSE_LENGTH - 1), next := 0 }]) tail
      = some t := by
    rw [lookup_append _ _ _ hbt.2, ht]
  have h2 : lookup (store (h ++ [some { verse := v.take (MAX_VERSE_LENGTH - 1), next := 0 }])
      tail (some { t with next := h.length + 1 })) tail
      = some { t with next := h.length + 1 } :=
    lookup_store_same _ _ _ hbt.1 (by rw [List.length_append]; omega)
  have h3 : lookup (store (h ++ [some { verse := v.take (MAX_VERSE_LENGTH - 1), next := 0 }])
      tail (some { t with next := h.length + 1 })) cur
      = some { verse := v, next := nx } := by
    rw [lookup_store_ne _ _ _ _ (Ne.symm hne), lookup_append _ _ _ hbc.2, hcur]
  have h0 : cur ≠ 0 := by omega
  simp only [copyListLoop, if_neg h0, hcur, createVerse, h1, h2, h3]

theorem copyListLoop_spec (rest : List (Nat × List Nat)) :
    ∀ (fuel : Nat) (h : Heap) (cur tail head : Nat) (done : List (Nat × List Nat)),
      Linked h cur rest → Linked h head done →
      (done.map Prod.fst).getLast? = some tail → (done.map Prod.fst).Nodup →
      (∀ a, a ∈ rest.map Prod.fst → a ∉ done.map Prod.fst) → rest.length < fuel →
      ∃ h' new, copyListLoop fuel h cur tail = some h' ∧ Linked h' head (done ++ new) ∧
        new.map Prod.snd = rest.map (fun node => node.2.take (MAX_VERSE_LENGTH - 1)) ∧
        (∀ a, a ≤ h.length → a ∉ done.map Prod.fst → lookup h' a = lookup h a) ∧
        ((done ++ new).map Prod.fst).Nodup ∧
        (∀ a, a ∈ new.map Prod.fst → h.length < a) := by
  induction rest with
  | nil =>
    intro fuel h cur tail head done hcur hdone _ hnd _ hfuel
    cases fuel with
    | zero => exact absurd hfuel (Nat.not_lt_zero _)
    | succ fuel =>
      have h0 : cur = 0 := hcur
      refine ⟨h, [], ?_, ?_, rfl, fun _ _ _ => rfl, ?_, ?_⟩
      · simp only [copyListLoop, h0, if_true]
      · rw [List.append_nil]; exact hdone
      · rw [List.append_nil]; exact hnd
      · intro a ha; exact absurd ha (List.not_mem_nil a)
  | cons node rest ih =>
    intro fuel h cur tail head done hcur hdone hlast hnd hdisj hfuel
    cases fuel with
    | zero => exact absurd hfuel (Nat.not_lt_zero _)
    | succ fuel =>
      obtain ⟨hp, nx, hlook, hrest⟩ := hcur
      have htmem : tail ∈ done.map Prod.fst := List.mem_of_mem_getLast? hlast
      obtain ⟨t, ht⟩ := linked_lookup h done head hdone tail htmem
      have hbt := lookup_bound h tail t ht
      have hcmem : cur ∈ (node :: rest).map Prod.fst := by
        rw [hp, List.map_cons]; exact List.mem_cons_self _ _
      have hne : cur ≠ tail := fun e => hdisj cur hcmem (e ▸ htmem)
      have hlive : ∀ a, a ∈ done.map Prod.fst → a ≤ h.length :=
        fun a ha => (linked_live h done head hdone a ha).2
      have hrlive : ∀ a, a ∈ rest.map Prod.fst → a ≤ h.length :=
        fun a ha => (linked_live h rest nx hrest a ha).2
      have hrdisj : ∀ a, a ∈ rest.map Prod.fst → a ∉ done.map Prod.fst := by
        intro a ha
        apply hdisj a
        rw [List.map_cons]
        exact List.mem_cons_of_mem _ ha
      have hfresh : h.length + 1 ∉ done.map Prod.fst := by
        intro hm
        have := hlive _ hm
        omega
      rw [copyListLoop_step fuel h cur tail nx node.2 t hlook ht hne]
      have hagree : ∀ a, a ≤ h.length → a ≠ tail →
          lookup (store (h ++ [some { verse := node.2.take (MAX_VERSE_LENGTH - 1), next := 0 }])
            tail (some { t with next := h.length + 1 })) a = lookup h a := by
        intro a ha hat
        rw [lookup_store_ne _ _ _ _ (Ne.symm hat), lookup_append _ _ _ ha]
      obtain ⟨h', new, e1, e2, e3, e4, e5, e6⟩ := ih fuel
        (store (h ++ [some { verse := node.2.take (MAX_VERSE_LENGTH - 1), next := 0 }])
            tail (some { t with next := h.length + 1 }))
        nx (h.length + 1) head (done ++ [(h.length + 1, node.2.take (MAX_VERSE_LENGTH - 1))])
        (linked_congr h _ rest nx
          (fun a ha => hagree a (hrlive a ha) (fun e => hrdisj a ha (e ▸ htmem))) hrest)
        (linked_snoc h tail t _ ht done head hdone hlast hnd)
        (by rw [List.map_append, List.map_singleton, List.getLast?_concat])
        (by
          rw [List.map_append, List.map_singleton]
          exact List.Nodup.append hnd (List.nodup_singleton _)
            (fun a ha hb => hfresh (by
              have e : a = h.length + 1 := List.mem_singleton.mp hb
              rw [← e]; exact ha)))
        (by
          intro a ha hm
          rw [List.map_append, List.map_singleton] at hm
          rcases List.mem_append.mp hm with hm | hm
          · exact hrdisj a ha hm
          · have := hrlive a ha
            have := List.mem_singleton.mp hm
            omega)
        (by rw [List.length_cons] at hfuel; omega)
      rw [List.append_assoc] at e2 e5
      refine ⟨h', (h.length + 1, node.2.take (MAX_VERSE_LENGTH - 1)) :: new, e1, e2, ?_, ?_, e5, ?_⟩
      · rw [List.map_cons, List.map_cons, e3]
      · intro a ha hnot
        rw [e4 a (by rw [length_store, List.length_append]; exact Nat.le_succ_of_le ha) ?_]
        · exact hagree a ha (fun e => hnot (e ▸ htmem))
        · intro hm
          rw [List.map_append, List.map_singleton] at hm
          rcases List.mem_append.mp hm with hm | hm
          · exact hnot hm
          · have := List.mem_singleton.mp hm
            omega
      · intro a ha
        rw [List.map_cons] at ha
        rcases List.mem_cons.mp ha with e | hm
        · rw [e]; exact Nat.lt_succ_self _
        · have := e6 a hm
          rw [length_store, List.length_append] at this
          omega

/-- The function `copyList` returns, and leaves a list of new nodes that holds
the lines of the list it was given, cut to the size of the buffer; no block
that existed before the call is written. -/
theorem copyList_spec (h : Heap) (list : Nat) (nodes : List (Nat × List Nat)) (fuel : Nat)
    (hl : Linked h list nodes) (hfuel : nodes.length ≤ fuel) :
    ∃ copy h1 new, copyList fuel h list = some (copy, h1) ∧ Linked h1 copy new ∧
      new.map Prod.snd = nodes.map (fun node => node.2.take (MAX_VERSE_LENGTH - 1)) ∧
      (∀ a, a ≤ h.length → lookup h1 a = lookup h a) ∧
      (new.map Prod.fst).Nodup ∧ (∀ a, a ∈ new.map Prod.fst → h.length < a) := by
  cases nodes with
  | nil =>
    have h0 : list = 0 := hl
    refine ⟨0, h, [], ?_, rfl, rfl, fun _ _ => rfl, List.nodup_nil,
      fun a ha => absurd ha (List.not_mem_nil a)⟩
    simp only [copyList, h0, if_true]
  | cons node rest =>
    obtain ⟨hp, nx, hlook, hrest⟩ := hl
    have hb := lookup_bound h list _ hlook
    have h0 : list ≠ 0 := by omega
    have hrlive : ∀ a, a ∈ rest.map Prod.fst → a ≤ h.length :=
      fun a ha => (linked_live h rest nx hrest a ha).2
    have h1 : lookup (h ++ [some { verse := node.2.take (MAX_VERSE_LENGTH - 1), next := 0 }])
        list = some { verse := node.2, next := nx } := by
      rw [lookup_append _ _ _ hb.2, hlook]
    obtain ⟨h', new, e1, e2, e3, e4, e5, e6⟩ := copyListLoop_spec rest fuel
      (h ++ [some { verse := node.2.take (MAX_VERSE_LENGTH - 1), next := 0 }])
      nx (h.length + 1) (h.length + 1) [(h.length + 1, node.2.take (MAX_VERSE_LENGTH - 1))]
      (linked_congr h _ rest nx (fun a ha => lookup_append _ _ _ (hrlive a ha)) hrest)
      ⟨rfl, 0, lookup_append_new _ _, rfl⟩ rfl (List.nodup_singleton _)
      (by
        intro a ha hm
        have e : a = h.length + 1 := List.mem_singleton.mp hm
        have := hrlive a ha
        omega)
      (by rw [List.length_cons] at hfuel; omega)
    refine ⟨h.length + 1, h', (h.length + 1, node.2.take (MAX_VERSE_LENGTH - 1)) :: new,
      ?_, e2, ?_, ?_, e5, ?_⟩
    · simp only [copyList, if_neg h0, hlook, createVerse, h1, e1]
    · rw [List.map_cons, List.map_cons, e3]
    · intro a ha
      rw [e4 a (by rw [List.length_append]; exact Nat.le_succ_of_le ha) ?_]
      · exact lookup_append _ _ _ ha
      · intro hm
        have e : a = h.length + 1 := List.mem_singleton.mp hm
        omega
    · intro a ha
      rw [List.map_cons] at ha
      rcases List.mem_cons.mp ha with e | hm
      · rw [e]; exact Nat.lt_succ_self _
      · have := e6 a hm
        rw [List.length_append] at this
        omega

/-! ## The filter -/

theorem removeCopiesScan_spec (key : List Nat) (rest : List (Nat × List Nat)) :
    ∀ (fuel : Nat) (h : Heap) (cur prev : Nat) (pv : List Nat),
      lookup h prev = some { verse := pv, next := cur } → Linked h cur rest →
      (rest.map Prod.fst).Nodup → prev ∉ rest.map Prod.fst → rest.length < fuel →
      ∃ h' next, removeCopiesScan fuel h key cur prev = some h' ∧
        lookup h' prev = some { verse := pv, next := next } ∧
        Linked h' next (rest.filter (fun node => !decide (lexSort node.2 = key))) ∧
        (∀ a, a ≠ prev → a ∉ rest.map Prod.fst → lookup h' a = lookup h a) := by
  induction rest with
  | nil =>
    intro fuel h cur prev pv hprev hcur _ _ hfuel
    cases fuel with
    | zero => exact absurd hfuel (Nat.not_lt_zero _)
    | succ fuel =>
      have h0 : cur = 0 := hcur
      refine ⟨h, cur, ?_, hprev, hcur, fun _ _ _ => rfl⟩
      simp only [removeCopiesScan, h0, if_true]
  | cons node rest ih =>
    intro fuel h cur prev pv hprev hcur hnd hnot hfuel
    cases fuel with
    | zero => exact absurd hfuel (Nat.not_lt_zero _)
    | succ fuel =>
      obtain ⟨hp, nx, hlook, hrest⟩ := hcur
      have hbc := lookup_bound h cur _ hlook
      have hbp := lookup_bound h prev _ hprev
      have h0 : cur ≠ 0 := by omega
      rw [List.map_cons, List.nodup_cons] at hnd
      rw [List.map_cons, List.mem_cons, not_or] at hnot
      have hne : cur ≠ prev := fun e => hnot.1 (by rw [← hp, e])
      have hfuel2 : rest.length < fuel := by rw [List.length_cons] at hfuel; omega
      by_cases hkey : lexSort node.2 = key
      · have hd : deleteNode h cur prev
            = some (nx, store (store h cur none) prev (some { verse := pv, next := nx })) := by
          have hl1 : lookup (store h cur none) prev = some { verse := pv, next := cur } := by
            rw [lookup_store_ne _ _ _ _ hne, hprev]
          simp only [deleteNode, hlook, hl1]
        have hagree : ∀ a, a ≠ prev → a ≠ cur →
            lookup (store (store h cur none) prev (some { verse := pv, next := nx })) a
              = lookup h a := by
          intro a h1 h2
          rw [lookup_store_ne _ _ _ _ (Ne.symm h1), lookup_store_ne _ _ _ _ (Ne.symm h2)]
        obtain ⟨h', next, e1, e2, e3, e4⟩ := ih fuel
          (store (store h cur none) prev (some { verse := pv, next := nx })) nx prev pv
          (lookup_store_same _ _ _ hbp.1 (by rw [length_store]; exact hbp.2))
          (linked_congr h _ rest nx
            (fun a ha => hagree a (fun e => hnot.2 (e ▸ ha)) (fun e => hnd.1 (hp ▸ e ▸ ha)))
            hrest)
          hnd.2 hnot.2 hfuel2
        refine ⟨h', next, ?_, e2, ?_, ?_⟩
        · simp only [removeCopiesScan, if_neg h0, hlook, hkey, if_true, hd, e1]
        · rw [List.filter_cons_of_neg (by simp [hkey])]
          exact e3
        · intro a h1 h2
          rw [List.map_cons, List.mem_cons, not_or] at h2
          rw [e4 a h1 h2.2]
          exact hagree a h1 (fun e => h2.1 (by rw [e, hp]))
      · obtain ⟨h', next, e1, e2, e3, e4⟩ := ih fuel h nx cur node.2 hlook hrest hnd.2
          (fun hm => hnd.1 (hp ▸ hm)) hfuel2
        refine ⟨h', cur, ?_, ?_, ?_, ?_⟩
        · simp only [removeCopiesScan, if_neg h0, hlook, hkey, if_false, e1]
        · rw [e4 prev (Ne.symm hne) hnot.2]
          exact hprev
        · rw [List.filter_cons_of_pos (by simp [hkey])]
          exact ⟨hp, next, e2, e3⟩
        · intro a h1 h2
          rw [List.map_cons, List.mem_cons, not_or] at h2
          exact e4 a (fun e => h2.1 (by rw [e, hp])) h2.2

theorem dedupeSinglePass_cons (v : List Nat) (rest : List (List Nat)) :
    dedupeSinglePass (v :: rest)
      = v :: dedupeSinglePass (rest.filter (fun w => !decide (lexSort w = lexSort v))) := by
  rw [← removeCopiesLoop_eq (v :: rest) (rest.length + 1) (le_refl _)]
  rw [← removeCopiesLoop_eq (rest.filter (fun w => !decide (lexSort w = lexSort v)))
    rest.length (List.length_filter_le _ _)]
  simp only [VerseFilter.removeCopiesLoop, removeCopiesScan_eq_filter]

theorem removeCopiesLoop_spec :
    ∀ (fuel : Nat) (nodes : List (Nat × List Nat)) (h : Heap) (base : Nat),
      Linked h base nodes → (nodes.map Prod.fst).Nodup → nodes.length < fuel →
      ∃ h' left, removeCopiesLoop fuel h base = some h' ∧ Linked h' base left ∧
        left.map Prod.snd = dedupeSinglePass (nodes.map Prod.snd) ∧
        (∀ a, a ∉ nodes.map Prod.fst → lookup h' a = lookup h a) := by
  intro fuel
  induction fuel with
  | zero => intro nodes h base _ _ hfuel; exact absurd hfuel (Nat.not_lt_zero _)
  | succ fuel ih =>
    intro nodes h base hl hnd hfuel
    cases nodes with
    | nil =>
      have h0 : base = 0 := hl
      refine ⟨h, [], ?_, hl, rfl, fun _ _ => rfl⟩
      simp only [removeCopiesLoop, h0, if_true]
    | cons node rest =>
      obtain ⟨hp, nx, hlook, hrest⟩ := hl
      have hb := lookup_bound h base _ hlook
      have h0 : base ≠ 0 := by omega
      rw [List.map_cons, List.nodup_cons] at hnd
      have hfuel2 : rest.length < fuel := by rw [List.length_cons] at hfuel; omega
      obtain ⟨h1, next, e1, e2, e3, e4⟩ := removeCopiesScan_spec (lexSort node.2) rest fuel h
        nx base node.2 hlook hrest hnd.2 (fun hm => hnd.1 (hp ▸ hm)) hfuel2
      have hsub : ∀ a, a ∈ (rest.filter (fun n => !decide (lexSort n.2 = lexSort node.2))).map
          Prod.fst → a ∈ rest.map Prod.fst := by
        intro a ha
        obtain ⟨n, hn, rfl⟩ := List.mem_map.mp ha
        exact List.mem_map.mpr ⟨n, (List.mem_filter.mp hn).1, rfl⟩
      obtain ⟨h2, left, f1, f2, f3, f4⟩ := ih
        (rest.filter (fun n => !decide (lexSort n.2 = lexSort node.2))) h1 next e3
        ((hnd.2.sublist ((List.filter_sublist _).map Prod.fst)))
        (lt_of_le_of_lt (List.length_filter_le _ _) hfuel2)
      refine ⟨h2, node :: left, ?_, ⟨hp, next, ?_, f2⟩, ?_, ?_⟩
      · simp only [removeCopiesLoop, if_neg h0, hlook, e1, e2, f1]
      · rw [f4 base (fun hm => hnd.1 (hp ▸ hsub base hm))]
        exact e2
      · rw [List.map_cons, List.map_cons, dedupeSinglePass_cons, f3]
        congr 2
        rw [List.filter_map]
        rfl
      · intro a ha
        rw [List.map_cons, List.mem_cons, not_or] at ha
        rw [f4 a (fun hm => ha.2 (hsub a hm))]
        exact e4 a (fun e => ha.1 (by rw [e, hp])) ha.2

/-! ## What a call leaves of its input -/

theorem map_take_wellFormed (l : List (List Nat)) (hwf : WellFormed l) :
    l.map (fun v => v.take (MAX_VERSE_LENGTH - 1)) = l := by
  rw [← copyList_map, copyList_eq l hwf]

/-- C15. Let `list` be the head of a list in memory that holds the lines `l`,
each within its buffer. Then, given more iterations than the list has lines,
`copyList` returns the head of a list that holds the same lines in the same
order, and `removeCopies` returns the head of a list that holds the lines kept
by the filter; after either call every node that existed before the call is as
it was, and `list` is still the head of a list that holds exactly the lines
`l`. -/
theorem removeCopies_leaves_input (h : Heap) (list : Nat) (l : List (List Nat)) (fuel : Nat)
    (hrep : ListRep h list l) (hwf : WellFormed l) (hfuel : l.length < fuel) :
    (∃ copy h1, copyList fuel h list = some (copy, h1) ∧
      ListRep h1 copy l ∧ ListRep h1 list l ∧
      ∀ a c, lookup h a = some c → lookup h1 a = some c) ∧
    (∃ result h2, removeCopies fuel h list = some (result, h2) ∧
      ListRep h2 result (VerseFilter.removeCopies l) ∧ ListRep h2 list l ∧
      ∀ a c, lookup h a = some c → lookup h2 a = some c) := by
  obtain ⟨nodes, hl, hm⟩ := (listRep_iff h l list).mp hrep
  have hlen : nodes.length = l.length := by rw [← hm, List.length_map]
  obtain ⟨copy, h1, new, e1, e2, e3, e4, e5, e6⟩ :=
    copyList_spec h list nodes fuel hl (by omega)
  have hnew : new.map Prod.snd = l := by
    rw [e3, ← map_take_wellFormed l hwf, ← hm, List.map_map]
    rfl
  have hin1 : Linked h1 list nodes :=
    linked_congr h h1 nodes list (fun a ha => e4 a (linked_live h nodes list hl a ha).2) hl
  obtain ⟨h2, left, f1, f2, f3, f4⟩ :=
    removeCopiesLoop_spec fuel new h1 copy e2 e5
      (by rw [← List.length_map new Prod.snd, hnew]; exact hfuel)
  have hold : ∀ a, a ≤ h.length → lookup h2 a = lookup h a := by
    intro a ha
    rw [f4 a (fun hmem => by have := e6 a hmem; omega)]
    exact e4 a ha
  have hin2 : Linked h2 list nodes :=
    linked_congr h h2 nodes list (fun a ha => hold a (linked_live h nodes list hl a ha).2) hl
  refine ⟨⟨copy, h1, e1, (listRep_iff h1 l copy).mpr ⟨new, e2, hnew⟩,
    (listRep_iff h1 l list).mpr ⟨nodes, hin1, hm⟩, ?_⟩,
    ⟨copy, h2, ?_, (listRep_iff h2 _ copy).mpr ⟨left, f2, ?_⟩,
      (listRep_iff h2 l list).mpr ⟨nodes, hin2, hm⟩, ?_⟩⟩
  · intro a c hc
    rw [e4 a (lookup_bound h a c hc).2]
    exact hc
  · simp only [removeCopies, e1, f1]
  · rw [f3, hnew, removeCopies_eq, copyList_eq l hwf]
  · intro a c hc
    rw [hold a (lookup_bound h a c hc).2]
    exact hc

theorem removeCopies_leaves_input_witness :
    ListRep lvl3Raw.2 lvl3Raw.1 [str "abcabc", str "bbb", str "cbacba"] ∧
    WellFormed [str "abcabc", str "bbb", str "cbacba"] ∧
    [str "abcabc", str "bbb", str "cbacba"].length < 4 ∧
    ((∃ copy h1, copyList 4 lvl3Raw.2 lvl3Raw.1 = some (copy, h1) ∧
      ListRep h1 copy [str "abcabc", str "bbb", str "cbacba"] ∧
      ListRep h1 lvl3Raw.1 [str "abcabc", str "bbb", str "cbacba"] ∧
      ∀ a c, lookup lvl3Raw.2 a = some c → lookup h1 a = some c) ∧
    (∃ result h2, removeCopies 4 lvl3Raw.2 lvl3Raw.1 = some (result, h2) ∧
      ListRep h2 result (VerseFilter.removeCopies [str "abcabc", str "bbb", str "cbacba"]) ∧
      ListRep h2 lvl3Raw.1 [str "abcabc", str "bbb", str "cbacba"] ∧
      ∀ a c, lookup lvl3Raw.2 a = some c → lookup h2 a = some c)) :=
  ⟨by decide, by decide, by decide,
    removeCopies_leaves_input lvl3Raw.2 lvl3Raw.1 [str "abcabc", str "bbb", str "cbacba"] 4
      (by decide) (by decide) (by decide)⟩

/-- The run of `removeCopies` on the list `lvl3_raw` of `main`: the result
holds two lines in three new blocks, one of them freed, and the three nodes of
the input are as they were. -/
theorem lvl3Raw_removeCopies :
    removeCopies 4 lvl3Raw.2 lvl3Raw.1 =
      some (4, lvl3Raw.2 ++
        [some { verse := str "abcabc", next := 5 }, some { verse := str "bbb", next := 0 },
          none]) := by
  decide

end VerseFilter.Memory

/-! # Further theorems about the verse filter -/

namespace VerseFilter

/-- C16. Trivial inputs: on a list of at most one line (that fits its buffer)
`removeCopies` returns its input: the empty list for the empty list and the
same single line for a single line. -/
theorem removeCopies_trivial (list : List (List Nat)) (hwf : WellFormed list)
    (hlen : list.length ≤ 1) : removeCopies list = list := by
  rw [removeCopies_eq, copyList_eq list hwf]
  match list, hlen with
  | [], _ => rfl
  | [v], _ => simp [dedupeSinglePass, dedupeSeen]
  | _ :: _ :: _, h => simp at h

theorem removeCopies_trivial_witness :
    WellFormed [str "Oh freddled gruntbuggly"] ∧ [str "Oh freddled gruntbuggly"].length ≤ 1 ∧
    removeCopies [str "Oh freddled gruntbuggly"] = [str "Oh freddled gruntbuggly"] :=
  ⟨by decide, by decide, removeCopies_trivial [str "Oh freddled gruntbuggly"] (by decide)
    (by decide)⟩

theorem removeCopies_nil : removeCopies [] = [] := by decide

end VerseFilter

/-! # Further theorems about the working-day counter -/

namespace WorkingDays

/-! ## `IsWorkDay` on all inputs -/

theorem main_IsWorkDay :
    IsWorkDay 2023 10 10 = true ∧ IsWorkDay 2023 11 11 = false ∧ IsWorkDay 2023 11 17 = false ∧
    IsWorkDay 2023 11 31 = false ∧ IsWorkDay 2023 2 29 = false ∧ IsWorkDay 2004 2 29 = false ∧
    IsWorkDay 2008 2 29 = true ∧ IsWorkDay 2001 2 29 = false ∧ IsWorkDay 1996 1 2 = false := by
  decide

theorem IsWorkDay_early (y m d : Int) (hy : y < 2000) : IsWorkDay y m d = false := by
  unfold IsWorkDay
  simp only
  rw [if_pos (Or.inl hy)]

theorem IsWorkDay_invalid (y m d : Int) (hy : 2000 ≤ y) (hv : ¬ ValidDate y m d) :
    IsWorkDay y m d = false := by
  unfold IsWorkDay
  simp only
  by_cases hm : 1 ≤ m ∧ m ≤ 12
  · rw [arrayGet_daysInMonth y m (by omega) hm.1 hm.2]
    rw [if_pos]
    unfold ValidDate at hv
    omega
  · rw [if_pos]
    omega

/-- C11, amended. For all integers `y`, `m`, `d` with `y` at most 1717986918,
`IsWorkDay` returns true exactly when `(y, m, d)` is a valid date of the
Gregorian calendar with `y` at least 2000, is not one of the eleven fixed
holidays, and falls on Monday to Friday, 1 January 2000 being a Saturday. -/
theorem IsWorkDay_correct (y m d : Int) (hy : y ≤ LAST_YEAR) :
    IsWorkDay y m d = true ↔
      (2000 ≤ y ∧ ValidDate y m d ∧ ¬ Holiday m d ∧
        1 ≤ dayOfWeek y m d ∧ dayOfWeek y m d ≤ 5) := by
  by_cases h2000 : 2000 ≤ y
  · by_cases hv : ValidDate y m d
    · rw [IsWorkDay_eq y m d h2000 hy hv, decide_eq_true_eq]
      unfold WorkingDate
      constructor
      · rintro ⟨a, b, c⟩
        exact ⟨h2000, hv, c, a, b⟩
      · rintro ⟨_, _, c, a, b⟩
        exact ⟨a, b, c⟩
    · rw [IsWorkDay_invalid y m d h2000 hv]
      constructor
      · intro h; cases h
      · rintro ⟨_, h, _⟩
        exact absurd h hv
  · rw [IsWorkDay_early y m d (by omega)]
    constructor
    · intro h; cases h
    · rintro ⟨h, _⟩
      exact absurd h h2000

theorem IsWorkDay_correct_witness :
    (2023 : Int) ≤ LAST_YEAR ∧
    (IsWorkDay 2023 10 10 = true ↔
      ((2000 : Int) ≤ 2023 ∧ ValidDate 2023 10 10 ∧ ¬ Holiday 10 10 ∧
        1 ≤ dayOfWeek 2023 10 10 ∧ dayOfWeek 2023 10 10 ≤ 5)) :=
  ⟨by decide, IsWorkDay_correct 2023 10 10 (by decide)⟩

/-- C11 as stated fails on late years: 10 March of the year 2000000000 is a
valid date after 2000, no holiday, and falls on Monday to Friday, but the sum
`y + y / 4` leaves the range of `int` and `IsWorkDay` returns false. -/
theorem IsWorkDay_late_year :
    IsWorkDay 2000000000 3 10 = false ∧
    ((2000 : Int) ≤ 2000000000 ∧ ValidDate 2000000000 3 10 ∧ ¬ Holiday 3 10 ∧
      1 ≤ dayOfWeek 2000000000 3 10 ∧ dayOfWeek 2000000000 3 10 ≤ 5) := by
  decide

/-! ## Termination of the loop of `CountDays` -/

/-- What the range check of `CountDays` guarantees about an input it lets
through. -/
theorem invalidRange_false (y1 m1 d1 y2 m2 d2 : Int)
    (h : invalidRange y1 m1 d1 y2 m2 d2 = false) :
    DateLe y1 m1 d1 y2 m2 d2 ∧ 2000 ≤ y1 ∧ 2000 ≤ y2 ∧ 1 ≤ m1 ∧ m1 ≤ 12 ∧ 1 ≤ m2 ∧ m2 ≤ 12 ∧
      1 ≤ d1 ∧ d1 ≤ 31 ∧ 1 ≤ d2 ∧ d2 ≤ 31 := by
  unfold invalidRange at h
  simp only at h
  rw [decide_eq_false_iff_not] at h
  have hm1 : 1 ≤ m1 ∧ m1 ≤ 12 := by omega
  have hm2 : 1 ≤ m2 ∧ m2 ≤ 12 := by omega
  rw [arrayGet_daysInMonth_feb _ m1 hm1.1 hm1.2, arrayGet_daysInMonth_feb _ m2 hm2.1 hm2.2] at h
  unfold DateLe
  split_ifs at h <;> omega

theorem loopBody_totalDays (s : LoopState) :
    (loopBody s).result.totalDays = addInt s.result.totalDays 1 := rfl

theorem loopBody_workDays (s : LoopState) :
    (loopBody s).result.workDays =
      if IsWorkDay s.y1 s.m1 s.d1 then addInt s.result.workDays 1 else s.result.workDays := rfl

/-- One iteration of the loop moves the date `(y1, m1, d1)` strictly forward,
whether or not it is a calendar date, as long as the year is not incremented
beyond `INT_MAX`. -/
theorem loopBody_advances (s : LoopState) (hm1 : 1 ≤ s.m1) (hm2 : s.m1 ≤ 12)
    (hd1 : 1 ≤ s.d1) (hd2 : s.d1 ≤ 31) (hy : INT_MIN ≤ s.y1)
    (hlast : s.y1 < INT_MAX ∨ ¬ (s.m1 = 12 ∧ s.d1 = 31)) :
    DateLt s.y1 s.m1 s.d1 (loopBody s).y1 (loopBody s).m1 (loopBody s).d1 ∧
      1 ≤ (loopBody s).m1 ∧ (loopBody s).m1 ≤ 12 ∧ 1 ≤ (loopBody s).d1 ∧
      (loopBody s).d1 ≤ 31 ∧ s.y1 ≤ (loopBody s).y1 := by
  have hd : addInt s.d1 1 = s.d1 + 1 :=
    addInt_of_range s.d1 1 (by unfold INT_MIN; omega) (by unfold INT_MAX; omega)
  have hm : addInt s.m1 1 = s.m1 + 1 :=
    addInt_of_range s.m1 1 (by unfold INT_MIN; omega) (by unfold INT_MAX; omega)
  have hL : arrayGet (daysInMonth (if IsLeapYear s.y1 then 29 else 28)) (subInt s.m1 1) ≤ 31 ∧
      (s.m1 = 12 →
        arrayGet (daysInMonth (if IsLeapYear s.y1 then 29 else 28)) (subInt s.m1 1) = 31) := by
    rw [arrayGet_daysInMonth_feb _ s.m1 hm1 hm2]
    split_ifs <;> omega
  unfold loopBody DateLt
  simp only
  rw [hd, hm]
  generalize arrayGet (daysInMonth (if IsLeapYear s.y1 then 29 else 28)) (subInt s.m1 1) = L
    at hL ⊢
  by_cases h1 : s.d1 + 1 > L
  · by_cases h2 : s.m1 + 1 > 12
    · have hy2 : s.y1 < INT_MAX := by
        rcases hlast with h | h
        · exact h
        · exfalso
          apply h
          have := hL.2 (by omega)
          omega
      have hyy : addInt s.y1 1 = s.y1 + 1 :=
        addInt_of_range s.y1 1 (by omega) (by omega)
      simp only [h1, h2, decide_True, if_true, hyy, true_and]
      omega
    · simp only [h1, h2, decide_True, decide_False, if_true, Bool.false_eq_true, if_false,
        true_and]
      omega
  · have h2 : ¬ s.m1 > 12 := by omega
    simp only [h1, h2, decide_False, Bool.false_eq_true, if_false, true_and]
    omega

/-- The loop of `CountDays` ends: the date moves strictly forward and passes
the end date after finitely many iterations, unless the end date is
31 December of the year `INT_MAX`. -/
theorem CountDaysLoop_returns (y2 m2 d2 : Int) (hy2 : y2 ≤ INT_MAX) (hm1 : 1 ≤ m2)
    (hm2 : m2 ≤ 12) (hd1 : 1 ≤ d2) (hd2 : d2 ≤ 31) (hlast : ¬ (y2 = INT_MAX ∧ m2 = 12 ∧ d2 = 31)) (n : Nat) :
    ∀ s : LoopState, 1 ≤ s.m1 → s.m1 ≤ 12 → 1 ≤ s.d1 → s.d1 ≤ 31 → INT_MIN ≤ s.y1 →
      (384 * y2 + 32 * m2 + d2) + 1 - (384 * s.y1 + 32 * s.m1 + s.d1) ≤ n →
      ∃ r, CountDaysLoop y2 m2 d2 (n + 1) s = some r := by
  induction n with
  | zero =>
    intro s a1 a2 a3 a4 a5 hk
    have hc : ¬ loopCond y2 m2 d2 s = true := by
      rw [loopCond_iff]
      unfold DateLe
      push_cast at hk
      omega
    exact ⟨s.result, by rw [CountDaysLoop, if_neg hc]⟩
  | succ k ih =>
    intro s a1 a2 a3 a4 a5 hk
    by_cases hc : loopCond y2 m2 d2 s = true
    · have hle := (loopCond_iff _ _ _ _).mp hc
      unfold DateLe at hle
      obtain ⟨b0, b1, b2, b3, b4, b5⟩ := loopBody_advances s a1 a2 a3 a4 a5 (by omega)
      unfold DateLt at b0
      rw [CountDaysLoop, if_pos hc]
      apply ih _ b1 b2 b3 b4 (le_trans a5 b5)
      push_cast at hk ⊢
      omega
    · exact ⟨s.result, by rw [CountDaysLoop, if_neg hc]⟩

theorem CountDays_returns (y1 m1 d1 y2 m2 d2 : Int) (hy2 : y2 ≤ INT_MAX)
    (hcheck : invalidRange y1 m1 d1 y2 m2 d2 = false)
    (hlast : ¬ (y2 = INT_MAX ∧ m2 = 12 ∧ d2 = 31)) :
    ∃ fuel r, CountDays fuel y1 m1 d1 y2 m2 d2 = some r := by
  obtain ⟨_, c1, _, c3, c4, c5, c6, c7, c8, c9, c10⟩ := invalidRange_false _ _ _ _ _ _ hcheck
  obtain ⟨r, hr⟩ := CountDaysLoop_returns y2 m2 d2 hy2 c5 c6 c9 c10 hlast
    ((384 * y2 + 32 * m2 + d2) + 1 - (384 * y1 + 32 * m1 + d1)).toNat
    { y1 := y1, m1 := m1, d1 := d1, result := { totalDays := 0, workDays := 0 } }
    c3 c4 c7 c8 (by unfold INT_MIN; show _ ≤ y1; omega) (by
      show _ ≤ _
      simp only
      omega)
  refine ⟨((384 * y2 + 32 * m2 + d2) + 1 - (384 * y1 + 32 * m1 + d1)).toNat + 1, r, ?_⟩
  unfold CountDays
  rw [hcheck]
  exact hr

/-- C17, amended. For every input that passes the range check of `CountDays`
(also one with a 29 February that the check lets through), except when the end
date is 31 December of the year 2147483647, the loop of `CountDays` ends and
`CountDays` returns a result; every iteration moves `(y1, m1, d1)` strictly
forward in lexicographic order. -/
theorem CountDays_terminates (y1 m1 d1 y2 m2 d2 : Int) (hy2 : y2 ≤ INT_MAX)
    (hcheck : invalidRange y1 m1 d1 y2 m2 d2 = false)
    (hlast : ¬ (y2 = INT_MAX ∧ m2 = 12 ∧ d2 = 31)) :
    (∃ fuel r, CountDays fuel y1 m1 d1 y2 m2 d2 = some r) ∧
    ∀ s : LoopState, 1 ≤ s.m1 → s.m1 ≤ 12 → 1 ≤ s.d1 → s.d1 ≤ 31 → 2000 ≤ s.y1 →
      loopCond y2 m2 d2 s = true →
      DateLt s.y1 s.m1 s.d1 (loopBody s).y1 (loopBody s).m1 (loopBody s).d1 := by
  refine ⟨CountDays_returns y1 m1 d1 y2 m2 d2 hy2 hcheck hlast, ?_⟩
  intro s a1 a2 a3 a4 a5 hc
  obtain ⟨_, _, _, _, _, _, c6, _, _, _, c10⟩ := invalidRange_false _ _ _ _ _ _ hcheck
  have hle := (loopCond_iff _ _ _ _).mp hc
  unfold DateLe at hle
  exact (loopBody_advances s a1 a2 a3 a4 (by unfold INT_MIN; omega) (by omega)).1

theorem CountDays_terminates_witness :
    (2024 : Int) ≤ INT_MAX ∧ invalidRange 2023 2 29 2024 1 1 = false ∧
    ¬ ((2024 : Int) = INT_MAX ∧ (1 : Int) = 12 ∧ (1 : Int) = 31) ∧
    ((∃ fuel r, CountDays fuel 2023 2 29 2024 1 1 = some r) ∧
    ∀ s : LoopState, 1 ≤ s.m1 → s.m1 ≤ 12 → 1 ≤ s.d1 → s.d1 ≤ 31 → 2000 ≤ s.y1 →
      loopCond 2024 1 1 s = true →
      DateLt s.y1 s.m1 s.d1 (loopBody s).y1 (loopBody s).m1 (loopBody s).d1) :=
  ⟨by decide, by decide, by decide,
    CountDays_terminates 2023 2 29 2024 1 1 (by decide) (by decide) (by decide)⟩

/-- C17 as stated fails where the years end: the input from 1 January to
31 December of the year 2147483647 passes the range check, and the loop of
`CountDays` does not end, however many times its condition is tested: after
31 December the year wraps around and the date is before the end date again. -/
theorem CountDays_loops_forever :
    invalidRange 2147483647 1 1 2147483647 12 31 = false ∧
    ∀ fuel, CountDays fuel 2147483647 1 1 2147483647 12 31 = none := by
  have hc : invalidRange 2147483647 1 1 2147483647 12 31 = false := by decide
  refine ⟨hc, ?_⟩
  intro fuel
  unfold CountDays
  rw [hc]
  exact CountDaysLoop_never_ends fuel _ (by decide) (by decide) (by decide) (by decide)
    (by decide)

/-! ## The range of a result -/

/-- While the counters stay within `int`, the loop keeps
`0 ≤ workDays ≤ totalDays` and adds one to `totalDays` per iteration. -/
theorem CountDaysLoop_range (y2 m2 d2 : Int) (fuel : Nat) :
    ∀ (s : LoopState) (r : Result), 0 ≤ s.result.workDays →
      s.result.workDays ≤ s.result.totalDays → s.result.totalDays + fuel ≤ 2147483648 →
      CountDaysLoop y2 m2 d2 fuel s = some r →
      s.result.totalDays ≤ r.totalDays ∧ 0 ≤ r.workDays ∧ r.workDays ≤ r.totalDays ∧
        (loopCond y2 m2 d2 s = true → s.result.totalDays + 1 ≤ r.totalDays) := by
  induction fuel with
  | zero => intro s r _ _ _ h; simp [CountDaysLoop] at h
  | succ n ih =>
    intro s r hw0 hwt hfit h
    rw [CountDaysLoop] at h
    by_cases hc : loopCond y2 m2 d2 s = true
    · rw [if_pos hc] at h
      have hn : 1 ≤ n := by
        cases n with
        | zero => simp [CountDaysLoop] at h
        | succ k => omega
      have ht : (loopBody s).result.totalDays = s.result.totalDays + 1 := by
        rw [loopBody_totalDays]
        exact addInt_of_range _ _ (by unfold INT_MIN; omega)
          (by unfold INT_MAX; push_cast at hfit; omega)
      have hw : (loopBody s).result.workDays = s.result.workDays ∨
          (loopBody s).result.workDays = s.result.workDays + 1 := by
        rw [loopBody_workDays]
        split_ifs
        · right
          exact addInt_of_range _ _ (by unfold INT_MIN; omega)
            (by unfold INT_MAX; push_cast at hfit; omega)
        · left; rfl
      obtain ⟨e1, e2, e3, _⟩ := ih (loopBody s) r (by omega) (by omega)
        (by rw [ht]; push_cast at hfit ⊢; omega) h
      exact ⟨by omega, e2, e3, fun _ => by omega⟩
    · rw [if_neg hc] at h
      have e : r = s.result := (Option.some_inj.mp h).symm
      subst e
      exact ⟨le_rfl, hw0, hwt, fun h2 => absurd h2 hc⟩

/-- C18, amended. For every input that passes the range check of `CountDays`
and whose end date is not 31 December of the year 2147483647, `CountDays`
returns; and whenever its loop ends within 2147483648 tests of the condition
(at most 2147483647 days are stepped through) the result has
`totalDays ≥ 1` and `0 ≤ workDays ≤ totalDays`, so it differs from the
result (-1, -1) of a rejected input. -/
theorem CountDays_result_range (y1 m1 d1 y2 m2 d2 : Int) (hy2 : y2 ≤ INT_MAX)
    (hcheck : invalidRange y1 m1 d1 y2 m2 d2 = false)
    (hlast : ¬ (y2 = INT_MAX ∧ m2 = 12 ∧ d2 = 31)) :
    (∃ fuel r, CountDays fuel y1 m1 d1 y2 m2 d2 = some r) ∧
    ∀ fuel r, fuel ≤ 2147483648 → CountDays fuel y1 m1 d1 y2 m2 d2 = some r →
      1 ≤ r.totalDays ∧ 0 ≤ r.workDays ∧ r.workDays ≤ r.totalDays ∧
        r ≠ { totalDays := -1, workDays := -1 } := by
  refine ⟨CountDays_returns y1 m1 d1 y2 m2 d2 hy2 hcheck hlast, ?_⟩
  intro fuel r hfuel h
  obtain ⟨c0, _⟩ := invalidRange_false _ _ _ _ _ _ hcheck
  unfold CountDays at h
  rw [hcheck] at h
  obtain ⟨_, e2, e3, e4⟩ := CountDaysLoop_range y2 m2 d2 fuel _ r (le_refl (0 : Int))
    (le_refl (0 : Int)) (by show (0 : Int) + _ ≤ _; omega) h
  have e5 := e4 ((loopCond_iff _ _ _ _).mpr c0)
  have e6 : 1 ≤ r.totalDays := by
    have : (0 : Int) + 1 ≤ r.totalDays := e5
    omega
  refine ⟨e6, e2, e3, ?_⟩
  intro hr
  rw [hr] at e6
  exact absurd e6 (by decide)

theorem CountDays_result_range_witness :
    (2025 : Int) ≤ INT_MAX ∧ invalidRange 2024 12 31 2025 2 29 = false ∧
    ¬ ((2025 : Int) = INT_MAX ∧ (2 : Int) = 12 ∧ (29 : Int) = 31) ∧
    ((∃ fuel r, CountDays fuel 2024 12 31 2025 2 29 = some r) ∧
    ∀ fuel r, fuel ≤ 2147483648 → CountDays fuel 2024 12 31 2025 2 29 = some r →
      1 ≤ r.totalDays ∧ 0 ≤ r.workDays ∧ r.workDays ≤ r.totalDays ∧
        r ≠ { totalDays := -1, workDays := -1 }) :=
  ⟨by decide, by decide, by decide,
    CountDays_result_range 2024 12 31 2025 2 29 (by decide) (by decide) (by decide)⟩

/-- C18 as stated fails on long ranges: the input from 1 January 2001 to
1 January 5881612 passes the range check, and `CountDays` returns a result
that is not (-1, -1) but has the negative `totalDays` -2147483475: the 2147483821
days of the range exceed `INT_MAX`. -/
theorem CountDays_negative_total :
    invalidRange 2001 1 1 5881612 1 1 = false ∧
    ∃ fuel r, CountDays fuel 2001 1 1 5881612 1 1 = some r ∧ r.totalDays = -2147483475 ∧
      r ≠ { totalDays := -1, workDays := -1 } := by
  have hn : dayNumber 5881612 1 1 - dayNumber 2001 1 1 + 1 = 2147483821 := by decide
  have hrun := CountDays_run 2001 1 1 5881612 1 1 (by decide) (by decide) (by decide)
    (by decide) (by decide) (by decide)
  have ht : wrapInt (dayNumber 5881612 1 1 - dayNumber 2001 1 1 + 1) = -2147483475 := by
    rw [hn]; decide
  refine ⟨by decide, _, _, hrun, ht, ?_⟩
  intro h
  have h2 := congrArg Result.totalDays h
  simp only at h2
  rw [ht] at h2
  exact absurd h2 (by decide)

end WorkingDays

/-! # Theorems about the partition counter -/

namespace PartitionCounter

open WorkingDays (wrapInt addInt INT_MAX INT_MIN wrapInt_of_range wrapInt_range wrapInt_add_left)

/-! ## The run of `findPartitions` -/

theorem Run.after_nil (run : Run) (skipPrint : Bool) (h1 : INT_MIN ≤ run.count)
    (h2 : run.count ≤ INT_MAX) : run.after skipPrint [] = run := by
  unfold Run.after
  cases run with
  | mk c o =>
    simp only [List.length_nil, Nat.cast_zero, add_zero, List.append_nil, ite_self]
    rw [wrapInt_of_range c h1 h2]

theorem Run.after_after (run : Run) (skipPrint : Bool) (a b : List (List (List Nat))) :
    (run.after skipPrint a).after skipPrint b = run.after skipPrint (a ++ b) := by
  unfold Run.after
  simp only [List.length_append, Nat.cast_add]
  rw [wrapInt_add_left, add_assoc]
  cases skipPrint <;> simp

theorem Run.after_range (run : Run) (skipPrint : Bool) (a : List (List (List Nat))) :
    INT_MIN ≤ (run.after skipPrint a).count ∧ (run.after skipPrint a).count ≤ INT_MAX :=
  wrapInt_range _

/-- A loop whose every iteration counts and prints a list of partitions counts
and prints the lists of all its iterations. -/
theorem foldl_after (skipPrint : Bool) (step : Run → Nat → Run)
    (found : Nat → List (List (List Nat))) (indices : List Nat)
    (hstep : ∀ i, i ∈ indices → ∀ run : Run, INT_MIN ≤ run.count → run.count ≤ INT_MAX →
      step run i = run.after skipPrint (found i)) :
    ∀ run : Run, INT_MIN ≤ run.count → run.count ≤ INT_MAX →
      indices.foldl step run = run.after skipPrint (indices.flatMap found) := by
  induction indices with
  | nil =>
    intro run h1 h2
    simp only [List.foldl_nil, List.flatMap_nil]
    exact (Run.after_nil run skipPrint h1 h2).symm
  | cons i rest ih =>
    intro run h1 h2
    rw [List.foldl_cons, hstep i (List.mem_cons_self _ _) run h1 h2,
      ih (fun j hj => hstep j (List.mem_cons_of_mem _ hj)) _
        (Run.after_range run skipPrint _).1 (Run.after_range run skipPrint _).2,
      Run.after_after, List.flatMap_cons]

/-- The counter and the output of `findPartitions`: the partitions of `emitted`
are counted, and printed unless `skipPrint`. -/
theorem findPartitions_eq (fuel : Nat) :
    ∀ (sequence : List Nat) (current : List (List Nat)) (skipPrint : Bool) (run : Run),
      INT_MIN ≤ run.count → run.count ≤ INT_MAX →
      findPartitions fuel sequence current skipPrint run =
        run.after skipPrint (emitted fuel sequence current) := by
  induction fuel with
  | zero =>
    intro sequence current skipPrint run h1 h2
    simp only [findPartitions, emitted]
    exact (Run.after_nil run skipPrint h1 h2).symm
  | succ n ih =>
    intro sequence current skipPrint run h1 h2
    simp only [findPartitions, emitted]
    split
    · unfold Run.after addInt
      simp
    · apply foldl_after skipPrint _ _ _ _ run h1 h2
      intro i _ run2 g1 g2
      split
      · exact ih _ _ _ _ g1 g2
      · exact (Run.after_nil run2 skipPrint g1 g2).symm

/-! ## Cuts -/

theorem isCut_nil (parts : List (List Nat)) : IsCut [] parts ↔ parts = [] := by
  unfold IsCut
  constructor
  · rintro ⟨h1, h2⟩
    cases parts with
    | nil => rfl
    | cons p rest =>
      exfalso
      rw [List.flatten_cons] at h1
      exact h2 p (List.mem_cons_self _ _) (List.append_eq_nil.mp h1).1
  · rintro rfl
    exact ⟨rfl, fun p hp => absurd hp (List.not_mem_nil _)⟩

theorem isCut_cons (s p : List Nat) (parts : List (List Nat)) :
    IsCut s (p :: parts) ↔
      ∃ i, 1 ≤ i ∧ i ≤ s.length ∧ p = s.take i ∧ IsCut (s.drop i) parts := by
  unfold IsCut
  constructor
  · rintro ⟨h1, h2⟩
    have hp : p ≠ [] := h2 p (List.mem_cons_self _ _)
    rw [List.flatten_cons] at h1
    refine ⟨p.length, ?_, ?_, ?_, ?_, fun q hq => h2 q (List.mem_cons_of_mem _ hq)⟩
    · exact Nat.succ_le_of_lt (List.length_pos.mpr hp)
    · rw [← h1, List.length_append]; omega
    · rw [← h1, List.take_left]
    · rw [← h1, List.drop_left]
  · rintro ⟨i, h1, h2, rfl, h3, h4⟩
    refine ⟨?_, ?_⟩
    · rw [List.flatten_cons, h3, List.take_append_drop]
    · intro q hq
      rcases List.mem_cons.mp hq with h | h
      · rw [h]
        intro h0
        have := congrArg List.length h0
        rw [List.length_take, List.length_nil] at this
        omega
      · exact h4 q h

theorem isCut_ne_nil (s : List Nat) (hs : s ≠ []) (parts : List (List Nat))
    (h : IsCut s parts) : parts ≠ [] := by
  rintro rfl
  exact hs h.1.symm

/-! ## What `findPartitions` finds -/

theorem partValid_concat (current : List (List Nat)) (a p : List Nat) :
    partValid (current ++ [a]) p = partValid [a] p := by
  unfold partValid
  rw [List.getLast?_concat]
  rfl

/-- The partitions found by `findPartitions` below the parts `current` are
`current` followed by the cuts of the sequence that pass the rule of the code. -/
theorem mem_emitted (fuel : Nat) :
    ∀ (sequence : List Nat) (current parts : List (List Nat)), sequence.length < fuel →
      (parts ∈ emitted fuel sequence current ↔
        ∃ rest, parts = current ++ rest ∧ IsCut sequence rest ∧
          codeValid current rest = true) := by
  induction fuel with
  | zero => intro sequence current parts h; omega
  | succ n ih =>
    intro sequence current parts hlen
    simp only [emitted]
    by_cases h0 : sequence.length = 0
    · rw [if_pos h0]
      have hs : sequence = [] := List.length_eq_zero.mp h0
      subst hs
      rw [List.mem_singleton]
      constructor
      · rintro rfl
        exact ⟨[], by simp, (isCut_nil []).mpr rfl, rfl⟩
      · rintro ⟨rest, h1, h2, _⟩
        rw [(isCut_nil rest).mp h2] at h1
        simpa using h1
    · rw [if_neg h0, List.mem_flatMap]
      have hs : sequence ≠ [] := fun h => h0 (by rw [h]; rfl)
      constructor
      · rintro ⟨i, hi, hmem⟩
        rw [List.mem_range'_1] at hi
        by_cases hv : partValid current (sequence.take i) = true
        · rw [if_pos hv] at hmem
          have hl : (sequence.drop i).length < n := by rw [List.length_drop]; omega
          obtain ⟨rest, e1, e2, e3⟩ := (ih _ _ _ hl).mp hmem
          refine ⟨sequence.take i :: rest, ?_, ?_, ?_⟩
          · rw [e1]; simp
          · exact (isCut_cons _ _ _).mpr ⟨i, hi.1, by omega, rfl, e2⟩
          · simp only [codeValid, hv, e3, Bool.and_self]
        · rw [if_neg hv] at hmem
          exact absurd hmem (List.not_mem_nil _)
      · rintro ⟨rest, e1, e2, e3⟩
        cases rest with
        | nil => exact absurd rfl (isCut_ne_nil sequence hs [] e2)
        | cons p rest =>
          obtain ⟨i, i1, i2, rfl, i4⟩ := (isCut_cons _ _ _).mp e2
          simp only [codeValid, Bool.and_eq_true] at e3
          refine ⟨i, List.mem_range'_1.mpr ⟨i1, by omega⟩, ?_⟩
          rw [if_pos e3.1]
          have hl : (sequence.drop i).length < n := by rw [List.length_drop]; omega
          exact (ih _ _ _ hl).mpr ⟨rest, by rw [e1]; simp, i4, e3.2⟩

theorem nodup_emitted (fuel : Nat) :
    ∀ (sequence : List Nat) (current : List (List Nat)), sequence.length < fuel →
      (emitted fuel sequence current).Nodup := by
  induction fuel with
  | zero => intro sequence current h; omega
  | succ n ih =>
    intro sequence current hlen
    simp only [emitted]
    split
    · exact List.nodup_singleton _
    · rw [List.nodup_flatMap]
      constructor
      · intro i hi
        rw [List.mem_range'_1] at hi
        split
        · exact ih _ _ (by rw [List.length_drop]; omega)
        · exact List.nodup_nil
      · apply List.Nodup.pairwise_of_forall_ne (List.nodup_range' 1 sequence.length)
        intro i hi j hj hij
        rw [List.mem_range'_1] at hi hj
        intro parts hpi hpj
        simp only at hpi hpj
        split at hpi
        swap
        · exact absurd hpi (List.not_mem_nil _)
        split at hpj
        swap
        · exact absurd hpj (List.not_mem_nil _)
        obtain ⟨r1, e1, _, _⟩ := (mem_emitted n _ _ _ (by rw [List.length_drop]; omega)).mp hpi
        obtain ⟨r2, e2, _, _⟩ := (mem_emitted n _ _ _ (by rw [List.length_drop]; omega)).mp hpj
        rw [e1, List.append_assoc, List.append_assoc] at e2
        have e3 := List.append_cancel_left e2
        simp only [List.singleton_append, List.cons.injEq] at e3
        have e4 := congrArg List.length e3.1
        rw [List.length_take, List.length_take] at e4
        omega

/-! ## All the cuts of a string -/

theorem mem_cutsCons (c : Nat) (parts new : List (List Nat)) :
    new ∈ cutsCons c parts ↔
      (parts = [] ∧ new = [[c]]) ∨
      ∃ p rest, parts = p :: rest ∧ (new = [c] :: p :: rest ∨ new = (c :: p) :: rest) := by
  cases parts with
  | nil => simp [cutsCons]
  | cons p rest =>
    simp only [cutsCons, List.mem_cons, List.mem_singleton, List.not_mem_nil, or_false,
      false_and, false_or]
    constructor
    · intro h
      exact Or.inr ⟨p, rest, rfl, h⟩
    · rintro (⟨e, _⟩ | ⟨q, r, e, h⟩)
      · exact absurd e (by simp)
      · rw [(List.cons.inj e).1, (List.cons.inj e).2]
        exact h

theorem mem_cuts (s : List Nat) : ∀ parts : List (List Nat), parts ∈ cuts s ↔ IsCut s parts := by
  induction s with
  | nil =>
    intro parts
    rw [isCut_nil]
    simp [cuts]
  | cons c s ih =>
    intro parts
    simp only [cuts, List.mem_flatMap, mem_cutsCons]
    constructor
    · rintro ⟨old, hold, h⟩
      have hcut := (ih old).mp hold
      rcases h with ⟨rfl, rfl⟩ | ⟨p, rest, rfl, rfl | rfl⟩
      · obtain ⟨h1, _⟩ := hcut
        simp only [List.flatten_nil] at h1
        subst h1
        exact ⟨by simp, by simp⟩
      · obtain ⟨h1, h2⟩ := hcut
        refine ⟨by simp [← h1], ?_⟩
        intro q hq
        rcases List.mem_cons.mp hq with h | h
        · rw [h]; simp
        · exact h2 q h
      · obtain ⟨h1, h2⟩ := hcut
        refine ⟨by simp [← h1], ?_⟩
        intro q hq
        rcases List.mem_cons.mp hq with h | h
        · rw [h]; simp
        · exact h2 q (List.mem_cons_of_mem _ h)
    · rintro ⟨h1, h2⟩
      cases parts with
      | nil => simp at h1
      | cons q rest =>
        have hq : q ≠ [] := h2 q (List.mem_cons_self _ _)
        cases q with
        | nil => exact absurd rfl hq
        | cons c2 q2 =>
          simp only [List.flatten_cons, List.cons_append, List.cons.injEq] at h1
          obtain ⟨rfl, h1⟩ := h1
          cases q2 with
          | nil =>
            refine ⟨rest, (ih rest).mpr ⟨by simpa using h1,
              fun x hx => h2 x (List.mem_cons_of_mem _ hx)⟩, ?_⟩
            cases rest with
            | nil => exact Or.inl ⟨rfl, rfl⟩
            | cons p r => exact Or.inr ⟨p, r, rfl, Or.inl rfl⟩
          | cons c3 q3 =>
            refine ⟨(c3 :: q3) :: rest, (ih _).mpr ⟨by simpa using h1, ?_⟩,
              Or.inr ⟨c3 :: q3, rest, rfl, Or.inr rfl⟩⟩
            intro x hx
            rcases List.mem_cons.mp hx with h | h
            · rw [h]; simp
            · exact h2 x (List.mem_cons_of_mem _ h)

/-- The cut from which a cut of a longer string was made by `cutsCons`. -/
theorem cutsCons_inj (c : Nat) (a b new : List (List Nat))
    (ha : ∀ p, p ∈ a → p ≠ []) (hb : ∀ p, p ∈ b → p ≠ [])
    (h1 : new ∈ cutsCons c a) (h2 : new ∈ cutsCons c b) : a = b := by
  have key : ∀ (x y : List (List Nat)), (∀ p, p ∈ y → p ≠ []) →
      new ∈ cutsCons c x → new ∈ cutsCons c y →
      x = [] ∨ (∃ p rest, x = p :: rest ∧ new = [c] :: p :: rest) → x = y := by
    intro x y hy g1 g2 hx
    rw [mem_cutsCons] at g2
    rcases hx with rfl | ⟨p, rest, rfl, rfl⟩
    · have hn : new = [[c]] := by simpa [cutsCons] using g1
      subst hn
      rcases g2 with ⟨e, _⟩ | ⟨q, r, e, h | h⟩
      · exact e.symm
      · exact absurd (List.cons.inj h).2 (by simp)
      · have := (List.cons.inj (List.cons.inj h).1).2
        exact absurd this.symm (hy q (by rw [e]; exact List.mem_cons_self _ _))
    · rcases g2 with ⟨_, h⟩ | ⟨q, r, e, h | h⟩
      · exact absurd (List.cons.inj h).2 (by simp)
      · rw [e, (List.cons.inj h).2]
      · have := (List.cons.inj (List.cons.inj h).1).2
        exact absurd this.symm (hy q (by rw [e]; exact List.mem_cons_self _ _))
  have h1' := h1
  rw [mem_cutsCons] at h1'
  rcases h1' with ⟨e, _⟩ | ⟨p, rest, e, h | h⟩
  · exact key a b hb h1 h2 (Or.inl e)
  · exact key a b hb h1 h2 (Or.inr ⟨p, rest, e, h⟩)
  · have h2' := h2
    rw [mem_cutsCons] at h2'
    rcases h2' with ⟨e2, _⟩ | ⟨q, r, e2, g | g⟩
    · exact (key b a ha h2 h1 (Or.inl e2)).symm
    · exact (key b a ha h2 h1 (Or.inr ⟨q, r, e2, g⟩)).symm
    · rw [h] at g
      rw [e, e2, (List.cons.inj (List.cons.inj g).1).2, (List.cons.inj g).2]

theorem nodup_cuts (s : List Nat) : (cuts s).Nodup := by
  induction s with
  | nil => simp [cuts]
  | cons c s ih =>
    simp only [cuts]
    rw [List.nodup_flatMap]
    constructor
    · intro parts hparts
      have hcut := (mem_cuts s parts).mp hparts
      cases parts with
      | nil => simp [cutsCons]
      | cons p rest =>
        have hp : p ≠ [] := hcut.2 p (List.mem_cons_self _ _)
        simp only [cutsCons, List.nodup_cons, List.mem_singleton, List.cons.injEq,
          List.not_mem_nil, not_false_eq_true, List.nodup_nil, and_true]
        intro h
        exact hp h.1.2.symm
    · apply List.Nodup.pairwise_of_forall_ne ih
      intro a ha b hb hab new h1 h2
      exact hab (cutsCons_inj c a b new ((mem_cuts s a).mp ha).2 ((mem_cuts s b).mp hb).2 h1 h2)

theorem length_cuts (s : List Nat) (c : Nat) : (cuts (c :: s)).length = 2 ^ s.length := by
  induction s generalizing c with
  | nil => simp [cuts, cutsCons]
  | cons d s ih =>
    have h := ih d
    rw [show cuts (c :: d :: s) = (cuts (d :: s)).flatMap (cutsCons c) from rfl,
      List.length_flatMap]
    have hall : ∀ parts, parts ∈ cuts (d :: s) → (List.length ∘ cutsCons c) parts = 2 := by
      intro parts hparts
      have hne := isCut_ne_nil (d :: s) (by simp) parts ((mem_cuts _ parts).mp hparts)
      cases parts with
      | nil => exact absurd rfl hne
      | cons p rest => rfl
    rw [List.map_congr_left hall, List.map_const', List.sum_replicate, h]
    simp only [smul_eq_mul, List.length_cons]
    rw [pow_succ]

/-- The partitions found from depth 0 are the cuts of the sequence that pass
the rule of the code, each once. -/
theorem emitted_perm (fuel : Nat) (sequence : List Nat) (h : sequence.length < fuel) :
    (emitted fuel sequence []).Perm ((cuts sequence).filter (codeValid [])) := by
  rw [List.perm_ext_iff_of_nodup (nodup_emitted fuel sequence [] h)
    ((nodup_cuts sequence).filter _)]
  intro parts
  rw [mem_emitted fuel sequence [] parts h, List.mem_filter, mem_cuts]
  constructor
  · rintro ⟨rest, rfl, h1, h2⟩
    exact ⟨h1, h2⟩
  · rintro ⟨h1, h2⟩
    exact ⟨parts, rfl, h1, h2⟩

/-! ## The values read by `atol` -/

theorem isNumeric_iff (s : List Nat) : isNumeric s = true ↔ ∀ c, c ∈ s → isdigit c = true := by
  induction s with
  | nil => simp [isNumeric]
  | cons c s ih =>
    simp only [isNumeric, List.mem_cons, forall_eq_or_imp]
    cases hc : isdigit c <;> simp [ih]

theorem digitsValue_eq (s : List Nat) (hs : ∀ c, c ∈ s → isdigit c = true) :
    ∀ acc : Nat, digitsValue (acc : Int) s
      = ((s.foldl (fun acc c => acc * 10 + (c - 48)) acc : Nat) : Int) := by
  induction s with
  | nil => intro acc; rfl
  | cons c s ih =>
    intro acc
    have hc := hs c (List.mem_cons_self _ _)
    simp only [digitsValue, hc, if_true, List.foldl_cons]
    rw [← ih (fun d hd => hs d (List.mem_cons_of_mem _ hd))]
    congr 1
    unfold isdigit at hc
    simp only [Bool.and_eq_true, decide_eq_true_eq] at hc
    omega

/-- On a string of digits `atol` gives the numeric value, or `LONG_MAX` when
the value is greater. -/
theorem atol_digits (s : List Nat) (hs : ∀ c, c ∈ s → isdigit c = true) :
    atol s = min (numericValue s : Int) LONG_MAX := by
  have hv : digitsValue 0 s = (numericValue s : Int) := by
    have := digitsValue_eq s hs 0
    simpa [numericValue] using this
  cases s with
  | nil => rfl
  | cons c t =>
    have hc := hs c (List.mem_cons_self _ _)
    unfold isdigit at hc
    simp only [Bool.and_eq_true, decide_eq_true_eq] at hc
    have hsp : isspace c = false := by
      unfold isspace
      simp only [Bool.or_eq_false_iff, Bool.and_eq_false_imp, decide_eq_true_eq,
        decide_eq_false_iff_not]
      omega
    unfold atol
    rw [List.dropWhile_cons, hsp]
    simp only [Bool.false_eq_true, if_false]
    split
    · rename_i h
      have := (List.cons.inj h).1
      omega
    · rename_i h
      have := (List.cons.inj h).1
      omega
    · rename_i h1 h2 h3
      rw [hv]

theorem atol_fits (s : List Nat) (hs : ∀ c, c ∈ s → isdigit c = true)
    (hfit : (numericValue s : Int) ≤ LONG_MAX) : atol s = (numericValue s : Int) := by
  rw [atol_digits s hs, min_eq_left hfit]

theorem partValid_nil (part : List Nat) : partValid [] part = true := rfl

/-- Next to a previous part, `findPartitions` decides by the exact values of
the two parts when both fit a `long`. -/
theorem partValid_fits (current : List (List Nat)) (prev part : List Nat)
    (h1 : ∀ c, c ∈ prev → isdigit c = true) (h2 : ∀ c, c ∈ part → isdigit c = true)
    (f1 : (numericValue prev : Int) ≤ LONG_MAX) (f2 : (numericValue part : Int) ≤ LONG_MAX) :
    partValid (current ++ [prev]) part = decide (EvenLe prev part) := by
  rw [partValid_concat]
  unfold partValid EvenLe
  simp only [List.getLast?_singleton]
  rw [atol_fits prev h1 f1, atol_fits part h2 f2,
    Int.tmod_eq_emod (Int.natCast_nonneg _) (by decide)]
  by_cases he : numericValue prev % 2 = 0
  · have he2 : (numericValue prev : Int) % 2 = 0 := by omega
    by_cases hl : numericValue prev ≤ numericValue part
    · have hl2 : ¬ ((numericValue part : Int) < numericValue prev) := by omega
      simp [he, he2, hl, hl2]
    · have hl2 : (numericValue part : Int) < numericValue prev := by omega
      simp [he, he2, hl, hl2]
  · have he2 : ¬ (numericValue prev : Int) % 2 = 0 := by omega
    simp [he, he2]

theorem codeValid_chain (parts : List (List Nat)) :
    ∀ (current : List (List Nat)) (prev : List Nat),
      (∀ c, c ∈ prev → isdigit c = true) → (numericValue prev : Int) ≤ LONG_MAX →
      (∀ p, p ∈ parts → (∀ c, c ∈ p → isdigit c = true) ∧ (numericValue p : Int) ≤ LONG_MAX) →
      codeValid (current ++ [prev]) parts = decide (List.Chain EvenLe prev parts) := by
  induction parts with
  | nil => intro current prev _ _ _; simp [codeValid]
  | cons p rest ih =>
    intro current prev h1 f1 hall
    obtain ⟨h2, f2⟩ := hall p (List.mem_cons_self _ _)
    simp only [codeValid, List.chain_cons]
    rw [partValid_fits current prev p h1 h2 f1 f2,
      ih (current ++ [prev]) p h2 f2 (fun q hq => hall q (List.mem_cons_of_mem _ hq)),
      Bool.decide_and]

/-- On parts that fit a `long`, the rule of the code is the rule on
neighbours, by exact values. -/
theorem validNext_iff (parts : List (List Nat)) : ValidNext parts ↔ parts.Chain' EvenLe := by
  induction parts with
  | nil => simp [ValidNext]
  | cons a rest ih =>
    cases rest with
    | nil => simp [ValidNext]
    | cons b rest => rw [ValidNext, List.chain'_cons, ih]

theorem codeValid_fits (parts : List (List Nat))
    (hall : ∀ p, p ∈ parts →
      (∀ c, c ∈ p → isdigit c = true) ∧ (numericValue p : Int) ≤ LONG_MAX) :
    codeValid [] parts = decide (ValidNext parts) := by
  have hiff := validNext_iff parts
  rw [decide_eq_decide.mpr hiff]
  cases parts with
  | nil => simp [codeValid]
  | cons p rest =>
    obtain ⟨h2, f2⟩ := hall p (List.mem_cons_self _ _)
    simp only [codeValid, partValid_nil, Bool.true_and, List.Chain']
    exact codeValid_chain rest [] p h2 f2 (fun q hq => hall q (List.mem_cons_of_mem _ hq))

theorem isCut_digits (s : List Nat) (hs : isNumeric s = true) (parts : List (List Nat))
    (hcut : IsCut s parts) (p : List Nat) (hp : p ∈ parts) : ∀ c, c ∈ p → isdigit c = true := by
  intro c hc
  refine (isNumeric_iff s).mp hs c ?_
  rw [← hcut.1]
  exact List.mem_flatten.mpr ⟨p, hp, hc⟩

/-- The run of `findPartitions` from `main`: the partitions found are counted
in an `int`, and printed unless `skipPrint`. -/
theorem partitionRun_eq (s : List Nat) (skipPrint : Bool) :
    partitionRun s skipPrint =
      { count := wrapInt ((emitted (s.length + 1) s []).length),
        output := if skipPrint then [] else emitted (s.length + 1) s [] } := by
  unfold partitionRun
  rw [findPartitions_eq _ _ _ _ _ (by decide) (by decide)]
  unfold Run.after
  simp

/-! ## The validation of a line -/

theorem isspace_of_isdigit (c : Nat) (h : isdigit c = true) : isspace c = false := by
  unfold isdigit at h
  simp only [Bool.and_eq_true, decide_eq_true_eq] at h
  unfold isspace
  simp only [Bool.or_eq_false_iff, Bool.and_eq_false_imp, decide_eq_true_eq,
    decide_eq_false_iff_not]
  omega

theorem dropWhile_spaces (ws digits : List Nat) (hws : ∀ w, w ∈ ws → isspace w = true)
    (hd : ∀ d, d ∈ digits → isdigit d = true) :
    (ws ++ digits).dropWhile isspace = digits := by
  induction ws with
  | nil =>
    cases digits with
    | nil => rfl
    | cons d t =>
      rw [List.nil_append, List.dropWhile_cons,
        isspace_of_isdigit d (hd d (List.mem_cons_self _ _))]
      rfl
  | cons w ws ih =>
    rw [List.cons_append, List.dropWhile_cons, hws w (List.mem_cons_self _ _)]
    simp only [if_true]
    exact ih (fun x hx => hws x (List.mem_cons_of_mem _ hx))

theorem takeWhile_stop (p : Nat → Bool) (line : List Nat) (x : Nat) (rest : List Nat)
    (hline : ∀ c, c ∈ line → p c = true) (hx : p x = false) :
    (line ++ x :: rest).takeWhile p = line := by
  induction line with
  | nil => rw [List.nil_append, List.takeWhile_cons, hx]; rfl
  | cons c t ih =>
    rw [List.cons_append, List.takeWhile_cons, hline c (List.mem_cons_self _ _)]
    simp only [if_true]
    rw [ih (fun d hd => hline d (List.mem_cons_of_mem _ hd))]

theorem takeWhile_all (p : Nat → Bool) (line : List Nat) (hline : ∀ c, c ∈ line → p c = true) :
    line.takeWhile p = line := by
  induction line with
  | nil => rfl
  | cons c t ih =>
    rw [List.takeWhile_cons, hline c (List.mem_cons_self _ _)]
    simp only [if_true]
    rw [ih (fun d hd => hline d (List.mem_cons_of_mem _ hd))]

/-- The string that the body of the loop works on, for a line without NUL
that `fgets` stored with its line feed. -/
theorem line_of_buffer (line : List Nat) (hchars : ∀ c, c ∈ line → c ≠ 0 ∧ c ≠ 10) :
    (cString (line ++ [10])).takeWhile (fun c => decide (c ≠ 10)) = line := by
  unfold cString
  rw [takeWhile_all _ (line ++ [10])]
  · exact takeWhile_stop _ line 10 [] (fun c hc => by simpa using (hchars c hc).2) (by decide)
  · intro c hc
    rcases List.mem_append.mp hc with h | h
    · simpa using (hchars c h).1
    · rw [List.mem_singleton.mp h]; decide

/-- The same for a line at the end of the input, stored without a line feed. -/
theorem line_of_buffer_eof (line : List Nat) (hchars : ∀ c, c ∈ line → c ≠ 0 ∧ c ≠ 10) :
    (cString line).takeWhile (fun c => decide (c ≠ 10)) = line := by
  unfold cString
  rw [takeWhile_all _ line (fun c hc => by simpa using (hchars c hc).1)]
  exact takeWhile_all _ line (fun c hc => by simpa using (hchars c hc).2)

theorem fgetsRead_line (line : List Nat) (rest : List Nat) (hnl : ∀ c, c ∈ line → c ≠ 10) :
    ∀ n, line.length < n → fgetsRead n (line ++ 10 :: rest) = (line ++ [10], rest) := by
  induction line with
  | nil =>
    intro n hn
    cases n with
    | zero => exact absurd hn (Nat.not_lt_zero _)
    | succ n => rfl
  | cons c t ih =>
    intro n hn
    cases n with
    | zero => exact absurd hn (Nat.not_lt_zero _)
    | succ n =>
      rw [List.length_cons] at hn
      rw [List.cons_append, fgetsRead, if_neg (hnl c (List.mem_cons_self _ _)),
        ih (fun d hd => hnl d (List.mem_cons_of_mem _ hd)) n (by omega)]
      rfl

theorem fgetsRead_eof (line : List Nat) (hnl : ∀ c, c ∈ line → c ≠ 10) :
    ∀ n, line.length ≤ n → fgetsRead n line = (line, []) := by
  induction line with
  | nil => intro n _; cases n <;> rfl
  | cons c t ih =>
    intro n hn
    cases n with
    | zero => exact absurd hn (by rw [List.length_cons]; omega)
    | succ n =>
      rw [List.length_cons] at hn
      rw [fgetsRead, if_neg (hnl c (List.mem_cons_self _ _)),
        ih (fun d hd => hnl d (List.mem_cons_of_mem _ hd)) n (by omega)]

/-- Every call of `fgets` that reads takes at least one character. -/
theorem fgetsRead_length (stdin : List Nat) :
    ∀ n, 0 < n → stdin ≠ [] → (fgetsRead n stdin).2.length < stdin.length := by
  induction stdin with
  | nil => intro n _ h; exact absurd rfl h
  | cons c t ih =>
    intro n hn _
    cases n with
    | zero => exact absurd hn (Nat.lt_irrefl _)
    | succ n =>
      rw [fgetsRead]
      split
      · show t.length < (c :: t).length
        rw [List.length_cons]; omega
      · show (fgetsRead n t).2.length < (c :: t).length
        rw [List.length_cons]
        cases n with
        | zero =>
          rw [fgetsRead]
          show t.length < t.length + 1
          omega
        | succ n =>
          by_cases ht : t = []
          · subst ht; rw [fgetsRead]; exact Nat.succ_pos _
          · have := ih (n + 1) (Nat.succ_pos _) ht
            omega

/-- The function `main` returns on every input. -/
theorem mainLoop_returns :
    ∀ (fuel : Nat) (stdin : List Nat) (done : List Run), stdin.length < fuel →
      ∃ r, mainLoop fuel stdin done = some r := by
  intro fuel
  induction fuel with
  | zero => intro stdin done h; exact absurd h (Nat.not_lt_zero _)
  | succ fuel ih =>
    intro stdin done h
    by_cases hs : stdin = []
    · exact ⟨(done, 0), by simp only [mainLoop, fgets, hs, if_true]⟩
    · have hlen := fgetsRead_length stdin (SIZE - 1) (by decide) hs
      simp only [mainLoop, fgets, if_neg hs]
      cases hm : mainLine (fgetsRead (SIZE - 1) stdin).1 with
      | none => exact ⟨(done, 1), rfl⟩
      | some run => exact ih _ _ (by omega)

/-- What the body of the loop does with a buffer that holds an accepted
line. -/
theorem mainLine_accepted (buffer : List Nat) (c : Nat) (ws digits : List Nat)
    (hline : (cString buffer).takeWhile (fun c => decide (c ≠ 10)) = c :: (ws ++ digits))
    (hc : c = 63 ∨ c = 35) (hws : ∀ w, w ∈ ws → isspace w = true) (hne : digits ≠ [])
    (hd : ∀ d, d ∈ digits → isdigit d = true) :
    mainLine buffer = some (partitionRun digits (decide (c = 35))) := by
  unfold mainLine
  simp only [hline, List.head?_cons, List.drop_succ_cons, List.drop_zero, ne_eq,
    Option.some.injEq]
  rw [dropWhile_spaces ws digits hws hd]
  have hnum : isNumeric digits = true := (isNumeric_iff digits).mpr hd
  rw [if_neg (by omega), if_neg hne, hnum]
  rfl

theorem mainLine_isSome_iff (buffer line : List Nat)
    (hline : (cString buffer).takeWhile (fun c => decide (c ≠ 10)) = line) :
    (mainLine buffer).isSome = true ↔
      ∃ c ws digits, line = c :: (ws ++ digits) ∧ (c = 63 ∨ c = 35) ∧
        (∀ w, w ∈ ws → isspace w = true) ∧ digits ≠ [] ∧
        (∀ d, d ∈ digits → isdigit d = true) := by
  constructor
  · intro h
    unfold mainLine at h
    simp only [hline] at h
    cases line with
    | nil => simp at h
    | cons c tail =>
      simp only [List.head?_cons, List.drop_succ_cons, List.drop_zero, ne_eq,
        Option.some.injEq] at h
      by_cases hc : c = 63 ∨ c = 35
      swap
      · rw [if_pos (by omega)] at h
        simp at h
      rw [if_neg (by omega)] at h
      by_cases hne : tail.dropWhile isspace = []
      · rw [if_pos hne] at h
        simp at h
      rw [if_neg hne] at h
      by_cases hnum : isNumeric (tail.dropWhile isspace) = true
      swap
      · rw [Bool.not_eq_true] at hnum
        rw [hnum] at h
        simp at h
      exact ⟨c, tail.takeWhile isspace, tail.dropWhile isspace,
        by rw [List.takeWhile_append_dropWhile], hc,
        fun w hw => List.mem_takeWhile_imp hw, hne, (isNumeric_iff _).mp hnum⟩
  · rintro ⟨c, ws, digits, e, hc, hws, hne, hd⟩
    rw [mainLine_accepted buffer c ws digits (hline.trans e) hc hws hne hd]
    rfl

/-- C13, amended. Let a line of the input hold at most 998 characters, none
of them a NUL, and be ended by a line feed. Then one call of `fgets` reads the
line with its line feed and nothing more, and the partition tool accepts the
line exactly when its first character is `?` or `#` and what follows, once the
white space at its start is skipped, is non-empty and made of decimal digits
only: the loop of `main` goes on with the input left after an accepted line,
and after every other line `Invalid input.` is printed and `main` returns 1.
`main` returns on such an input, and a last line that no line feed ends is
read and judged in the same way. -/
theorem mainLine_accepts_iff (line rest : List Nat) (hlen : line.length + 1 < SIZE)
    (hchars : ∀ c, c ∈ line → c ≠ 0 ∧ c ≠ 10) :
    fgets SIZE (line ++ 10 :: rest) = some (line ++ [10], rest) ∧
    ((mainLine (line ++ [10])).isSome = true ↔
      ∃ c ws digits, line = c :: (ws ++ digits) ∧ (c = 63 ∨ c = 35) ∧
        (∀ w, w ∈ ws → isspace w = true) ∧ digits ≠ [] ∧
        (∀ d, d ∈ digits → isdigit d = true)) ∧
    (∀ fuel done run, mainLine (line ++ [10]) = some run →
      mainLoop (fuel + 1) (line ++ 10 :: rest) done = mainLoop fuel rest (done ++ [run])) ∧
    (∀ fuel done, mainLine (line ++ [10]) = none →
      mainLoop (fuel + 1) (line ++ 10 :: rest) done = some (done, 1)) ∧
    (∃ r, main (line ++ 10 :: rest) = some r) ∧
    (line ≠ [] → fgets SIZE line = some (line, []) ∧ mainLine line = mainLine (line ++ [10])) := by
  have hf : fgets SIZE (line ++ 10 :: rest) = some (line ++ [10], rest) := by
    unfold fgets
    rw [if_neg (by simp), fgetsRead_line line rest (fun c hc => (hchars c hc).2) _
      (by unfold SIZE at hlen ⊢; omega)]
  refine ⟨hf, mainLine_isSome_iff _ line (line_of_buffer line hchars), ?_, ?_,
    mainLoop_returns _ _ _ (Nat.lt_succ_self _), ?_⟩
  · intro fuel done run hrun
    simp only [mainLoop, hf, hrun]
  · intro fuel done hnone
    simp only [mainLoop, hf, hnone]
  · intro hne
    constructor
    · unfold fgets
      rw [if_neg hne, fgetsRead_eof line (fun c hc => (hchars c hc).2) _
        (by unfold SIZE at hlen ⊢; omega)]
    · unfold mainLine
      simp only [line_of_buffer line hchars, line_of_buffer_eof line hchars]

theorem mainLine_accepts_iff_witness :
    (str "#231").length + 1 < SIZE ∧ (∀ c, c ∈ str "#231" → c ≠ 0 ∧ c ≠ 10) ∧
    (fgets SIZE (str "#231" ++ 10 :: str "x") = some (str "#231" ++ [10], str "x") ∧
    ((mainLine (str "#231" ++ [10])).isSome = true ↔
      ∃ c ws digits, str "#231" = c :: (ws ++ digits) ∧ (c = 63 ∨ c = 35) ∧
        (∀ w, w ∈ ws → isspace w = true) ∧ digits ≠ [] ∧
        (∀ d, d ∈ digits → isdigit d = true)) ∧
    (∀ fuel done run, mainLine (str "#231" ++ [10]) = some run →
      mainLoop (fuel + 1) (str "#231" ++ 10 :: str "x") done
        = mainLoop fuel (str "x") (done ++ [run])) ∧
    (∀ fuel done, mainLine (str "#231" ++ [10]) = none →
      mainLoop (fuel + 1) (str "#231" ++ 10 :: str "x") done = some (done, 1)) ∧
    (∃ r, main (str "#231" ++ 10 :: str "x") = some r) ∧
    (str "#231" ≠ [] → fgets SIZE (str "#231") = some (str "#231", []) ∧
      mainLine (str "#231") = mainLine (str "#231" ++ [10]))) :=
  ⟨by decide, by decide, mainLine_accepts_iff (str "#231") (str "x") (by decide) (by decide)⟩

/-- C13 as stated fails on white space after the first character: the line
`? 12` is accepted, its two partitions are counted and `main` returns 0 at the
end of the input, although what follows the `?` holds a space. -/
theorem mainLine_accepts_space :
    fgets SIZE (str "? 12\n") = some (str "? 12\n", []) ∧
    (mainLine (str "? 12\n")).isSome = true ∧
    main (str "? 12\n") = some ([partitionRun (str "12") false], 0) ∧
    (partitionRun (str "12") false).count = 2 ∧
    ¬ (∀ c, c ∈ (str "? 12").drop 1 → isdigit c = true) := by
  decide

/-- The runs of `main` on the inputs `#231`, a line feed, `x` (the second line
is rejected) and `?12`, a line feed (the end of the input is reached). -/
theorem main_runs :
    main (str "#231\nx") = some ([{ count := 4, output := [] }], 1) ∧
    main (str "?12\n")
      = some ([{ count := 2, output := [[str "1", str "2"], [str "12"]] }], 0) := by
  decide

/-- A line of 1000 characters is not read by one call of `fgets`: of `?`, 998
spaces and the digit 1, the buffer receives the first 999 characters, and the
body of the loop finds nothing after the white space; `Invalid input.` is
printed and `main` returns 1. -/
theorem main_long_line :
    fgets SIZE (63 :: (List.replicate 998 32 ++ [49, 10]))
      = some (63 :: List.replicate 998 32, [49, 10]) ∧
    mainLine (63 :: List.replicate 998 32) = none ∧
    main (63 :: (List.replicate 998 32 ++ [49, 10])) = some ([], 1) := by
  have hr : ∀ (k : Nat) (rest : List Nat),
      fgetsRead k (List.replicate k 32 ++ rest) = (List.replicate k 32, rest) := by
    intro k
    induction k with
    | zero => intro rest; rfl
    | succ k ih =>
      intro rest
      rw [List.replicate_succ, List.cons_append, fgetsRead, if_neg (by decide), ih]
  have hf : fgets SIZE (63 :: (List.replicate 998 32 ++ [49, 10]))
      = some (63 :: List.replicate 998 32, [49, 10]) := by
    unfold fgets
    rw [if_neg (List.cons_ne_nil _ _)]
    show some (fgetsRead (998 + 1) (63 :: (List.replicate 998 32 ++ [49, 10]))) = _
    rw [fgetsRead, if_neg (by decide), hr]
  have hline : (cString (63 :: List.replicate 998 32)).takeWhile (fun c => decide (c ≠ 10))
      = 63 :: List.replicate 998 32 := by
    apply line_of_buffer_eof
    intro c hc
    rcases List.mem_cons.mp hc with e | hm
    · rw [e]; decide
    · rw [List.eq_of_mem_replicate hm]; decide
  have hnone : mainLine (63 :: List.replicate 998 32) = none := by
    cases hm : mainLine (63 :: List.replicate 998 32) with
    | none => rfl
    | some run =>
      have hsome : (mainLine (63 :: List.replicate 998 32)).isSome = true := by rw [hm]; rfl
      obtain ⟨c, ws, digits, e, _, _, hne, hd⟩ := (mainLine_isSome_iff _ _ hline).mp hsome
      obtain ⟨d, hdm⟩ := List.exists_mem_of_ne_nil digits hne
      have hmem : d ∈ List.replicate 998 32 := by
        rw [(List.cons.inj e).2]
        exact List.mem_append_right _ hdm
      have hd32 := hd d hdm
      rw [List.eq_of_mem_replicate hmem] at hd32
      exact absurd hd32 (by decide)
  refine ⟨hf, hnone, ?_⟩
  unfold main
  rw [mainLoop, hf]
  simp only
  rw [hnone]

/-- A line that holds a NUL is judged by what precedes the NUL: of `?12`, a
NUL and `x`, the body of the loop sees `?12`, and the line is accepted. -/
theorem main_nul :
    main [63, 49, 50, 0, 120, 10] = some ([partitionRun (str "12") false], 0) := by
  decide

/-! ## All cuts of a string of zeros -/

theorem numericValue_zeros (p : List Nat) (h : ∀ c, c ∈ p → c = 48) : numericValue p = 0 := by
  unfold numericValue
  induction p with
  | nil => rfl
  | cons c p ih =>
    rw [List.foldl_cons, h c (List.mem_cons_self _ _)]
    exact ih (fun d hd => h d (List.mem_cons_of_mem _ hd))

theorem isCut_zeros (n : Nat) (parts : List (List Nat)) (hcut : IsCut (zeros n) parts)
    (p : List Nat) (hp : p ∈ parts) :
    (∀ c, c ∈ p → isdigit c = true) ∧ numericValue p = 0 := by
  have hz : ∀ c, c ∈ p → c = 48 := by
    intro c hc
    have : c ∈ zeros n := by
      rw [← hcut.1]
      exact List.mem_flatten.mpr ⟨p, hp, hc⟩
    exact List.eq_of_mem_replicate this
  refine ⟨?_, numericValue_zeros p hz⟩
  intro c hc
  rw [hz c hc]
  rfl

theorem validAll_zeros (n : Nat) (parts : List (List Nat)) (hcut : IsCut (zeros n) parts) :
    ValidAll parts := by
  unfold ValidAll
  apply List.pairwise_of_forall_mem_list
  intro a ha b _ _
  rw [(isCut_zeros n parts hcut a ha).2]
  exact Nat.zero_le _

theorem codeValid_zeros (n : Nat) (parts : List (List Nat)) (hcut : IsCut (zeros n) parts) :
    codeValid [] parts = true := by
  rw [codeValid_fits parts, decide_eq_true_eq]
  · exact (validNext_iff parts).mpr (validAll_zeros n parts hcut).chain'
  · intro p hp
    obtain ⟨h1, h2⟩ := isCut_zeros n parts hcut p hp
    refine ⟨h1, ?_⟩
    rw [h2]
    decide

/-- On a string of `n + 1` zeros `findPartitions` finds all the `2 ^ n` cuts. -/
theorem emitted_zeros (n : Nat) :
    (emitted (n + 2) (zeros (n + 1)) []).length = 2 ^ n := by
  have hlen : (zeros (n + 1)).length = n + 1 := List.length_replicate _ _
  rw [(emitted_perm (n + 2) (zeros (n + 1)) (by rw [hlen]; omega)).length_eq]
  rw [List.filter_eq_self.mpr
    (fun parts hp => codeValid_zeros (n + 1) parts ((mem_cuts _ parts).mp hp))]
  have := length_cuts (zeros n) 48
  rw [show (zeros n).length = n from List.length_replicate _ _] at this
  exact this

theorem partitionRun_zeros (n : Nat) (skipPrint : Bool) :
    (partitionRun (zeros (n + 1)) skipPrint).count = wrapInt ((2 : Int) ^ n) ∧
    (emitted ((zeros (n + 1)).length + 1) (zeros (n + 1)) []).length = 2 ^ n := by
  have hlen : (zeros (n + 1)).length = n + 1 := List.length_replicate _ _
  rw [partitionRun_eq, hlen, emitted_zeros n]
  exact ⟨by push_cast; rfl, rfl⟩

/-! ## The contract of `findPartitions` -/

theorem filter_codeValid_fits (s : List Nat) (hdig : isNumeric s = true)
    (hfit : ∀ parts, parts ∈ cuts s → ∀ p, p ∈ parts → (numericValue p : Int) ≤ LONG_MAX) :
    (cuts s).filter (codeValid []) = (cuts s).filter (fun parts => decide (ValidNext parts)) := by
  apply List.filter_congr
  intro parts hparts
  apply codeValid_fits
  intro p hp
  exact ⟨isCut_digits s hdig parts ((mem_cuts s parts).mp hparts) p hp, hfit parts hparts p hp⟩

theorem main_example :
    (partitionRun (str "231") false).count = 4 ∧
    (partitionRun (str "231") false).output =
      [[str "2", str "3", str "1"], [str "2", str "31"], [str "23", str "1"], [str "231"]] ∧
    printPartition [str "2", str "31"] = str "* 2,31\n" := by
  decide

/-- C12, amended. For every string of decimal digits whose parts all fit a C
`long` and whose number of valid cuts fits an `int`, the count of
`findPartitions` is the number of ways to cut the string into consecutive
non-empty parts such that every part of even value is followed immediately by
a part of at least that value; the count is the same in both modes, and with
`?` exactly those cuts are printed, each once. -/
theorem findPartitions_neighbour_rule (s : List Nat) (hdig : isNumeric s = true)
    (hfit : ∀ parts, parts ∈ cuts s → ∀ p, p ∈ parts → (numericValue p : Int) ≤ LONG_MAX)
    (hcount : (((cuts s).filter (fun parts => decide (ValidNext parts))).length : Int)
      ≤ INT_MAX) :
    (partitionRun s true).count
      = (((cuts s).filter (fun parts => decide (ValidNext parts))).length : Int) ∧
    (partitionRun s false).count
      = (((cuts s).filter (fun parts => decide (ValidNext parts))).length : Int) ∧
    (partitionRun s false).output.Perm
      ((cuts s).filter (fun parts => decide (ValidNext parts))) ∧
    (partitionRun s true).output = [] := by
  have hperm := emitted_perm (s.length + 1) s (Nat.lt_succ_self _)
  rw [filter_codeValid_fits s hdig hfit] at hperm
  have hw : wrapInt ((emitted (s.length + 1) s []).length : Int)
      = (((cuts s).filter (fun parts => decide (ValidNext parts))).length : Int) := by
    rw [hperm.length_eq]
    exact wrapInt_of_range _ (by unfold INT_MIN; omega) hcount
  rw [partitionRun_eq, partitionRun_eq]
  exact ⟨hw, hw, hperm, rfl⟩

theorem findPartitions_neighbour_rule_witness :
    isNumeric (str "2302") = true ∧
    (∀ parts, parts ∈ cuts (str "2302") → ∀ p, p ∈ parts →
      (numericValue p : Int) ≤ LONG_MAX) ∧
    (((cuts (str "2302")).filter (fun parts => decide (ValidNext parts))).length : Int)
      ≤ INT_MAX ∧
    ((partitionRun (str "2302") true).count
      = (((cuts (str "2302")).filter (fun parts => decide (ValidNext parts))).length : Int) ∧
    (partitionRun (str "2302") false).count
      = (((cuts (str "2302")).filter (fun parts => decide (ValidNext parts))).length : Int) ∧
    (partitionRun (str "2302") false).output.Perm
      ((cuts (str "2302")).filter (fun parts => decide (ValidNext parts))) ∧
    (partitionRun (str "2302") true).output = []) :=
  ⟨by decide, by decide, by decide,
    findPartitions_neighbour_rule (str "2302") (by decide) (by decide) (by decide)⟩

theorem cuts_zeros_validAll (n : Nat) :
    ((cuts (zeros (n + 1))).filter (fun parts => decide (ValidAll parts))).length = 2 ^ n := by
  rw [List.filter_eq_self.mpr (fun parts hp => by
    rw [decide_eq_true_eq]
    exact validAll_zeros (n + 1) parts ((mem_cuts _ parts).mp hp))]
  have := length_cuts (zeros n) 48
  rw [show (zeros n).length = n from List.length_replicate _ _] at this
  exact this

theorem wrapInt_two_pow_32 : wrapInt ((2 : Int) ^ 32) = 0 := by
  norm_num [wrapInt]

/-- C12 as stated fails in two ways. In `231` the cut 2,3,1 is counted and
printed although the part 1 is less than the earlier even part 2: the code
compares a part with its neighbour only, and counts 4 cuts where the rule on
all later parts allows 3. And on a string of 33 zeros, all of whose
4294967296 cuts are valid, the `int` counter ends at 0. -/
theorem findPartitions_later_parts :
    (isNumeric (str "231") = true ∧
      (∀ parts, parts ∈ cuts (str "231") → ∀ p, p ∈ parts →
        (numericValue p : Int) ≤ LONG_MAX) ∧
      (partitionRun (str "231") true).count = 4 ∧
      ((cuts (str "231")).filter (fun parts => decide (ValidAll parts))).length = 3 ∧
      [str "2", str "3", str "1"] ∈ (partitionRun (str "231") false).output ∧
      ¬ ValidAll [str "2", str "3", str "1"]) ∧
    ((partitionRun (zeros 33) true).count = 0 ∧
      ((cuts (zeros 33)).filter (fun parts => decide (ValidAll parts))).length
        = 4294967296) := by
  refine ⟨by decide, ?_, ?_⟩
  · rw [← wrapInt_two_pow_32]
    exact (partitionRun_zeros 32 true).1
  · exact cuts_zeros_validAll 32

/-- C19, amended. The count of `findPartitions` is the same with and without
printing; with `?` the counter is the number of partitions printed, reduced to
the range of `int`, hence that number itself when it is at most `INT_MAX`; and
the parts of every partition printed are non-empty and concatenate to the
sequence. -/
theorem findPartitions_modes (s : List Nat) :
    (partitionRun s true).count = (partitionRun s false).count ∧
    (partitionRun s false).count = wrapInt ((partitionRun s false).output.length : Int) ∧
    (((partitionRun s false).output.length : Int) ≤ INT_MAX →
      (partitionRun s false).count = ((partitionRun s false).output.length : Int)) ∧
    ∀ parts, parts ∈ (partitionRun s false).output →
      parts.flatten = s ∧ ∀ p, p ∈ parts → p ≠ [] := by
  rw [partitionRun_eq, partitionRun_eq]
  refine ⟨rfl, rfl, ?_, ?_⟩
  · intro h
    exact wrapInt_of_range _ (by unfold INT_MIN; omega) h
  · intro parts hparts
    obtain ⟨rest, e1, e2, _⟩ := (mem_emitted _ s [] parts (Nat.lt_succ_self _)).mp hparts
    rw [List.nil_append] at e1
    rw [e1]
    exact e2

/-- C19 as stated fails when more than `INT_MAX` partitions are printed: for a
string of 33 zeros, 4294967296 partitions are printed and the count is 0. -/
theorem findPartitions_count_wraps :
    (partitionRun (zeros 33) false).output.length = 4294967296 ∧
    (partitionRun (zeros 33) false).count = 0 ∧ (partitionRun (zeros 33) true).count = 0 := by
  refine ⟨?_, ?_, ?_⟩
  · rw [partitionRun_eq]
    exact (partitionRun_zeros 32 false).2
  · rw [← wrapInt_two_pow_32]
    exact (partitionRun_zeros 32 false).1
  · rw [← wrapInt_two_pow_32]
    exact (partitionRun_zeros 32 true).1

/-! ## The comparison of parts -/

theorem numericValue_zeros_append (j : Nat) (p : List Nat) :
    numericValue (zeros j ++ p) = numericValue p := by
  have h0 : numericValue (zeros j) = 0 :=
    numericValue_zeros _ (fun c hc => List.eq_of_mem_replicate hc)
  unfold numericValue at h0 ⊢
  rw [List.foldl_append, h0]

theorem isdigit_zeros_append (j : Nat) (p : List Nat) (h : ∀ c, c ∈ p → isdigit c = true) :
    ∀ c, c ∈ zeros j ++ p → isdigit c = true := by
  intro c hc
  rcases List.mem_append.mp hc with hc | hc
  · rw [List.eq_of_mem_replicate hc]; rfl
  · exact h c hc

/-- C14, amended. For two parts that are strings of digits with values of at
most `LONG_MAX`, `findPartitions` rejects the later part exactly when the
value of the earlier part is even and the value of the later part is less,
both taken as natural numbers; zeros written in front of either part change
nothing. -/
theorem partValid_exact (current : List (List Nat)) (prev part : List Nat) (j k : Nat)
    (h1 : ∀ c, c ∈ prev → isdigit c = true) (h2 : ∀ c, c ∈ part → isdigit c = true)
    (f1 : (numericValue prev : Int) ≤ LONG_MAX) (f2 : (numericValue part : Int) ≤ LONG_MAX) :
    (partValid (current ++ [prev]) part = false ↔
      numericValue prev % 2 = 0 ∧ numericValue part < numericValue prev) ∧
    partValid (current ++ [zeros j ++ prev]) (zeros k ++ part)
      = partValid (current ++ [prev]) part := by
  constructor
  · rw [partValid_fits current prev part h1 h2 f1 f2, decide_eq_false_iff_not]
    unfold EvenLe
    constructor
    · intro h
      by_cases he : numericValue prev % 2 = 0
      · exact ⟨he, by by_contra hl; exact h (fun _ => by omega)⟩
      · exact absurd (fun e => absurd e he) h
    · rintro ⟨he, hl⟩ h
      have := h he
      omega
  · rw [partValid_fits current prev part h1 h2 f1 f2,
      partValid_fits current (zeros j ++ prev) (zeros k ++ part)
        (isdigit_zeros_append j prev h1) (isdigit_zeros_append k part h2)
        (by rw [numericValue_zeros_append]; exact f1)
        (by rw [numericValue_zeros_append]; exact f2)]
    unfold EvenLe
    simp only [numericValue_zeros_append]

theorem partValid_exact_witness :
    (∀ c, c ∈ str "10" → isdigit c = true) ∧ (∀ c, c ∈ str "9" → isdigit c = true) ∧
    (numericValue (str "10") : Int) ≤ LONG_MAX ∧ (numericValue (str "9") : Int) ≤ LONG_MAX ∧
    ((partValid ([str "4"] ++ [str "10"]) (str "9") = false ↔
      numericValue (str "10") % 2 = 0 ∧ numericValue (str "9") < numericValue (str "10")) ∧
    partValid ([str "4"] ++ [zeros 2 ++ str "10"]) (zeros 1 ++ str "9")
      = partValid ([str "4"] ++ [str "10"]) (str "9")) :=
  ⟨by decide, by decide, by decide, by decide,
    partValid_exact [str "4"] (str "10") (str "9") 2 1 (by decide) (by decide) (by decide)
      (by decide)⟩

/-- C14 as stated fails beyond `LONG_MAX`: the part 10000000000000000000 is
read by `atol` as 9223372036854775807, an odd number, so the part 1 is accepted
after it although 10000000000000000000 is even and 1 is less; the line
`?100000000000000000001` is accepted and the partition
`10000000000000000000,1` is printed. -/
theorem partValid_saturates :
    atol (str "10000000000000000000") = LONG_MAX ∧
    partValid [str "10000000000000000000"] (str "1") = true ∧
    numericValue (str "10000000000000000000") % 2 = 0 ∧
    numericValue (str "1") < numericValue (str "10000000000000000000") ∧
    mainLine (str "?100000000000000000001")
      = some (partitionRun (str "100000000000000000001") false) ∧
    [str "10000000000000000000", str "1"]
      ∈ (partitionRun (str "100000000000000000001") false).output := by
  refine ⟨by decide, by decide, by decide, by decide, ?_, ?_⟩
  · exact mainLine_accepted _ 63 [] (str "100000000000000000001") (by decide) (Or.inl rfl)
      (fun w hw => absurd hw (List.not_mem_nil w)) (by decide) (by decide)
  · rw [partitionRun_eq]
    have hcut : IsCut (str "100000000000000000001") [str "10000000000000000000", str "1"] :=
      ⟨by decide, by decide⟩
    exact (mem_emitted _ _ [] _ (Nat.lt_succ_self _)).mpr
      ⟨[str "10000000000000000000", str "1"], rfl, hcut, by decide⟩

/-! ## Bounds on the number of partitions -/

theorem foldl_digits_odd (p : List Nat) (hp : p ≠ [])
    (hodd : ∀ c, c ∈ p → isdigit c = true ∧ c % 2 = 1) :
    ∀ acc : Nat, (p.foldl (fun acc c => acc * 10 + (c - 48)) acc) % 2 = 1 := by
  induction p with
  | nil => exact absurd rfl hp
  | cons c t ih =>
    intro acc
    rw [List.foldl_cons]
    by_cases ht : t = []
    · subst ht
      have hc := hodd c (List.mem_cons_self _ _)
      unfold isdigit at hc
      simp only [Bool.and_eq_true, decide_eq_true_eq] at hc
      rw [List.foldl_nil]
      omega
    · exact ih ht (fun d hd => hodd d (List.mem_cons_of_mem _ hd)) _

theorem atol_odd (p : List Nat) (hp : p ≠ [])
    (hodd : ∀ c, c ∈ p → isdigit c = true ∧ c % 2 = 1) : (atol p).tmod 2 ≠ 0 := by
  rw [atol_digits p (fun c hc => (hodd c hc).1)]
  have h := foldl_digits_odd p hp hodd 0
  have hv : (numericValue p : Int) % 2 = 1 := by
    unfold numericValue
    omega
  rcases le_total (numericValue p : Int) LONG_MAX with hle | hle
  · rw [min_eq_left hle, Int.tmod_eq_emod (Int.natCast_nonneg _) (by decide)]
    omega
  · rw [min_eq_right hle]
    decide

theorem codeValid_odd (rest : List (List Nat)) :
    ∀ current : List (List Nat), (∀ p, p ∈ current → (atol p).tmod 2 ≠ 0) →
      (∀ p, p ∈ rest → (atol p).tmod 2 ≠ 0) → codeValid current rest = true := by
  induction rest with
  | nil => intro current _ _; rfl
  | cons q rest ih =>
    intro current hcur hrest
    have hq : partValid current q = true := by
      unfold partValid
      cases hl : current.getLast? with
      | none => rfl
      | some last =>
        have := hcur last (List.mem_of_mem_getLast? hl)
        simp [this]
    simp only [codeValid, hq, Bool.true_and]
    apply ih
    · intro p hp
      rcases List.mem_append.mp hp with hp | hp
      · exact hcur p hp
      · rw [List.mem_singleton.mp hp]
        exact hrest q (List.mem_cons_self _ _)
    · exact fun p hp => hrest p (List.mem_cons_of_mem _ hp)

theorem length_cuts_ne_nil (s : List Nat) (hs : s ≠ []) :
    (cuts s).length = 2 ^ (s.length - 1) := by
  cases s with
  | nil => exact absurd rfl hs
  | cons c t => exact length_cuts t c

theorem emitted_odd (s : List Nat) (hs : s ≠ [])
    (hodd : ∀ c, c ∈ s → isdigit c = true ∧ c % 2 = 1) :
    (emitted (s.length + 1) s []).length = 2 ^ (s.length - 1) := by
  rw [(emitted_perm (s.length + 1) s (Nat.lt_succ_self _)).length_eq]
  rw [List.filter_eq_self.mpr, length_cuts_ne_nil s hs]
  intro parts hparts
  have hcut := (mem_cuts s parts).mp hparts
  apply codeValid_odd parts []
  · intro p hp
    exact absurd hp (List.not_mem_nil p)
  · intro p hp
    apply atol_odd p (hcut.2 p hp)
    intro c hc
    apply hodd c
    rw [← hcut.1]
    exact List.mem_flatten.mpr ⟨p, hp, hc⟩

theorem whole_mem_emitted (s : List Nat) (hs : s ≠ []) : [s] ∈ emitted (s.length + 1) s [] := by
  have hcut : IsCut s [s] := by
    refine ⟨by simp, ?_⟩
    intro p hp
    rw [List.mem_singleton.mp hp]
    exact hs
  exact (mem_emitted _ s [] [s] (Nat.lt_succ_self _)).mpr ⟨[s], rfl, hcut, rfl⟩

/-- C20. For every non-empty sequence of length n, the number of partitions
found by `findPartitions`, which is the number printed with `?` and which the
`int` counter holds reduced to the range of `int` in both modes, is at least 1
and at most 2^(n-1); the whole sequence as a single part is among them; and
when every character is an odd digit the number is 2^(n-1). For n of at most
31 the counter itself lies between 1 and 2^(n-1). -/
theorem findPartitions_count_bounds (s : List Nat) (skipPrint : Bool) (hs : s ≠ []) :
    (partitionRun s skipPrint).count
      = wrapInt ((partitionRun s false).output.length : Int) ∧
    1 ≤ (partitionRun s false).output.length ∧
    (partitionRun s false).output.length ≤ 2 ^ (s.length - 1) ∧
    [s] ∈ (partitionRun s false).output ∧
    ((∀ c, c ∈ s → isdigit c = true ∧ c % 2 = 1) →
      (partitionRun s false).output.length = 2 ^ (s.length - 1)) ∧
    (s.length ≤ 31 →
      1 ≤ (partitionRun s skipPrint).count ∧
      (partitionRun s skipPrint).count ≤ 2 ^ (s.length - 1) ∧
      ((∀ c, c ∈ s → isdigit c = true ∧ c % 2 = 1) →
        (partitionRun s skipPrint).count = 2 ^ (s.length - 1))) := by
  rw [partitionRun_eq, partitionRun_eq]
  simp only [Bool.false_eq_true, if_false]
  have hmem := whole_mem_emitted s hs
  have h1 : 1 ≤ (emitted (s.length + 1) s []).length := List.length_pos_of_mem hmem
  have h2 : (emitted (s.length + 1) s []).length ≤ 2 ^ (s.length - 1) := by
    rw [(emitted_perm (s.length + 1) s (Nat.lt_succ_self _)).length_eq,
      ← length_cuts_ne_nil s hs]
    exact List.length_filter_le _ _
  refine ⟨trivial, h1, h2, hmem, emitted_odd s hs, ?_⟩
  intro hlen
  have hpow : 2 ^ (s.length - 1) ≤ 2 ^ 30 := Nat.pow_le_pow_right (by decide) (by omega)
  have hw : wrapInt ((emitted (s.length + 1) s []).length : Int)
      = ((emitted (s.length + 1) s []).length : Int) := by
    apply wrapInt_of_range
    · unfold INT_MIN; omega
    · unfold INT_MAX; omega
  rw [hw]
  refine ⟨by exact_mod_cast h1, by exact_mod_cast h2, ?_⟩
  intro hodd
  exact_mod_cast emitted_odd s hs hodd

theorem findPartitions_count_bounds_witness :
    str "1357" ≠ [] ∧
    ((partitionRun (str "1357") true).count
      = wrapInt ((partitionRun (str "1357") false).output.length : Int) ∧
    1 ≤ (partitionRun (str "1357") false).output.length ∧
    (partitionRun (str "1357") false).output.length ≤ 2 ^ ((str "1357").length - 1) ∧
    [str "1357"] ∈ (partitionRun (str "1357") false).output ∧
    ((∀ c, c ∈ str "1357" → isdigit c = true ∧ c % 2 = 1) →
      (partitionRun (str "1357") false).output.length = 2 ^ ((str "1357").length - 1)) ∧
    ((str "1357").length ≤ 31 →
      1 ≤ (partitionRun (str "1357") true).count ∧
      (partitionRun (str "1357") true).count ≤ 2 ^ ((str "1357").length - 1) ∧
      ((∀ c, c ∈ str "1357" → isdigit c = true ∧ c % 2 = 1) →
        (partitionRun (str "1357") true).count = 2 ^ ((str "1357").length - 1)))) :=
  ⟨by decide, findPartitions_count_bounds (str "1357") true (by decide)⟩

end PartitionCounter
